import Mathlib

/-!
# Order cache: a verification development

Shallow embedding of `internal/models/models.go` and
`internal/cache/inmemory_cache.go`.

* `time.Time` and `time.Duration` are integers (nanoseconds); `time.Now()` is an
  explicit argument `now` of every operation that reads the clock.
* `container/list` is a Lean list of `Element`s, front first.  A `*list.Element`
  is an `Element` value: a heap identity `id` plus the `*entry` it carries (the
  code never reassigns `Value` nor mutates an entry after it is built).
* `map[string]*list.Element` is an association list.
* The mutex and the stop channel are not part of the sequential state.
-/

namespace models

/-- Instants, in nanoseconds counted from the zero `time.Time`. -/
abbrev Time := Int

/-- Go `time.Duration`, in nanoseconds. -/
abbrev Duration := Int

/-- Go `float64`: finite values (as rationals) and the IEEE special values. -/
inductive Float64 where
  | finite (q : ℚ)
  | posInf
  | negInf
  | nan
deriving DecidableEq

/-- Zero value of `float64`. -/
def Float64.zero : Float64 := Float64.finite 0

structure Delivery where
  OrderUID : String
  Name : String
  Phone : String
  Zip : String
  City : String
  Address : String
  Region : String
  Email : String
deriving DecidableEq

structure Payment where
  TransactionUID : String
  RequestID : String
  CurrencyCode : String
  PaymentProvider : String
  AmountTotal : Float64
  PaymentDateTime : Int
  BankCode : String
  DeliveryCost : Float64
  GoodsTotal : Float64
  CustomFee : Float64
deriving DecidableEq

structure OrderItem where
  ChartID : Int
  TrackNumber : String
  UnitPrice : Float64
  RID : String
  ProductName : String
  SalePercent : Float64
  SizeCode : String
  LineTotal : Float64
  ProductID : Int
  BrandName : String
  StatusCode : Int
deriving DecidableEq

structure Order where
  OrderUID : String
  TrackNumber : String
  EntryPoint : String
  LocaleCode : String
  InternalSignature : String
  CustomerId : String
  DeliveryService : String
  ShardKey : String
  StateMachineID : Int
  DateCreated : Time
  OOFShard : String
  Delivery : Delivery
  Payment : Payment
  Items : List OrderItem
deriving DecidableEq

/-- Zero value `models.Delivery{}`. -/
def Delivery.zero : Delivery := ⟨"", "", "", "", "", "", "", ""⟩

/-- Zero value `models.Payment{}`. -/
def Payment.zero : Payment :=
  ⟨"", "", "", "", Float64.zero, 0, "", Float64.zero, Float64.zero, Float64.zero⟩

/-- Zero value `models.Order{}`. -/
def Order.zero : Order :=
  ⟨"", "", "", "", "", "", "", "", 0, 0, "", Delivery.zero, Payment.zero, []⟩

/-- Go `a <= b` on `float64` (IEEE 754: false as soon as one side is NaN). -/
def Float64.le : Float64 → Float64 → Bool
  | Float64.nan, _ => false
  | _, Float64.nan => false
  | Float64.negInf, _ => true
  | _, Float64.posInf => true
  | Float64.finite a, Float64.finite b => decide (a ≤ b)
  | Float64.posInf, _ => false
  | _, Float64.negInf => false

/-- Go `a >= b` on `float64`. -/
def Float64.ge (a b : Float64) : Bool := Float64.le b a

/-- Conversion of an untyped integer constant to `float64`. -/
def Float64.ofInt (n : Int) : Float64 := Float64.finite n

end models

namespace cache

open models

/-- Go `error` values are carried by their message; `nil` is `none`. -/
abbrev error := String

/-- Cache element `entry`: the order, its key and its expiry instant. -/
structure entry where
  key : String
  value : Order
  exp : Time
deriving DecidableEq

/-- A `*list.Element`: heap identity and the `*entry` stored in `Value`. -/
structure Element where
  id : Nat
  Value : entry
deriving DecidableEq

/-- Sequential state of `InMemoryCache`.  `nextId` is the identity the next
allocated list element receives. -/
structure InMemoryCache where
  capacity : Int
  ttl : Duration
  cache : List (String × Element)
  lruList : List Element
  nextId : Nat
deriving DecidableEq

/-! ### Go map primitives on `map[string]*list.Element` -/

/-- Lookup `m[k]` with the comma-ok flag as `Option`. -/
def mapGet (m : List (String × Element)) (k : String) : Option Element :=
  (m.find? (fun p => p.1 == k)).map Prod.snd

/-- Builtin `delete(m, k)`. -/
def mapDelete (m : List (String × Element)) (k : String) : List (String × Element) :=
  m.filter (fun p => p.1 != k)

/-- Assignment `m[k] = v`. -/
def mapSet (m : List (String × Element)) (k : String) (v : Element) :
    List (String × Element) :=
  (k, v) :: mapDelete m k

/-! ### `container/list` primitives -/

/-- Method `l.Remove(e)`: unlinks the element with the identity of `e`, if it is in `l`. -/
def listRemove (l : List Element) (e : Element) : List Element :=
  l.filter (fun x => x.id != e.id)

/-- Method `l.MoveToFront(e)`: no effect when `e` is not an element of `l`. -/
def listMoveToFront (l : List Element) (e : Element) : List Element :=
  match l.find? (fun x => x.id == e.id) with
  | some x => x :: listRemove l e
  | none => l

/-- Method `l.Back()`. -/
def listBack (l : List Element) : Option Element := l.getLast?

/-! ### `InMemoryCache` -/

/-- Constructor `NewInMemoryCache(capacity, ttl)`: the cache it returns.  Its
statement `if ttl > 0 { go c.startCleanup() }` is `goStartCleanup`; the sweeps of
that goroutine are the operation `cleanupExpired` run at arbitrary instants. -/
def NewInMemoryCache (capacity : Int) (ttl : Duration) : InMemoryCache :=
  { capacity := capacity, ttl := ttl, cache := [], lruList := [], nextId := 0 }

/-- Loop guard of `evictIfNeeded`: `c.lruList.Len() > c.capacity && c.capacity > 0`. -/
def evictGuard (c : InMemoryCache) : Bool :=
  decide ((c.lruList.length : Int) > c.capacity) && decide (c.capacity > 0)

/-- One iteration of the `for` loop of `evictIfNeeded`, `fuel` bounding the
number of iterations still allowed. -/
def evictLoop : Nat → InMemoryCache → InMemoryCache
  | 0, c => c
  | fuel + 1, c =>
    if evictGuard c then
      match listBack c.lruList with
      | none => c
      | some oldest =>
        evictLoop fuel
          { c with
            cache := mapDelete c.cache oldest.Value.key
            lruList := listRemove c.lruList oldest }
    else c

/-- Method `evictIfNeeded`: every iteration unlinks at least the back element, so
`lruList.length` iterations always suffice (see `evictIfNeeded_guard`). -/
def evictIfNeeded (c : InMemoryCache) : InMemoryCache :=
  evictLoop c.lruList.length c

/-- Method `SaveOrder(order)` at clock reading `now`. -/
def SaveOrder (c : InMemoryCache) (order : Order) (now : Time) :
    InMemoryCache × Option error :=
  let exp := now + c.ttl
  let newEntry : entry := { key := order.OrderUID, value := order, exp := exp }
  let l1 :=
    match mapGet c.cache order.OrderUID with
    | some elem => listRemove c.lruList elem
    | none => c.lruList
  let elem : Element := { id := c.nextId, Value := newEntry }
  let c1 : InMemoryCache :=
    { c with
      lruList := elem :: l1
      cache := mapSet c.cache order.OrderUID elem
      nextId := c.nextId + 1 }
  (evictIfNeeded c1, none)

/-- Method `GetOrder(orderUID)` at clock reading `now`: the new state and the
returned triple `(order, found, err)`. -/
def GetOrder (c : InMemoryCache) (orderUID : String) (now : Time) :
    InMemoryCache × (Order × Bool × Option error) :=
  match mapGet c.cache orderUID with
  | none => (c, (Order.zero, false, none))
  | some elem =>
    let ent := elem.Value
    if now > ent.exp then
      ({ c with
          lruList := listRemove c.lruList elem
          cache := mapDelete c.cache orderUID },
        (Order.zero, false, none))
    else
      ({ c with lruList := listMoveToFront c.lruList elem }, (ent.value, true, none))

/-- Method `OrderExists(orderUID)`. -/
def OrderExists (c : InMemoryCache) (orderUID : String) (now : Time) :
    InMemoryCache × (Bool × Option error) :=
  let r := GetOrder c orderUID now
  (r.1, (r.2.2.1, none))

/-- Method `RemoveOrder(orderUID)`. -/
def RemoveOrder (c : InMemoryCache) (orderUID : String) : InMemoryCache × Option error :=
  match mapGet c.cache orderUID with
  | some elem =>
    ({ c with
        lruList := listRemove c.lruList elem
        cache := mapDelete c.cache orderUID },
      none)
  | none => (c, none)

/-- Method `Clear()`. -/
def Clear (c : InMemoryCache) : InMemoryCache × Option error :=
  ({ c with cache := [], lruList := [] }, none)

/-- Method `GetAllOrders()` at clock reading `now`. -/
def GetAllOrders (c : InMemoryCache) (now : Time) : List Order × Option error :=
  ((c.lruList.filter (fun e => decide (now < e.Value.exp))).map (fun e => e.Value.value), none)

/-- Body of the second loop of `cleanupExpired` for one key. -/
def cleanupKey (c : InMemoryCache) (key : String) : InMemoryCache :=
  match mapGet c.cache key with
  | some elem =>
    { c with
      lruList := listRemove c.lruList elem
      cache := mapDelete c.cache key }
  | none => c

/-- Method `cleanupExpired()` at clock reading `now`. -/
def cleanupExpired (c : InMemoryCache) (now : Time) : InMemoryCache :=
  let keysToRemove :=
    (c.cache.filter (fun p => decide (now > p.2.Value.exp))).map Prod.fst
  keysToRemove.foldl cleanupKey c

/-- Method `Close()`: stops the background sweep and clears. -/
def Close (c : InMemoryCache) : InMemoryCache × Option error :=
  ((Clear c).1, none)

/-! ### Sequences of calls -/

/-- One call on the cache, with the clock reading it observes. -/
inductive Op where
  | save (order : Order) (now : Time)
  | get (orderUID : String) (now : Time)
  | exist (orderUID : String) (now : Time)
  | remove (orderUID : String)
  | clear
  | sweep (now : Time)
  | all (now : Time)

/-- State after one call. -/
def step (c : InMemoryCache) : Op → InMemoryCache
  | Op.save o now => (SaveOrder c o now).1
  | Op.get k now => (GetOrder c k now).1
  | Op.exist k now => (OrderExists c k now).1
  | Op.remove k => (RemoveOrder c k).1
  | Op.clear => (Clear c).1
  | Op.sweep now => cleanupExpired c now
  | Op.all _ => c

/-- State after a sequence of calls. -/
def run (c : InMemoryCache) (ops : List Op) : InMemoryCache :=
  ops.foldl step c

/-- States the program can be in: those a sequence of calls produces from a
freshly constructed cache. -/
def Reachable (c : InMemoryCache) : Prop :=
  ∃ (capacity : Int) (ttl : Duration) (ops : List Op),
    c = run (NewInMemoryCache capacity ttl) ops

/-! ### Representation invariant and specification-level notions -/

/-- Elements of `l` other than those stored under key `k`. -/
def dropKey (l : List Element) (k : String) : List Element :=
  l.filter (fun x => x.Value.key != k)

/-- Bindings of a map that indexes exactly the elements of `l` by their keys. -/
def indexOf (l : List Element) : List (String × Element) :=
  l.map (fun e => (e.Value.key, e))

/-- Map/list consistency: list elements have distinct identities and distinct
keys, the map binds every key of the list to its element and nothing else, and
allocated identities are below `nextId`. -/
structure WF (c : InMemoryCache) : Prop where
  ids : (c.lruList.map Element.id).Nodup
  keys : (c.lruList.map (fun e => e.Value.key)).Nodup
  perm : c.cache.Perm (indexOf c.lruList)
  fresh : ∀ e ∈ c.lruList, e.id < c.nextId

/-- Key a call touches in state `c`: a `SaveOrder` touches the key it saves, a
`GetOrder` or `OrderExists` touches the key it looks up when it finds it. -/
def touched (c : InMemoryCache) : Op → Option String
  | Op.save o _ => some o.OrderUID
  | Op.get k now => if (GetOrder c k now).2.2.1 then some k else none
  | Op.exist k now => if (OrderExists c k now).2.1 then some k else none
  | _ => none

/-- Cache state together with the bookkeeping of touches: `clock` counts the
calls made so far and `stamp k` is the position (from 1) of the most recent call
that touched `k`, or `0` when no call has. -/
structure Traced where
  c : InMemoryCache
  clock : Nat
  stamp : String → Nat

/-- One call on a traced state. -/
def stepT (t : Traced) (op : Op) : Traced :=
  { c := step t.c op
    clock := t.clock + 1
    stamp :=
      match touched t.c op with
      | some k => Function.update t.stamp k (t.clock + 1)
      | none => t.stamp }

/-- Traced state after a sequence of calls on `c`. -/
def runT (c : InMemoryCache) (ops : List Op) : Traced :=
  ops.foldl stepT { c := c, clock := 0, stamp := fun _ => 0 }

/-- Position (from 1) in `ops` of the most recent touch of `k`, `0` if none. -/
def lastTouch (c : InMemoryCache) (ops : List Op) (k : String) : Nat :=
  (runT c ops).stamp k

/-- Test order carrying only an identifier, every other field zero. -/
def sampleOrder (uid : String) : Order :=
  { Order.zero with OrderUID := uid }

/-- Stored pairs (identifier, order) in recency order, most recent first. -/
def contents (c : InMemoryCache) : List (String × Order) :=
  c.lruList.map (fun e => (e.Value.key, e.Value.value))

/-- Property carried along a run with no further save of `k`: the binding of `k`,
if any, expires at `x`. -/
def ExpiresAt (m : List (String × Element)) (k : String) (x : Time) : Prop :=
  ∀ e, mapGet m k = some e → e.Value.exp = x

/-- Calls other than a `SaveOrder` of identifier `k`. -/
def NoSaveOf (k : String) : Op → Bool
  | Op.save o _ => o.OrderUID != k
  | _ => true

/-- Entry `SaveOrder` builds for order `p.1` saved at instant `p.2` under `ttl`. -/
def savedEntry (ttl : Duration) (p : Order × Time) : entry :=
  { key := p.1.OrderUID, value := p.1, exp := p.2 + ttl }

/-- Calls saving the orders of `saves` in sequence, each at its instant. -/
def saveOps (saves : List (Order × Time)) : List Op :=
  saves.map (fun p => Op.save p.1 p.2)

/-- Recency list `l` agrees with the touch bookkeeping: every stored key has been
touched, at a position not after `clock`, and the list is in strictly decreasing
order of most recent touch. -/
def Ordered (stamp : String → Nat) (clock : Nat) (l : List Element) : Prop :=
  (∀ e ∈ l, 0 < stamp e.Value.key ∧ stamp e.Value.key ≤ clock) ∧
  l.Pairwise (fun a b => stamp b.Value.key < stamp a.Value.key)

/-- Invariant of traced runs. -/
def TracedOk (t : Traced) : Prop :=
  WF t.c ∧ Ordered t.stamp t.clock t.c.lruList

/-- Elements of `l` that are not expired at `now` in the sense of
`cleanupExpired` (`now.After(exp)` is false). -/
def unexpired (l : List Element) (now : Time) : List Element :=
  l.filter (fun e => !decide (now > e.Value.exp))

/-! ### Interface `Cache` -/

/-- Interface `Cache` over an implementation with states `σ`: every method takes
the state before the call and returns the state after it with its results. -/
structure Cache (σ : Type) where
  SaveOrder : σ → Order → σ × Option error
  GetOrder : σ → String → σ × (Order × Bool × Option error)
  OrderExists : σ → String → σ × (Bool × Option error)
  RemoveOrder : σ → String → σ × Option error
  Clear : σ → σ × Option error
  GetAllOrders : σ → σ × (List Order × Option error)
  Close : σ → σ × Option error

/-- Implementation `*InMemoryCache` of `Cache`.  The state pairs the cache with
the number of clock readings made so far, and `clock n` is the value the `n`-th
`time.Now()` returns. -/
def inMemory (clock : Nat → Time) : Cache (InMemoryCache × Nat) where
  SaveOrder := fun s order =>
    (((SaveOrder s.1 order (clock s.2)).1, s.2 + 1), (SaveOrder s.1 order (clock s.2)).2)
  GetOrder := fun s orderUID =>
    (((GetOrder s.1 orderUID (clock s.2)).1, s.2 + 1), (GetOrder s.1 orderUID (clock s.2)).2)
  OrderExists := fun s orderUID =>
    (((OrderExists s.1 orderUID (clock s.2)).1, s.2 + 1),
      (OrderExists s.1 orderUID (clock s.2)).2)
  RemoveOrder := fun s orderUID => (((RemoveOrder s.1 orderUID).1, s.2), (RemoveOrder s.1 orderUID).2)
  Clear := fun s => (((Clear s.1).1, s.2), (Clear s.1).2)
  GetAllOrders := fun s => ((s.1, s.2 + 1), GetAllOrders s.1 (clock s.2))
  Close := fun s => (((Close s.1).1, s.2), (Close s.1).2)

/-- The key map and the recency list describe the same entries: every identifier
is carried by at most one list element, the keys of the map are the identifiers
of the list, each key is bound once, to the list element carrying it, and the
list is as long as the map is large. -/
structure Consistent (c : InMemoryCache) : Prop where
  unique : ∀ e₁ ∈ c.lruList, ∀ e₂ ∈ c.lruList, e₁.Value.key = e₂.Value.key → e₁ = e₂
  once : (c.lruList.map (fun e => e.Value.key)).Nodup
  keys : ∀ k, k ∈ c.cache.map Prod.fst ↔ k ∈ c.lruList.map (fun e => e.Value.key)
  bound_once : (c.cache.map Prod.fst).Nodup
  points : ∀ k e, (k, e) ∈ c.cache → e ∈ c.lruList ∧ e.Value.key = k
  lookup : ∀ e ∈ c.lruList, mapGet c.cache e.Value.key = some e
  size : c.lruList.length = c.cache.length

/-! ### Factory -/

/-- Type `CacheType`. -/
abbrev CacheType := String

/-- Constant `CacheTypeRedis`. -/
def CacheTypeRedis : CacheType := "redis"

/-- Constant `CacheTypeInMemory`. -/
def CacheTypeInMemory : CacheType := "inmemory"

/-- Constant `time.Minute`, in nanoseconds. -/
def Minute : Duration := 60000000000

/-- Constant `time.Hour`, in nanoseconds. -/
def Hour : Duration := 3600000000000

/-- Type `RedisConfig`. -/
structure RedisConfig where
  Addr : String
  Password : String
  DB : Int
deriving DecidableEq

/-- Type `Config` of the factory (the field `Type` is written `Type'`). -/
structure Config where
  Type' : CacheType
  Redis : RedisConfig
  Capacity : Int
  TTL : Duration
deriving DecidableEq

/-- Zero value `cache.Config{}`. -/
def Config.zero : Config := ⟨"", ⟨"", "", 0⟩, 0, 0⟩

/-- A non-nil `Cache` as `New` returns it: an `*InMemoryCache`, or a `*RedisCache`
pointer (possibly nil) over Redis clients `ρ`. -/
inductive Built (ρ : Type) where
  | inMemory (c : InMemoryCache)
  | redis (r : Option ρ)
deriving DecidableEq

/-- Function `New(config, err)`; `NewRedisCache` is the Redis constructor, which
connects to the server.  The argument `err` is not looked at. -/
def New {ρ : Type} (NewRedisCache : String → String → Int → Option ρ × Option error)
    (config : Config) (_err : Option error) : Option (Built ρ) × Option error :=
  if config.Type' = CacheTypeRedis then
    (some (Built.redis
        (NewRedisCache config.Redis.Addr config.Redis.Password config.Redis.DB).1),
      (NewRedisCache config.Redis.Addr config.Redis.Password config.Redis.DB).2)
  else if config.Type' = CacheTypeInMemory then
    if config.Capacity ≤ 0 then (none, some "in-memory cache capacity must be > 0")
    else
      (some (Built.inMemory
          (NewInMemoryCache config.Capacity (if config.TTL = 0 then 1 * Hour else config.TTL))),
        none)
  else (none, some ("unknown cache type: " ++ config.Type'))

/-! ### Background goroutine of the constructor -/

/-- Function `time.NewTicker(d)` of the standard library: it panics when `d <= 0`
(`none`); otherwise the ticker fires every `d` (`some d`). -/
def NewTicker (d : Duration) : Option Duration :=
  if d ≤ 0 then none else some d

/-- What the constructor leaves running beside the cache it returns: no
goroutine, a goroutine that calls `cleanupExpired` at every tick of the given
period, or a goroutine that has panicked, which ends the process. -/
inductive Background where
  | off
  | sweepEvery (period : Duration)
  | panicked
deriving DecidableEq

/-- Method `startCleanup`, up to the creation of its ticker,
`time.NewTicker(c.ttl / 2)`; the division of `time.Duration` truncates. -/
def startCleanup (c : InMemoryCache) : Background :=
  match NewTicker (Int.tdiv c.ttl 2) with
  | none => Background.panicked
  | some period => Background.sweepEvery period

/-- Statement `if ttl > 0 { go c.startCleanup() }` of `NewInMemoryCache`. -/
def goStartCleanup (capacity : Int) (ttl : Duration) : Background :=
  if ttl > 0 then startCleanup (NewInMemoryCache capacity ttl) else Background.off

end cache

namespace regexp

/-- Regular expressions, for the constructs `emailRegex` is written with. -/
inductive Regex where
  | fail
  | eps
  | cls (p : Char → Bool)
  | seq (a b : Regex)
  | alt (a b : Regex)
  | star (a : Regex)

/-- One or more repetitions, `r+`. -/
def Regex.plus (r : Regex) : Regex := Regex.seq r (Regex.star r)

/-- Whether `r` matches the empty text. -/
def Regex.nullable : Regex → Bool
  | Regex.fail => false
  | Regex.eps => true
  | Regex.cls _ => false
  | Regex.seq a b => a.nullable && b.nullable
  | Regex.alt a b => a.nullable || b.nullable
  | Regex.star _ => true

/-- Derivative of `r` by the rune `c`: matches `w` exactly when `r` matches `c`
followed by `w`. -/
def Regex.deriv (c : Char) : Regex → Regex
  | Regex.fail => Regex.fail
  | Regex.eps => Regex.fail
  | Regex.cls p => if p c then Regex.eps else Regex.fail
  | Regex.seq a b =>
    if a.nullable then Regex.alt (Regex.seq (a.deriv c) b) (b.deriv c)
    else Regex.seq (a.deriv c) b
  | Regex.alt a b => Regex.alt (a.deriv c) (b.deriv c)
  | Regex.star a => Regex.seq (a.deriv c) (Regex.star a)

/-- Whether `r` matches the whole text. -/
def Regex.matchAll (r : Regex) : List Char → Bool
  | [] => r.nullable
  | c :: cs => (r.deriv c).matchAll cs

/-- Method `MatchString` of a pattern written `^r$`: the whole of `s` matches `r`. -/
def MatchString (r : Regex) (s : String) : Bool := r.matchAll s.data

end regexp

namespace strings

/-- Range `'A'..'Z'`. -/
def isUpperASCII (c : Char) : Bool := decide ('A' ≤ c) && decide (c ≤ 'Z')

/-- Go `unicode.ToLower` as far as ASCII can tell: `A`..`Z` go to `a`..`z`, and the
two runes above U+007F whose lower case is an ASCII letter, U+0130 and U+212A
(Kelvin sign), go to `i` and `k`.  Every other rune above U+007F has a lower case
above U+007F and is left in place. -/
def toLowerRune (c : Char) : Char :=
  if isUpperASCII c then Char.ofNat (c.toNat + 32)
  else if c = Char.ofNat 0x130 then 'i'
  else if c = Char.ofNat 0x212A then 'k'
  else c

/-- Go `strings.ToLower`: every rune mapped to its lower case. -/
def ToLower (s : String) : String := String.mk (s.data.map toLowerRune)

/-- Go `strings.Split(s, sep)` for a separator `sep` of one rune, on lists of
runes: the pieces of `s` between the occurrences of `sep`. -/
def Split : List Char → Char → List (List Char)
  | [], _ => [[]]
  | c :: cs, sep =>
    if c = sep then [] :: Split cs sep
    else
      match Split cs sep with
      | [] => [[c]]
      | p :: ps => (c :: p) :: ps

/-- Go `strings.TrimLeft(s, cutset)`, on lists of runes. -/
def TrimLeft (s cutset : List Char) : List Char := s.dropWhile (fun c => cutset.contains c)

/-- Go `strings.HasSuffix(s, suffix)`, on lists of runes. -/
def HasSuffix (s suffix : List Char) : Bool := suffix.isSuffixOf s

end strings

namespace service

open models regexp

/-- Class `[a-z]`. -/
def isLower (c : Char) : Bool := decide ('a' ≤ c) && decide (c ≤ 'z')

/-- Class `[A-Z]`. -/
def isUpper (c : Char) : Bool := decide ('A' ≤ c) && decide (c ≤ 'Z')

/-- Class `[0-9]`. -/
def isDigit (c : Char) : Bool := decide ('0' ≤ c) && decide (c ≤ '9')

/-- Class `[a-zA-Z0-9._%+-]`. -/
def localClass (c : Char) : Bool :=
  isLower c || isUpper c || isDigit c || c == '.' || c == '_' || c == '%' || c == '+' ||
    c == '-'

/-- Class `[a-zA-Z0-9.-]`. -/
def domainClass (c : Char) : Bool :=
  isLower c || isUpper c || isDigit c || c == '.' || c == '-'

/-- Class `[a-zA-Z]`. -/
def letterClass (c : Char) : Bool := isLower c || isUpper c

/-- Pattern `^[a-zA-Z0-9._%+-]+@[a-zA-Z0-9.-]+\.[a-zA-Z]{2,}$` between its anchors. -/
def emailRegex : Regex :=
  Regex.seq (Regex.plus (Regex.cls localClass))
    (Regex.seq (Regex.cls (fun c => c == '@'))
      (Regex.seq (Regex.plus (Regex.cls domainClass))
        (Regex.seq (Regex.cls (fun c => c == '.'))
          (Regex.seq (Regex.cls letterClass)
            (Regex.seq (Regex.cls letterClass) (Regex.star (Regex.cls letterClass)))))))

/-- Method `validateRequiredFields`. -/
def validateRequiredFields (order : Order) : Bool :=
  order.OrderUID != "" &&
    order.TrackNumber != "" &&
    order.EntryPoint != "" &&
    order.LocaleCode != "" &&
    order.CustomerId != "" &&
    order.DeliveryService != "" &&
    order.ShardKey != "" &&
    order.OOFShard != ""

/-- Method `isValidEmail`. -/
def isValidEmail (email : String) : Bool :=
  email != "" && MatchString emailRegex (strings.ToLower email)

/-- Method `validateDelivery`. -/
def validateDelivery (delivery : Delivery) : Bool :=
  delivery.Name != "" &&
    delivery.Phone != "" &&
    delivery.Zip != "" &&
    delivery.City != "" &&
    delivery.Address != "" &&
    delivery.Region != "" &&
    isValidEmail delivery.Email

/-- Method `validatePayment`. -/
def validatePayment (payment : Payment) : Bool :=
  payment.TransactionUID != "" &&
    payment.CurrencyCode != "" &&
    payment.PaymentProvider != "" &&
    payment.BankCode != "" &&
    Float64.ge payment.AmountTotal (Float64.ofInt 0) &&
    Float64.ge payment.DeliveryCost (Float64.ofInt 0) &&
    Float64.ge payment.GoodsTotal (Float64.ofInt 0) &&
    Float64.ge payment.CustomFee (Float64.ofInt 0)

/-- Method `isValidSalePercent`. -/
def isValidSalePercent (sale : Float64) : Bool :=
  Float64.ge sale (Float64.ofInt 0) && Float64.le sale (Float64.ofInt 100)

/-- Method `validateItem`. -/
def validateItem (item : OrderItem) : Bool :=
  item.ChartID != 0 &&
    item.TrackNumber != "" &&
    Float64.ge item.UnitPrice (Float64.ofInt 0) &&
    item.RID != "" &&
    item.ProductName != "" &&
    item.SizeCode != "" &&
    Float64.ge item.LineTotal (Float64.ofInt 0) &&
    item.ProductID != 0 &&
    item.BrandName != "" &&
    isValidSalePercent item.SalePercent

/-- The `for` loop of `validateItems`. -/
def validateItemsLoop : List OrderItem → Bool
  | [] => true
  | item :: rest => if !validateItem item then false else validateItemsLoop rest

/-- Method `validateItems`. -/
def validateItems (items : List OrderItem) : Bool :=
  if items.length = 0 then false else validateItemsLoop items

/-- Method `validateDate`: `!date.IsZero()`. -/
def validateDate (date : Time) : Bool := !(date == 0)

/-- Method `ValidateOrder`. -/
def ValidateOrder (order : Order) : Bool :=
  validateRequiredFields order &&
    validateDelivery order.Delivery &&
    validatePayment order.Payment &&
    validateItems order.Items &&
    validateDate order.DateCreated

/-- Method `ValidateChartID`. -/
def ValidateChartID (chartID : Int) : Bool := decide (chartID > 0)

/-- Method `ValidateProductID`. -/
def ValidateProductID (productID : Int) : Bool := decide (productID > 0)

/-- Test item passing `validateItem`. -/
def sampleItem : OrderItem :=
  { ChartID := 1000, TrackNumber := "TRACK", UnitPrice := Float64.finite 10, RID := "rid-1",
    ProductName := "Shoes", SalePercent := Float64.finite 30, SizeCode := "M",
    LineTotal := Float64.finite 7, ProductID := 42, BrandName := "Nike", StatusCode := 202 }

/-- Test order with identifier `uid` passing `ValidateOrder`. -/
def validOrder (uid : String) : Order :=
  { OrderUID := uid, TrackNumber := "TRACK", EntryPoint := "WBIL", LocaleCode := "en",
    InternalSignature := "", CustomerId := "test", DeliveryService := "meest",
    ShardKey := "9", StateMachineID := 99, DateCreated := 1, OOFShard := "1",
    Delivery :=
      { OrderUID := uid, Name := "Test Testov", Phone := "+9720000000", Zip := "2639809",
        City := "Kiryat Mozkin", Address := "Ploshad Mira 15", Region := "Kraiot",
        Email := "test@gmail.com" },
    Payment :=
      { TransactionUID := uid, RequestID := "", CurrencyCode := "USD",
        PaymentProvider := "wbpay", AmountTotal := Float64.finite 1817,
        PaymentDateTime := 1637907727, BankCode := "alpha",
        DeliveryCost := Float64.finite 1500, GoodsTotal := Float64.finite 317,
        CustomFee := Float64.finite 0 },
    Items := [sampleItem] }

/-- A `float64` that is `>= 0`: plus infinity or a finite value not below zero
(never NaN). -/
def IsNonneg (x : Float64) : Prop :=
  x = Float64.posInf ∨ ∃ q : ℚ, x = Float64.finite q ∧ 0 ≤ q

end service

namespace sarama

/-- Type `sarama.RecordHeader`. -/
structure RecordHeader where
  Key : List UInt8
  Value : List UInt8
deriving DecidableEq

/-- Type `sarama.ConsumerMessage`, a non-nil `*ConsumerMessage`.  A nil `Key` is
`none`; `Headers` may hold nil pointers. -/
structure ConsumerMessage where
  Headers : List (Option RecordHeader)
  Key : Option (List UInt8)
  Value : List UInt8
  Topic : String
  Partition : Int
  Offset : Int
deriving DecidableEq

/-- Type `sarama.ProducerMessage` as far as the code fills it.  `Key` and `Value`
are `ByteEncoder`s; a nil `Key` is `none`. -/
structure ProducerMessage where
  Topic : String
  Key : Option (List UInt8)
  Value : List UInt8
  Headers : List RecordHeader
deriving DecidableEq

/-- Interface `sarama.SyncProducer` over a producer with states `π`: `SendMessage`
returns the partition, the offset and the error. -/
structure SyncProducer (π : Type) where
  SendMessage : π → ProducerMessage → π × (Int × Int × Option cache.error)

end sarama

namespace repository

open models cache

/-- Methods of `*OrdersRepo` the consumer calls.  The database behind them is
external: each method is an arbitrary transformer of its state `δ`. -/
structure OrdersRepo (δ : Type) where
  AddOrder : δ → Order → δ × Option error
  GetOrders : δ → δ × (List Order × Option error)

end repository

namespace consumer

open models cache service sarama repository

/-- Calls `handleMessage` makes on its collaborators, with what they returned. -/
inductive Event where
  | sendToDLQ (dlqTopic : String) (msg : ConsumerMessage) (reason : String)
  | OrderExists (orderUID : String) (res : Bool × Option error)
  | AddOrder (order : Order) (err : Option error)
  | SaveOrder (order : Order) (err : Option error)
deriving DecidableEq

/-- Collaborators of the consumer: `json.Unmarshal` into a `models.Order` (an
arbitrary decoder), the cache and the repository. -/
structure Env (σ δ : Type) where
  unmarshal : List UInt8 → Except error Order
  appCache : Cache σ
  db : OrdersRepo δ

/-- What a run of `handleMessage` leaves: the cache state, the repository state
and the calls made, in order. -/
structure Result (σ δ : Type) where
  cache : σ
  db : δ
  events : List Event

/-- Function `handleMessage` on a non-nil message, from cache state `s` and
repository state `d`.  Logging is left out. -/
def handleMessage {σ δ : Type} (env : Env σ δ) (msg : ConsumerMessage) (dlqTopic : String)
    (s : σ) (d : δ) : Result σ δ :=
  if msg.Value.length = 0 then
    ⟨s, d, [Event.sendToDLQ dlqTopic msg "empty message"]⟩
  else
    match env.unmarshal msg.Value with
    | Except.error err =>
      ⟨s, d, [Event.sendToDLQ dlqTopic msg ("unmarshal error: " ++ err)]⟩
    | Except.ok order =>
      if order.OrderUID = "" then
        ⟨s, d, [Event.sendToDLQ dlqTopic msg "empty OrderUID"]⟩
      else if !ValidateOrder order then
        ⟨s, d, [Event.sendToDLQ dlqTopic msg "invalid order data"]⟩
      else
        let r := env.appCache.OrderExists s order.OrderUID
        if r.2.2 = none ∧ r.2.1 = true then
          ⟨r.1, d, [Event.OrderExists order.OrderUID r.2]⟩
        else
          let a := env.db.AddOrder d order
          match a.2 with
          | some err =>
            ⟨r.1, a.1, [Event.OrderExists order.OrderUID r.2, Event.AddOrder order (some err)]⟩
          | none =>
            let sv := env.appCache.SaveOrder r.1 order
            ⟨sv.1, a.1,
              [Event.OrderExists order.OrderUID r.2, Event.AddOrder order none,
                Event.SaveOrder order sv.2]⟩

/-- Whether a call is a dead-letter send. -/
def Event.isDLQ : Event → Bool
  | Event.sendToDLQ _ _ _ => true
  | _ => false

/-- Whether a call is an `AddOrder` that returned nil: the order was written to
the store. -/
def Event.isPersisted : Event → Bool
  | Event.AddOrder _ none => true
  | _ => false

/-- Whether a call is a cache `SaveOrder` that returned nil: the order was cached. -/
def Event.isCached : Event → Bool
  | Event.SaveOrder _ none => true
  | _ => false

/-- Whether a call is an `AddOrder` or a cache `SaveOrder`. -/
def Event.isWrite : Event → Bool
  | Event.AddOrder _ _ => true
  | Event.SaveOrder _ _ => true
  | _ => false

/-- Conditions under which a message is to be dead-lettered: empty payload,
failed deserialization, empty decoded identifier, or an order `ValidateOrder`
rejects. -/
def Rejected {σ δ : Type} (env : Env σ δ) (msg : ConsumerMessage) : Prop :=
  msg.Value = [] ∨
  (∃ err, env.unmarshal msg.Value = Except.error err) ∨
  (∃ order, env.unmarshal msg.Value = Except.ok order ∧
    (order.OrderUID = "" ∨ ValidateOrder order = false))

/-- Test decoder: the payload `payload` decodes to `order`, nothing else decodes. -/
def decodeOnly (payload : List UInt8) (order : Order) : List UInt8 → Except error Order :=
  fun v => if v = payload then Except.ok order else Except.error "invalid character"

/-- Test repository over the list of stored orders: `AddOrder` fails on an
identifier already stored, as `OrdersRepo.AddOrder` does. -/
def listRepo : OrdersRepo (List Order) where
  AddOrder := fun d order =>
    if d.any (fun o => o.OrderUID == order.OrderUID) then
      (d, some ("order with order_uid " ++ order.OrderUID ++ " already exists"))
    else (d ++ [order], none)
  GetOrders := fun d => (d, (d, none))

/-- Test environment: in-process cache read at the instants `clock`, list
repository, and a decoder of the single payload `payload`. -/
def testEnv (clock : Nat → Time) (payload : List UInt8) (order : Order) :
    Env (InMemoryCache × Nat) (List Order) :=
  { unmarshal := decodeOnly payload order, appCache := inMemory clock, db := listRepo }

/-- Test message carrying `payload`. -/
def testMsg (payload : List UInt8) : ConsumerMessage :=
  { Headers := [], Key := none, Value := payload, Topic := "orders", Partition := 0,
    Offset := 0 }

/-- Text `part` occurs in text `reason`. -/
def Contains (reason part : String) : Prop :=
  ∃ a b : List Char, reason.data = a ++ part.data ++ b

/-- The ways a run of `handleMessage` can end. -/
inductive Outcome where
  | deadLettered
  | duplicate
  | persistFailed
  | admitted
deriving DecidableEq

/-- Outcome read off the calls made: one dead-letter send; the duplicate check
alone; the check and a failed `AddOrder`; the check, a successful `AddOrder` and
a cache `SaveOrder`. -/
def outcomeOf : List Event → Option Outcome
  | [Event.sendToDLQ _ _ _] => some Outcome.deadLettered
  | [Event.OrderExists _ _] => some Outcome.duplicate
  | [Event.OrderExists _ _, Event.AddOrder _ (some _)] => some Outcome.persistFailed
  | [Event.OrderExists _ _, Event.AddOrder _ none, Event.SaveOrder _ _] =>
    some Outcome.admitted
  | _ => none

/-- Test cache standing for an unreachable remote cache: every method fails. -/
def downCache : Cache Unit where
  SaveOrder := fun s _ => (s, some "failed to save order to Redis")
  GetOrder := fun s _ => (s, (Order.zero, false, some "failed to get order from Redis"))
  OrderExists := fun s _ => (s, (false, some "failed to check order existence"))
  RemoveOrder := fun s _ => (s, some "failed to remove order from Redis")
  Clear := fun s => (s, some "failed to clear cache")
  GetAllOrders := fun s => (s, ([], some "failed to scan keys"))
  Close := fun s => (s, none)

/-- Whether a call is a cache `SaveOrder`. -/
def Event.isSaveOrder : Event → Bool
  | Event.SaveOrder _ _ => true
  | _ => false

/-- Conversion `[]byte(s)`: the UTF-8 bytes of `s`. -/
def bytesOf (s : String) : List UInt8 := s.toUTF8.data.toList

/-- Header loop of `sendToDLQ`: the non-nil headers, key and value copied. -/
def copyHeaders : List (Option RecordHeader) → List RecordHeader
  | [] => []
  | none :: rest => copyHeaders rest
  | some h :: rest => { Key := h.Key, Value := h.Value } :: copyHeaders rest

/-- Function `sendToDLQ` up to the hand-over to the producer: the message
`dlqMsg` it builds from a non-nil `msg`. -/
def sendToDLQ (dlqTopic : String) (msg : ConsumerMessage) (reason : String) :
    ProducerMessage :=
  { Topic := dlqTopic
    Key := match msg.Key with
      | some k => some k
      | none => none
    Value := msg.Value
    Headers :=
      copyHeaders msg.Headers ++ [{ Key := bytesOf "dlq_reason", Value := bytesOf reason }] }

/-- The `for` loop of `restoreCacheFromDB`: `SaveOrder` of every order in turn,
going on to the next one whether or not the call returned an error. -/
def restoreLoop {σ : Type} (appCache : Cache σ) : List Order → σ → σ
  | [], s => s
  | order :: rest, s => restoreLoop appCache rest (appCache.SaveOrder s order).1

/-- Function `restoreCacheFromDB` from cache state `s` and repository state `d`:
the states after and the returned error.  Logging is left out. -/
def restoreCacheFromDB {σ δ : Type} (env : Env σ δ) (s : σ) (d : δ) : σ × δ × Option error :=
  match (env.db.GetOrders d).2.2 with
  | some err => (s, (env.db.GetOrders d).1, some ("failed to get orders from DB: " ++ err))
  | none =>
    (restoreLoop env.appCache (env.db.GetOrders d).2.1 (env.appCache.Clear s).1,
      (env.db.GetOrders d).1, none)

/-- State after `Clear()` followed by `SaveOrder` of each order of `L` in order. -/
def clearThenSave {σ : Type} (appCache : Cache σ) (L : List Order) (s : σ) : σ :=
  L.foldl (fun s order => (appCache.SaveOrder s order).1) (appCache.Clear s).1

/-- The last order of `L` with identifier `k`, if any. -/
def lastWithUID (L : List Order) (k : String) : Option Order :=
  L.reverse.find? (fun o => o.OrderUID == k)

end consumer

namespace service

open models regexp sarama

/-- Method `ValidateTrackNumber`. -/
def ValidateTrackNumber (trackNumber : String) : Bool := trackNumber != ""

/-- Method `ValidateUnitPrice`. -/
def ValidateUnitPrice (price : Float64) : Bool := Float64.ge price (Float64.ofInt 0)

/-- Method `ValidateRID`. -/
def ValidateRID (rid : String) : Bool := rid != ""

/-- Method `ValidateProductName`. -/
def ValidateProductName (name : String) : Bool := name != ""

/-- Method `ValidateSizeCode`. -/
def ValidateSizeCode (size : String) : Bool := size != ""

/-- Method `ValidateLineTotal`. -/
def ValidateLineTotal (total : Float64) : Bool := Float64.ge total (Float64.ofInt 0)

/-- Method `ValidateBrandName`. -/
def ValidateBrandName (brand : String) : Bool := brand != ""

/-- Method `ValidateSalePercent`. -/
def ValidateSalePercent (sale : Float64) : Bool := Float64.ge sale (Float64.ofInt 0)

/-- The ten public validators of the item fields, all applied to one item. -/
def publicItemChecks (item : OrderItem) : Bool :=
  ValidateChartID item.ChartID && ValidateTrackNumber item.TrackNumber &&
    ValidateUnitPrice item.UnitPrice && ValidateRID item.RID &&
    ValidateProductName item.ProductName && ValidateSizeCode item.SizeCode &&
    ValidateLineTotal item.LineTotal && ValidateProductID item.ProductID &&
    ValidateBrandName item.BrandName && ValidateSalePercent item.SalePercent

/-- Error `ErrProducerNotInitialized`. -/
def ErrProducerNotInitialized : cache.error := "producer is not initialized"

/-- Error `ErrEmptyMessage`. -/
def ErrEmptyMessage : cache.error := "message is empty"

/-- Error `ErrTopicRequired`. -/
def ErrTopicRequired : cache.error := "topic is required"

/-- Error text of `ErrSendMessage{Err: err}`. -/
def ErrSendMessage (err : cache.error) : cache.error := "failed to send message: " ++ err

/-- Type `OrderProducer`; a nil `producer` is `none`. -/
structure OrderProducer (π : Type) where
  producer : Option (SyncProducer π)
  topic : String

/-- Method `PushToQueue` from producer state `p`: the state after, the messages
handed to `SendMessage`, and the returned error.  Logging is left out. -/
def PushToQueue {π : Type} (op : OrderProducer π) (p : π) (message : List UInt8) :
    π × List ProducerMessage × Option cache.error :=
  match op.producer with
  | none => (p, [], some ErrProducerNotInitialized)
  | some producer =>
    if message.length = 0 then (p, [], some ErrEmptyMessage)
    else if op.topic = "" then (p, [], some ErrTopicRequired)
    else
      let msg : ProducerMessage :=
        { Topic := op.topic, Key := none, Value := message, Headers := [] }
      let r := producer.SendMessage p msg
      match r.2.2.2 with
      | some err => (r.1, [msg], some (ErrSendMessage err))
      | none => (r.1, [msg], none)

/-- Method `Send`. -/
def Send {π : Type} (op : OrderProducer π) (p : π) (data : List UInt8) :
    π × List ProducerMessage × Option cache.error :=
  PushToQueue op p data

end service

namespace config

open models cache

/-- Type `CacheConfig` (the field `Type` is written `Type'`). -/
structure CacheConfig where
  Type' : CacheType
  Host : String
  Port : String
  Password : String
  DB : Int
  Capacity : Int
  TTL : String
deriving DecidableEq

/-- Method `CacheConfig.Validate`; `ParseDuration` is `time.ParseDuration`. -/
def Validate (ParseDuration : String → Except error Duration) (c : CacheConfig) :
    Option error :=
  if c.Type' = CacheTypeRedis then
    if c.Host = "" then some "cache.host is required for redis cache"
    else if c.Port = "" then some "cache.port is required for redis cache"
    else none
  else if c.Type' = CacheTypeInMemory then
    if c.Capacity ≤ 0 then some "cache.capacity must be positive for in-memory cache"
    else if c.TTL ≠ "" then
      match ParseDuration c.TTL with
      | Except.error err => some ("invalid cache.ttl format: " ++ err)
      | Except.ok _ => none
    else none
  else some ("unknown cache type: " ++ c.Type')

/-- Method `GetCacheAddress`. -/
def GetCacheAddress (c : CacheConfig) : String :=
  if c.Type' ≠ CacheTypeRedis then "" else c.Host ++ ":" ++ c.Port

/-- Method `ToCacheConfig`; `ParseDuration` is `time.ParseDuration`. -/
def ToCacheConfig (ParseDuration : String → Except error Duration) (c : CacheConfig) :
    Config × Option error :=
  match (if c.TTL ≠ "" then ParseDuration c.TTL else Except.ok (30 * Minute)) with
  | Except.error err => (Config.zero, some ("invalid cache.ttl format: " ++ err))
  | Except.ok ttl =>
    ({ Type' := c.Type'
       Redis := { Addr := GetCacheAddress c, Password := c.Password, DB := c.DB }
       Capacity := c.Capacity
       TTL := ttl }, none)

/-- Values of `time.ParseDuration` on a few strings, for tests; every other string
is rejected here. -/
def sampleParseDuration (s : String) : Except error Duration :=
  if s = "30m" then Except.ok (30 * Minute)
  else if s = "1h" then Except.ok Hour
  else if s = "0s" then Except.ok 0
  else if s = "-5m" then Except.ok (-5 * Minute)
  else if s = "1ns" then Except.ok 1
  else Except.error ("time: invalid duration " ++ s)

/-- Test stand-in for `NewRedisCache` with no server to connect to. -/
def noRedis : String → String → Int → Option Unit × Option error :=
  fun _ _ _ => (none, some "failed to connect to Redis")

end config

namespace strconv

open cache

/-- Value of a run of decimal digits, `none` when a rune is not a digit. -/
def digitsValue : List Char → Nat → Option Nat
  | [], acc => some acc
  | c :: cs, acc =>
    if '0' ≤ c ∧ c ≤ '9' then digitsValue cs (acc * 10 + (c.toNat - '0'.toNat)) else none

/-- Go `strconv.Atoi` with a 64-bit `int`, on lists of runes: an optional sign
followed by one or more decimal digits, within the range of `int`. -/
def Atoi (s : List Char) : Except error Int :=
  match s with
  | [] => Except.error "strconv.Atoi: parsing \"\": invalid syntax"
  | c :: rest =>
    match (if c = '-' ∨ c = '+' then rest else c :: rest) with
    | [] => Except.error "strconv.Atoi: invalid syntax"
    | d :: ds =>
      match digitsValue (d :: ds) 0 with
      | none => Except.error "strconv.Atoi: invalid syntax"
      | some v =>
        if (if c = '-' then -(v : Int) else (v : Int)) < -9223372036854775808 ∨
            9223372036854775807 < (if c = '-' then -(v : Int) else (v : Int)) then
          Except.error "strconv.Atoi: value out of range"
        else Except.ok (if c = '-' then -(v : Int) else (v : Int))

end strconv

namespace migrations

open cache

/-- Loop `for i := n; i >= 0; i--` of `parseVersionFromFilename`: the first index
from `n` downwards at which `filename[i] == '.'`, or `-1`.  Indices count bytes;
`String.get` at byte index `i` yields `'.'` exactly when the byte there is `'.'`. -/
def findDot (filename : String) : Nat → Int
  | 0 => if filename.get ⟨0⟩ = '.' then 0 else -1
  | i + 1 => if filename.get ⟨i + 1⟩ = '.' then ((i + 1 : Nat) : Int) else findDot filename i

/-- Value of `dotPos` after the first loop of `parseVersionFromFilename`. -/
def dotPos (filename : String) : Int :=
  if filename.utf8ByteSize < 5 then -1 else findDot filename (filename.utf8ByteSize - 5)

/-- Value of `namePart`: `filename[:dotPos]` when `dotPos > 0`, else `filename`. -/
def namePart (filename : String) : String :=
  if dotPos filename > 0 then filename.extract 0 ⟨(dotPos filename).toNat⟩ else filename

/-- Loop `for _, char := range namePart`, from the values of `parts` and
`current` reached so far to their values after the loop. -/
def splitLoop : List Char → List (List Char) → List Char → List (List Char) × List Char
  | [], parts, current => (parts, current)
  | char :: rest, parts, current =>
    if char = '_' then
      if current ≠ [] then splitLoop rest (parts ++ [current]) []
      else splitLoop rest parts current
    else splitLoop rest parts (current ++ [char])

/-- Value of `parts` before the test `len(parts) < 1`. -/
def nameParts (s : List Char) : List (List Char) :=
  if (splitLoop s [] []).2 ≠ [] then (splitLoop s [] []).1 ++ [(splitLoop s [] []).2]
  else (splitLoop s [] []).1

/-- Loop `for len(versionStr) > 1 && versionStr[0] == '0'`. -/
def trimLeftZeros : List Char → List Char
  | c :: d :: rest => if c = '0' then trimLeftZeros (d :: rest) else c :: d :: rest
  | s => s

/-- Function `parseVersionFromFilename`. -/
def parseVersionFromFilename (filename : String) : Int :=
  match nameParts (namePart filename).data with
  | [] => 0
  | versionStr :: _ =>
    match strconv.Atoi
      (if trimLeftZeros versionStr = [] then ['0'] else trimLeftZeros versionStr) with
    | Except.error _ => 0
    | Except.ok version => version

/-- Version `getMigrationFiles(migrationType)` assigns to the file entry named
`filename`; `none` when it skips the entry. -/
def entryVersion (migrationType : String) (filename : String) : Option Int :=
  if !strings.HasSuffix filename.data ("." ++ migrationType ++ ".sql").data then none
  else if (strings.Split filename.data '_').length < 2 then none
  else
    match strconv.Atoi
      (if strings.TrimLeft ((strings.Split filename.data '_').headD []) ['0'] = [] then ['0']
        else strings.TrimLeft ((strings.Split filename.data '_').headD []) ['0']) with
    | Except.error _ => none
    | Except.ok version => some version

/-- Decimal value of a run of digits. -/
def decimalValue (digits : List Char) : Nat :=
  digits.foldl (fun acc c => acc * 10 + (c.toNat - '0'.toNat)) 0

end migrations

/-! ## Theorems -/

namespace cache

open models

/-! ### Map primitives: lemmas -/

theorem mapGet_nil (k : String) : mapGet [] k = none := rfl

theorem mapGet_cons (p : String × Element) (m : List (String × Element)) (k : String) :
    mapGet (p :: m) k = if p.1 = k then some p.2 else mapGet m k := by
  unfold mapGet
  by_cases h : p.1 = k
  · simp [List.find?_cons, h]
  · simp [List.find?_cons, h]

theorem mapGet_mapDelete_self (m : List (String × Element)) (k : String) :
    mapGet (mapDelete m k) k = none := by
  induction m with
  | nil => rfl
  | cons p m ih =>
    unfold mapDelete at ih ⊢
    by_cases h : p.1 = k
    · simp [List.filter_cons, h, ih]
    · simp [List.filter_cons, h, ih, mapGet_cons]

theorem mapGet_mapDelete_ne (m : List (String × Element)) {k k' : String} (hk : k' ≠ k) :
    mapGet (mapDelete m k) k' = mapGet m k' := by
  induction m with
  | nil => rfl
  | cons p m ih =>
    unfold mapDelete at ih ⊢
    by_cases h : p.1 = k
    · have h' : ¬ k = k' := fun e => hk e.symm
      subst h
      simp [List.filter_cons, ih, mapGet_cons, h']
    · simp [List.filter_cons, h, ih, mapGet_cons]

theorem mapGet_mapSet_self (m : List (String × Element)) (k : String) (v : Element) :
    mapGet (mapSet m k v) k = some v := by
  simp [mapSet, mapGet_cons]

theorem mapGet_mapSet_ne (m : List (String × Element)) {k k' : String} (v : Element)
    (hk : k' ≠ k) : mapGet (mapSet m k v) k' = mapGet m k' := by
  have h' : ¬ k = k' := fun e => hk e.symm
  simp [mapSet, mapGet_cons, h', mapGet_mapDelete_ne m hk]

theorem mapGet_eq_some_of_nodup {m : List (String × Element)}
    (nd : (m.map Prod.fst).Nodup) (k : String) (e : Element) :
    mapGet m k = some e ↔ (k, e) ∈ m := by
  induction m with
  | nil => simp [mapGet_nil]
  | cons p m ih =>
    rw [List.map_cons, List.nodup_cons] at nd
    rw [mapGet_cons]
    by_cases h : p.1 = k
    · rw [if_pos h]
      constructor
      · intro he
        have : p = (k, e) := by
          cases p; simp only [Option.some.injEq] at he; simp_all
        simp [this]
      · intro hm
        rcases List.mem_cons.1 hm with hp | hp
        · rw [← hp]
        · exfalso
          apply nd.1
          rw [h]
          exact List.mem_map.2 ⟨(k, e), hp, rfl⟩
    · rw [if_neg h, ih nd.2]
      constructor
      · intro hm; exact List.mem_cons_of_mem _ hm
      · intro hm
        rcases List.mem_cons.1 hm with hp | hp
        · exact absurd (by rw [← hp]) h
        · exact hp

theorem mapGet_eq_none_iff (m : List (String × Element)) (k : String) :
    mapGet m k = none ↔ k ∉ m.map Prod.fst := by
  induction m with
  | nil => simp [mapGet_nil]
  | cons p m ih =>
    rw [mapGet_cons]
    by_cases h : p.1 = k
    · simp [h]
    · have h' : ¬ k = p.1 := fun e => h e.symm
      rw [if_neg h, ih]
      simp [h']

theorem mapGet_perm {m₁ m₂ : List (String × Element)} (hp : m₁.Perm m₂)
    (nd : (m₁.map Prod.fst).Nodup) (k : String) : mapGet m₁ k = mapGet m₂ k := by
  have nd₂ : (m₂.map Prod.fst).Nodup := (hp.map Prod.fst).nodup_iff.1 nd
  cases h₁ : mapGet m₁ k with
  | some e =>
    have := (mapGet_eq_some_of_nodup nd k e).1 h₁
    exact ((mapGet_eq_some_of_nodup nd₂ k e).2 (hp.mem_iff.1 this)).symm
  | none =>
    have h := (mapGet_eq_none_iff m₁ k).1 h₁
    have : k ∉ m₂.map Prod.fst := fun hm => h ((hp.map Prod.fst).mem_iff.2 hm)
    exact ((mapGet_eq_none_iff m₂ k).2 this).symm

/-! ### List primitives on consistent states -/

theorem indexOf_keys (l : List Element) :
    (indexOf l).map Prod.fst = l.map (fun e => e.Value.key) := by
  simp [indexOf, Function.comp_def]

theorem mapGet_indexOf (l : List Element) (k : String) :
    mapGet (indexOf l) k = l.find? (fun e => e.Value.key == k) := by
  induction l with
  | nil => rfl
  | cons a l ih =>
    have : indexOf (a :: l) = (a.Value.key, a) :: indexOf l := rfl
    rw [this, mapGet_cons, ih, List.find?_cons]
    by_cases h : a.Value.key = k
    · have hb : (a.Value.key == k) = true := by simpa using h
      simp [h, hb]
    · have hb : (a.Value.key == k) = false := by simpa using h
      simp [h, hb]

theorem mapDelete_indexOf (l : List Element) (k : String) :
    mapDelete (indexOf l) k = indexOf (dropKey l k) := by
  simp [mapDelete, indexOf, dropKey, List.filter_map, Function.comp_def]

theorem WF.cache_keys {c : InMemoryCache} (h : WF c) : (c.cache.map Prod.fst).Nodup := by
  have := (h.perm.map Prod.fst).nodup_iff.2
  apply this
  rw [indexOf_keys]
  exact h.keys

theorem WF.mapGet_eq {c : InMemoryCache} (h : WF c) (k : String) :
    mapGet c.cache k = c.lruList.find? (fun e => e.Value.key == k) := by
  rw [mapGet_perm h.perm h.cache_keys, mapGet_indexOf]

theorem WF.mem_of_mapGet {c : InMemoryCache} (h : WF c) {k : String} {e : Element}
    (hg : mapGet c.cache k = some e) : e ∈ c.lruList ∧ e.Value.key = k := by
  rw [h.mapGet_eq] at hg
  have h1 := List.mem_of_find?_eq_some hg
  have h2 := List.find?_some hg
  exact ⟨h1, by simpa using h2⟩

theorem WF.mapGet_of_mem {c : InMemoryCache} (h : WF c) {e : Element}
    (he : e ∈ c.lruList) : mapGet c.cache e.Value.key = some e := by
  rw [mapGet_eq_some_of_nodup h.cache_keys]
  apply h.perm.mem_iff.2
  exact List.mem_map.2 ⟨e, he, rfl⟩

theorem listRemove_eq_dropKey {l : List Element}
    (hid : (l.map Element.id).Nodup) (hk : (l.map (fun e => e.Value.key)).Nodup)
    {e : Element} (he : e ∈ l) : listRemove l e = dropKey l e.Value.key := by
  unfold listRemove dropKey
  apply List.filter_congr
  intro x hx
  by_cases hxe : x = e
  · subst hxe; simp
  · have h1 : x.id ≠ e.id := fun hh => hxe (List.inj_on_of_nodup_map hid hx he hh)
    have h2 : x.Value.key ≠ e.Value.key :=
      fun hh => hxe (List.inj_on_of_nodup_map hk hx he hh)
    rw [bne_iff_ne.2 h1, bne_iff_ne.2 h2]

theorem dropKey_eq_self {l : List Element} {k : String}
    (h : ∀ e ∈ l, e.Value.key ≠ k) : dropKey l k = l := by
  unfold dropKey
  rw [List.filter_eq_self]
  intro e he
  simpa using h e he

theorem dropKey_sublist (l : List Element) (k : String) : (dropKey l k).Sublist l :=
  List.filter_sublist l

theorem mem_dropKey {l : List Element} {k : String} {e : Element} :
    e ∈ dropKey l k ↔ e ∈ l ∧ e.Value.key ≠ k := by
  simp [dropKey]

theorem listRemove_last {l : List Element} (hid : (l.map Element.id).Nodup)
    {x : Element} (hx : l.getLast? = some x) : listRemove l x = l.dropLast := by
  have hl : l.dropLast ++ [x] = l := List.dropLast_append_getLast? x hx
  have hid' := hid
  rw [← hl, List.map_append, List.nodup_append] at hid'
  obtain ⟨_, _, hdis⟩ := hid'
  unfold listRemove
  conv_lhs => rw [← hl]
  rw [List.filter_append]
  have h1 : List.filter (fun y => y.id != x.id) l.dropLast = l.dropLast := by
    rw [List.filter_eq_self]
    intro a ha
    have : a.id ≠ x.id := by
      intro hh
      apply hdis (List.mem_map.2 ⟨a, ha, rfl⟩)
      rw [hh]; simp
    simpa using this
  rw [h1]
  simp

theorem perm_cons_dropKey {l : List Element} (hk : (l.map (fun e => e.Value.key)).Nodup)
    {e : Element} (he : e ∈ l) : l.Perm (e :: dropKey l e.Value.key) := by
  have hnd : l.Nodup := List.Nodup.of_map _ hk
  have h1 : l.Perm (e :: l.erase e) := List.perm_cons_erase he
  have h2 : l.erase e = dropKey l e.Value.key := by
    rw [hnd.erase_eq_filter]
    unfold dropKey
    apply List.filter_congr
    intro x hx
    by_cases hxe : x = e
    · subst hxe; simp
    · have h2 : x.Value.key ≠ e.Value.key :=
        fun hh => hxe (List.inj_on_of_nodup_map hk hx he hh)
      rw [bne_iff_ne.2 h2]
      simpa using hxe
  rw [h2] at h1
  exact h1

theorem listMoveToFront_eq {l : List Element}
    (hid : (l.map Element.id).Nodup) (hk : (l.map (fun e => e.Value.key)).Nodup)
    {e : Element} (he : e ∈ l) : listMoveToFront l e = e :: dropKey l e.Value.key := by
  unfold listMoveToFront
  have hf : l.find? (fun x => x.id == e.id) = some e := by
    cases hx : l.find? (fun x => x.id == e.id) with
    | none =>
      have := List.find?_eq_none.1 hx e he
      simp at this
    | some x =>
      have h1 := List.mem_of_find?_eq_some hx
      have h2 := List.find?_some hx
      have : x = e := List.inj_on_of_nodup_map hid h1 he (by simpa using h2)
      rw [this]
  rw [hf, listRemove_eq_dropKey hid hk he]

/-! ### Preservation of the representation invariant -/

theorem WF_new (capacity : Int) (ttl : Duration) : WF (NewInMemoryCache capacity ttl) := by
  constructor <;> simp [NewInMemoryCache, indexOf]

theorem WF_of_sublist {c : InMemoryCache} (h : WF c) {l : List Element}
    (hs : l.Sublist c.lruList) {m : List (String × Element)} (hm : m.Perm (indexOf l))
    {n : Nat} (hn : c.nextId ≤ n) :
    WF { c with lruList := l, cache := m, nextId := n } := by
  constructor
  · exact (hs.map Element.id).nodup h.ids
  · exact (hs.map _).nodup h.keys
  · exact hm
  · intro e he
    exact lt_of_lt_of_le (h.fresh e (hs.subset he)) hn

theorem WF_removeKey {c : InMemoryCache} (h : WF c) {k : String} {e : Element}
    (hg : mapGet c.cache k = some e) :
    listRemove c.lruList e = dropKey c.lruList k ∧
    WF { c with lruList := listRemove c.lruList e, cache := mapDelete c.cache k } := by
  obtain ⟨hmem, hkey⟩ := h.mem_of_mapGet hg
  have hl : listRemove c.lruList e = dropKey c.lruList k := by
    rw [listRemove_eq_dropKey h.ids h.keys hmem, hkey]
  refine ⟨hl, ?_⟩
  rw [hl]
  have := WF_of_sublist h (dropKey_sublist c.lruList k)
    (m := mapDelete c.cache k) (by
      rw [← mapDelete_indexOf]
      exact h.perm.filter _) (le_refl c.nextId)
  exact this

theorem take_dropLast {α : Type} (l : List α) (n : Nat) (h : n < l.length) :
    l.dropLast.take n = l.take n := by
  rw [List.dropLast_eq_take, List.take_take]
  congr 1
  omega

/-- List the eviction loop leaves: the `capacity` most recent elements when the
capacity is positive, the whole list otherwise. -/
theorem evictLoop_spec (fuel : Nat) (c : InMemoryCache) (h : WF c)
    (hf : c.lruList.length ≤ fuel) :
    WF (evictLoop fuel c) ∧
    (evictLoop fuel c).lruList =
      (if c.capacity > 0 then c.lruList.take c.capacity.toNat else c.lruList) ∧
    (evictLoop fuel c).capacity = c.capacity ∧ (evictLoop fuel c).ttl = c.ttl ∧
    (evictLoop fuel c).nextId = c.nextId := by
  induction fuel generalizing c with
  | zero =>
    have hnil : c.lruList = [] := List.length_eq_zero.1 (Nat.le_zero.1 hf)
    simp [evictLoop, h, hnil]
  | succ fuel ih =>
    unfold evictLoop
    by_cases hg : evictGuard c = true
    · rw [if_pos hg]
      simp only [evictGuard, Bool.and_eq_true, decide_eq_true_eq] at hg
      obtain ⟨hlen, hcap⟩ := hg
      have hne : c.lruList ≠ [] := by
        intro hnil
        rw [hnil] at hlen
        simp at hlen
        omega
      obtain ⟨oldest, hold⟩ : ∃ x, c.lruList.getLast? = some x := by
        cases hx : c.lruList.getLast? with
        | none => exact absurd (List.getLast?_eq_none_iff.1 hx) hne
        | some x => exact ⟨x, rfl⟩
      have hmem : oldest ∈ c.lruList := List.mem_of_getLast?_eq_some hold
      have hrm := WF_removeKey h (h.mapGet_of_mem hmem)
      have hlast := listRemove_last h.ids hold
      simp only [listBack, hold]
      have hlen' : (listRemove c.lruList oldest).length ≤ fuel := by
        rw [hlast, List.length_dropLast]
        omega
      obtain ⟨i1, i2, i3, i4, i5⟩ := ih _ hrm.2 hlen'
      refine ⟨i1, ?_, i3, i4, i5⟩
      rw [i2]
      simp only [hcap, if_true]
      rw [hlast]
      apply take_dropLast
      omega
    · rw [if_neg hg]
      refine ⟨h, ?_, rfl, rfl, rfl⟩
      simp only [evictGuard, Bool.and_eq_true, decide_eq_true_eq, not_and] at hg
      by_cases hcap : c.capacity > 0
      · rw [if_pos hcap, List.take_of_length_le]
        have := fun hl => hg hl hcap
        omega
      · rw [if_neg hcap]

theorem evictIfNeeded_spec (c : InMemoryCache) (h : WF c) :
    WF (evictIfNeeded c) ∧
    (evictIfNeeded c).lruList =
      (if c.capacity > 0 then c.lruList.take c.capacity.toNat else c.lruList) ∧
    (evictIfNeeded c).capacity = c.capacity ∧ (evictIfNeeded c).ttl = c.ttl ∧
    (evictIfNeeded c).nextId = c.nextId :=
  evictLoop_spec _ c h (le_refl _)

theorem listRemove_length_lt {l : List Element} {e : Element} (he : e ∈ l) :
    (listRemove l e).length < l.length := by
  unfold listRemove
  apply List.length_filter_lt_length_iff_exists.2
  exact ⟨e, he, by simp⟩

theorem evictLoop_guard (fuel : Nat) (c : InMemoryCache) (hf : c.lruList.length ≤ fuel) :
    evictGuard (evictLoop fuel c) = false := by
  induction fuel generalizing c with
  | zero =>
    have hnil : c.lruList = [] := List.length_eq_zero.1 (Nat.le_zero.1 hf)
    simp only [evictLoop, evictGuard, hnil, List.length_nil]
    simp only [Bool.and_eq_false_imp, decide_eq_true_eq, decide_eq_false_iff_not]
    intro h1 h2
    have : ((0 : Nat) : Int) = 0 := rfl
    omega
  | succ fuel ih =>
    unfold evictLoop
    by_cases hg : evictGuard c = true
    · rw [if_pos hg]
      cases hb : listBack c.lruList with
      | none =>
        simp only [evictGuard, Bool.and_eq_true, decide_eq_true_eq] at hg
        have hnil : c.lruList = [] := List.getLast?_eq_none_iff.1 hb
        rw [hnil] at hg
        simp at hg
        omega
      | some oldest =>
        simp only
        apply ih
        have hmem : oldest ∈ c.lruList := List.mem_of_getLast?_eq_some hb
        have := listRemove_length_lt hmem
        simp only
        omega
    · rw [if_neg hg]
      simpa using hg

/-- The fuel given to the loop is enough: `evictIfNeeded` returns with the loop
guard false, from every state. -/
theorem evictIfNeeded_guard (c : InMemoryCache) : evictGuard (evictIfNeeded c) = false :=
  evictLoop_guard _ c (le_refl _)

/-! ### Effect of each method on consistent states -/

/-- The element `SaveOrder` allocates. -/
theorem SaveOrder_spec (c : InMemoryCache) (h : WF c) (o : Order) (now : Time) :
    WF (SaveOrder c o now).1 ∧
    (SaveOrder c o now).1.lruList =
      (if c.capacity > 0 then
        (⟨c.nextId, ⟨o.OrderUID, o, now + c.ttl⟩⟩ :: dropKey c.lruList o.OrderUID).take
          c.capacity.toNat
       else ⟨c.nextId, ⟨o.OrderUID, o, now + c.ttl⟩⟩ :: dropKey c.lruList o.OrderUID) ∧
    (SaveOrder c o now).1.capacity = c.capacity ∧ (SaveOrder c o now).1.ttl = c.ttl ∧
    (SaveOrder c o now).1.nextId = c.nextId + 1 ∧ (SaveOrder c o now).2 = none := by
  have key : SaveOrder c o now =
      (evictIfNeeded { c with
        lruList := ⟨c.nextId, ⟨o.OrderUID, o, now + c.ttl⟩⟩ :: dropKey c.lruList o.OrderUID
        cache := mapSet c.cache o.OrderUID ⟨c.nextId, ⟨o.OrderUID, o, now + c.ttl⟩⟩
        nextId := c.nextId + 1 }, none) := by
    unfold SaveOrder
    cases hg : mapGet c.cache o.OrderUID with
    | some e => simp only [(WF_removeKey h hg).1]
    | none =>
      have hd : dropKey c.lruList o.OrderUID = c.lruList := by
        apply dropKey_eq_self
        intro e he hk
        have := h.mapGet_of_mem he
        rw [hk, hg] at this
        cases this
      simp only [hd]
  have hwf1 : WF { c with
      lruList := ⟨c.nextId, ⟨o.OrderUID, o, now + c.ttl⟩⟩ :: dropKey c.lruList o.OrderUID
      cache := mapSet c.cache o.OrderUID ⟨c.nextId, ⟨o.OrderUID, o, now + c.ttl⟩⟩
      nextId := c.nextId + 1 } := by
    constructor
    · simp only [List.map_cons, List.nodup_cons]
      refine ⟨?_, ((dropKey_sublist _ _).map Element.id).nodup h.ids⟩
      intro hm
      obtain ⟨e, he, hid⟩ := List.mem_map.1 hm
      have := h.fresh e ((dropKey_sublist _ _).subset he)
      have hid' : e.id = c.nextId := hid
      omega
    · simp only [List.map_cons, List.nodup_cons]
      refine ⟨?_, ((dropKey_sublist _ _).map _).nodup h.keys⟩
      intro hm
      obtain ⟨e, he, hk⟩ := List.mem_map.1 hm
      exact (mem_dropKey.1 he).2 hk
    · show ((o.OrderUID, _) :: mapDelete c.cache o.OrderUID).Perm
        ((o.OrderUID, _) :: indexOf (dropKey c.lruList o.OrderUID))
      apply List.Perm.cons
      rw [← mapDelete_indexOf]
      exact h.perm.filter _
    · intro e he
      simp only [List.mem_cons] at he
      rcases he with he | he
      · rw [he]; simp
      · have := h.fresh e ((dropKey_sublist _ _).subset he)
        simp only
        omega
  have hs := evictIfNeeded_spec _ hwf1
  rw [key]
  exact ⟨hs.1, hs.2.1, hs.2.2.1, hs.2.2.2.1, hs.2.2.2.2, rfl⟩

theorem GetOrder_absent (c : InMemoryCache) (k : String) (now : Time)
    (hg : mapGet c.cache k = none) :
    GetOrder c k now = (c, (Order.zero, false, none)) := by
  unfold GetOrder
  rw [hg]

theorem GetOrder_expired (c : InMemoryCache) (k : String) (now : Time) {e : Element}
    (hg : mapGet c.cache k = some e) (hx : now > e.Value.exp) :
    GetOrder c k now =
      ({ c with lruList := listRemove c.lruList e, cache := mapDelete c.cache k },
        (Order.zero, false, none)) := by
  unfold GetOrder
  rw [hg]
  simp only [hx, if_true]

theorem GetOrder_live (c : InMemoryCache) (k : String) (now : Time) {e : Element}
    (hg : mapGet c.cache k = some e) (hx : ¬ now > e.Value.exp) :
    GetOrder c k now =
      ({ c with lruList := listMoveToFront c.lruList e }, (e.Value.value, true, none)) := by
  unfold GetOrder
  rw [hg]
  simp only [hx, if_false]

theorem GetOrder_WF (c : InMemoryCache) (h : WF c) (k : String) (now : Time) :
    WF (GetOrder c k now).1 := by
  cases hg : mapGet c.cache k with
  | none => rw [GetOrder_absent c k now hg]; exact h
  | some e =>
    by_cases hx : now > e.Value.exp
    · rw [GetOrder_expired c k now hg hx]
      exact (WF_removeKey h hg).2
    · rw [GetOrder_live c k now hg hx]
      obtain ⟨hmem, hkey⟩ := h.mem_of_mapGet hg
      have hmv := listMoveToFront_eq h.ids h.keys hmem
      have hp := perm_cons_dropKey h.keys hmem
      constructor
      · simp only [hmv]
        exact (hp.map Element.id).nodup_iff.1 h.ids
      · simp only [hmv]
        exact (hp.map _).nodup_iff.1 h.keys
      · simp only [hmv]
        exact h.perm.trans (hp.map _)
      · simp only [hmv]
        intro x hx'
        exact h.fresh x (hp.mem_iff.2 hx')

theorem RemoveOrder_WF (c : InMemoryCache) (h : WF c) (k : String) :
    WF (RemoveOrder c k).1 := by
  unfold RemoveOrder
  cases hg : mapGet c.cache k with
  | none => exact h
  | some e => exact (WF_removeKey h hg).2

theorem Clear_WF (c : InMemoryCache) : WF (Clear c).1 := by
  constructor <;> simp [Clear, indexOf]

theorem cleanupKey_WF (c : InMemoryCache) (h : WF c) (k : String) : WF (cleanupKey c k) := by
  unfold cleanupKey
  cases hg : mapGet c.cache k with
  | none => exact h
  | some e => exact (WF_removeKey h hg).2

theorem foldl_cleanupKey_WF (ks : List String) (c : InMemoryCache) (h : WF c) :
    WF (ks.foldl cleanupKey c) := by
  induction ks generalizing c with
  | nil => exact h
  | cons k ks ih => exact ih _ (cleanupKey_WF c h k)

theorem cleanupExpired_WF (c : InMemoryCache) (h : WF c) (now : Time) :
    WF (cleanupExpired c now) :=
  foldl_cleanupKey_WF _ c h

theorem step_WF (c : InMemoryCache) (h : WF c) (op : Op) : WF (step c op) := by
  cases op with
  | save o now => exact (SaveOrder_spec c h o now).1
  | get k now => exact GetOrder_WF c h k now
  | exist k now => exact GetOrder_WF c h k now
  | remove k => exact RemoveOrder_WF c h k
  | clear => exact Clear_WF c
  | sweep now => exact cleanupExpired_WF c h now
  | all now => exact h

theorem run_WF (ops : List Op) (c : InMemoryCache) (h : WF c) : WF (run c ops) := by
  induction ops generalizing c with
  | nil => exact h
  | cons op ops ih => exact ih _ (step_WF c h op)

theorem Reachable.wf {c : InMemoryCache} (h : Reachable c) : WF c := by
  obtain ⟨cap, ttl, ops, rfl⟩ := h
  exact run_WF ops _ (WF_new cap ttl)

/-! ### Capacity bound -/

theorem WF.cache_length {c : InMemoryCache} (h : WF c) :
    c.cache.length = c.lruList.length := by
  rw [h.perm.length_eq]
  simp [indexOf]

theorem listRemove_length_le (l : List Element) (e : Element) :
    (listRemove l e).length ≤ l.length :=
  List.length_filter_le _ l

theorem GetOrder_frame (c : InMemoryCache) (k : String) (now : Time) :
    (GetOrder c k now).1.capacity = c.capacity ∧ (GetOrder c k now).1.ttl = c.ttl ∧
    (GetOrder c k now).1.nextId = c.nextId := by
  cases hg : mapGet c.cache k with
  | none => rw [GetOrder_absent c k now hg]; exact ⟨rfl, rfl, rfl⟩
  | some e =>
    by_cases hx : now > e.Value.exp
    · rw [GetOrder_expired c k now hg hx]; exact ⟨rfl, rfl, rfl⟩
    · rw [GetOrder_live c k now hg hx]; exact ⟨rfl, rfl, rfl⟩

theorem GetOrder_length_le (c : InMemoryCache) (h : WF c) (k : String) (now : Time) :
    (GetOrder c k now).1.lruList.length ≤ c.lruList.length := by
  cases hg : mapGet c.cache k with
  | none => rw [GetOrder_absent c k now hg]
  | some e =>
    by_cases hx : now > e.Value.exp
    · rw [GetOrder_expired c k now hg hx]
      exact listRemove_length_le _ _
    · rw [GetOrder_live c k now hg hx]
      obtain ⟨hmem, _⟩ := h.mem_of_mapGet hg
      simp only [listMoveToFront_eq h.ids h.keys hmem]
      exact le_of_eq (perm_cons_dropKey h.keys hmem).length_eq.symm

theorem cleanupKey_frame (c : InMemoryCache) (k : String) :
    (cleanupKey c k).capacity = c.capacity ∧ (cleanupKey c k).ttl = c.ttl ∧
    (cleanupKey c k).lruList.length ≤ c.lruList.length := by
  unfold cleanupKey
  cases mapGet c.cache k with
  | none => exact ⟨rfl, rfl, le_refl _⟩
  | some e => exact ⟨rfl, rfl, listRemove_length_le _ _⟩

theorem foldl_cleanupKey_frame (ks : List String) (c : InMemoryCache) :
    (ks.foldl cleanupKey c).capacity = c.capacity ∧ (ks.foldl cleanupKey c).ttl = c.ttl ∧
    (ks.foldl cleanupKey c).lruList.length ≤ c.lruList.length := by
  induction ks generalizing c with
  | nil => exact ⟨rfl, rfl, le_refl _⟩
  | cons k ks ih =>
    obtain ⟨h1, h2, h3⟩ := ih (cleanupKey c k)
    obtain ⟨g1, g2, g3⟩ := cleanupKey_frame c k
    exact ⟨h1.trans g1, h2.trans g2, le_trans h3 g3⟩

theorem RemoveOrder_frame (c : InMemoryCache) (k : String) :
    (RemoveOrder c k).1.capacity = c.capacity ∧ (RemoveOrder c k).1.ttl = c.ttl ∧
    (RemoveOrder c k).1.lruList.length ≤ c.lruList.length := by
  unfold RemoveOrder
  cases mapGet c.cache k with
  | none => exact ⟨rfl, rfl, le_refl _⟩
  | some e => exact ⟨rfl, rfl, listRemove_length_le _ _⟩

theorem step_capacity (c : InMemoryCache) (h : WF c) (op : Op) :
    (step c op).capacity = c.capacity ∧ (step c op).ttl = c.ttl := by
  cases op with
  | save o now => exact ⟨(SaveOrder_spec c h o now).2.2.1, (SaveOrder_spec c h o now).2.2.2.1⟩
  | get k now => exact ⟨(GetOrder_frame c k now).1, (GetOrder_frame c k now).2.1⟩
  | exist k now => exact ⟨(GetOrder_frame c k now).1, (GetOrder_frame c k now).2.1⟩
  | remove k => exact ⟨(RemoveOrder_frame c k).1, (RemoveOrder_frame c k).2.1⟩
  | clear => exact ⟨rfl, rfl⟩
  | sweep now => exact ⟨(foldl_cleanupKey_frame _ c).1, (foldl_cleanupKey_frame _ c).2.1⟩
  | all now => exact ⟨rfl, rfl⟩

theorem step_length_le (c : InMemoryCache) (h : WF c) (hcap : 0 < c.capacity)
    (hlen : (c.lruList.length : Int) ≤ c.capacity) (op : Op) :
    ((step c op).lruList.length : Int) ≤ c.capacity := by
  cases op with
  | save o now =>
    have hs := (SaveOrder_spec c h o now).2.1
    show (((SaveOrder c o now).1.lruList.length : Nat) : Int) ≤ c.capacity
    rw [hs, if_pos hcap]
    have := List.length_take_le c.capacity.toNat
      (⟨c.nextId, ⟨o.OrderUID, o, now + c.ttl⟩⟩ :: dropKey c.lruList o.OrderUID)
    omega
  | get k now =>
    have := GetOrder_length_le c h k now
    show (((GetOrder c k now).1.lruList.length : Nat) : Int) ≤ c.capacity
    omega
  | exist k now =>
    have := GetOrder_length_le c h k now
    show (((GetOrder c k now).1.lruList.length : Nat) : Int) ≤ c.capacity
    omega
  | remove k =>
    have := (RemoveOrder_frame c k).2.2
    show (((RemoveOrder c k).1.lruList.length : Nat) : Int) ≤ c.capacity
    omega
  | clear =>
    show ((([] : List Element).length : Nat) : Int) ≤ c.capacity
    simp only [List.length_nil]
    omega
  | sweep now =>
    have := (foldl_cleanupKey_frame
      ((c.cache.filter (fun p => decide (now > p.2.Value.exp))).map Prod.fst) c).2.2
    show (((List.foldl cleanupKey c
      ((c.cache.filter (fun p => decide (now > p.2.Value.exp))).map Prod.fst)).lruList.length
        : Nat) : Int) ≤ c.capacity
    omega
  | all now => exact hlen

theorem run_capacity (ops : List Op) (c : InMemoryCache) (h : WF c) :
    (run c ops).capacity = c.capacity ∧ (run c ops).ttl = c.ttl := by
  induction ops generalizing c with
  | nil => exact ⟨rfl, rfl⟩
  | cons op ops ih =>
    obtain ⟨h1, h2⟩ := ih _ (step_WF c h op)
    obtain ⟨g1, g2⟩ := step_capacity c h op
    exact ⟨h1.trans g1, h2.trans g2⟩

theorem run_length_le (ops : List Op) (c : InMemoryCache) (h : WF c) (hcap : 0 < c.capacity)
    (hlen : (c.lruList.length : Int) ≤ c.capacity) :
    ((run c ops).lruList.length : Int) ≤ c.capacity := by
  induction ops generalizing c with
  | nil => exact hlen
  | cons op ops ih =>
    have hc := (step_capacity c h op).1
    have := ih (step c op) (step_WF c h op) (by rw [hc]; exact hcap)
      (by rw [hc]; exact step_length_le c h hcap hlen op)
    rw [hc] at this
    exact this

/-- C2 (capacity bound): a cache built with capacity `N > 0` never stores more
than `N` entries, in the recency list or in the map, after any sequence of
`SaveOrder`, `GetOrder`, `OrderExists`, `RemoveOrder`, `Clear`, `cleanupExpired`
and `GetAllOrders` calls. -/
theorem capacity_bound (N : Int) (hN : 0 < N) (ttl : Duration) (ops : List Op) :
    ((run (NewInMemoryCache N ttl) ops).lruList.length : Int) ≤ N ∧
    ((run (NewInMemoryCache N ttl) ops).cache.length : Int) ≤ N := by
  have h := run_length_le ops (NewInMemoryCache N ttl) (WF_new N ttl) hN
    (by simp [NewInMemoryCache]; omega)
  have hwf := run_WF ops _ (WF_new N ttl)
  rw [hwf.cache_length]
  exact ⟨h, h⟩

theorem capacity_bound_witness :
    (0 : Int) < 2 ∧
    ((run (NewInMemoryCache 2 5)
        [Op.save (sampleOrder "a") 0,
         Op.save (sampleOrder "b") 1,
         Op.save (sampleOrder "c") 2,
         Op.get "b" 3, Op.sweep 4]).lruList.length : Int) ≤ 2 ∧
    ((run (NewInMemoryCache 2 5)
        [Op.save (sampleOrder "a") 0,
         Op.save (sampleOrder "b") 1,
         Op.save (sampleOrder "c") 2,
         Op.get "b" 3, Op.sweep 4]).cache.length : Int) ≤ 2 :=
  ⟨by decide, capacity_bound 2 (by decide) 5 _⟩

/-! ### Round trip and expiry on read -/

theorem SaveOrder_head (c : InMemoryCache) (h : WF c) (o : Order) (now : Time) :
    ∃ rest, (SaveOrder c o now).1.lruList =
      ⟨c.nextId, ⟨o.OrderUID, o, now + c.ttl⟩⟩ :: rest := by
  rw [(SaveOrder_spec c h o now).2.1]
  by_cases hcap : c.capacity > 0
  · rw [if_pos hcap]
    obtain ⟨n, hn⟩ : ∃ n, c.capacity.toNat = n + 1 := by
      refine ⟨c.capacity.toNat - 1, ?_⟩
      omega
    rw [hn, List.take_succ_cons]
    exact ⟨_, rfl⟩
  · rw [if_neg hcap]
    exact ⟨_, rfl⟩

theorem SaveOrder_mapGet_self (c : InMemoryCache) (h : WF c) (o : Order) (now : Time) :
    mapGet (SaveOrder c o now).1.cache o.OrderUID =
      some ⟨c.nextId, ⟨o.OrderUID, o, now + c.ttl⟩⟩ := by
  obtain ⟨rest, hr⟩ := SaveOrder_head c h o now
  rw [(SaveOrder_spec c h o now).1.mapGet_eq, hr]
  simp

/-- C3 (round trip): in every reachable state, for every capacity and order `o`,
`SaveOrder(o)` at `t` returns nil and a `GetOrder(o.OrderUID)` at any `t'` with
`t ≤ t' ≤ t + ttl` returns `(o, true, nil)`, whatever the cache held before. -/
theorem save_get_roundtrip (c : InMemoryCache) (hc : Reachable c) (o : Order)
    (t t' : Time) (h₁ : t ≤ t') (h₂ : t' ≤ t + c.ttl) :
    (SaveOrder c o t).2 = none ∧
    (GetOrder (SaveOrder c o t).1 o.OrderUID t').2 = (o, true, none) := by
  have _ := h₁
  refine ⟨(SaveOrder_spec c hc.wf o t).2.2.2.2.2, ?_⟩
  have hg := SaveOrder_mapGet_self c hc.wf o t
  have hx : ¬ t' > (⟨c.nextId, ⟨o.OrderUID, o, t + c.ttl⟩⟩ : Element).Value.exp := by
    show ¬ t' > t + c.ttl
    exact not_lt.2 h₂
  rw [GetOrder_live _ _ _ hg hx]

theorem save_get_roundtrip_witness :
    (SaveOrder (run (NewInMemoryCache 1 10) [Op.save (sampleOrder "a") 0])
        { sampleOrder "a" with TrackNumber := "T2" } 3).2 = none ∧
    (GetOrder
        (SaveOrder (run (NewInMemoryCache 1 10) [Op.save (sampleOrder "a") 0])
          { sampleOrder "a" with TrackNumber := "T2" } 3).1 "a" 13).2 =
      ({ sampleOrder "a" with TrackNumber := "T2" }, true, none) :=
  save_get_roundtrip (run (NewInMemoryCache 1 10) [Op.save (sampleOrder "a") 0])
    ⟨1, 10, _, rfl⟩ { sampleOrder "a" with TrackNumber := "T2" } 3 13
    (by decide) (by decide)

theorem ExpiresAt_mapDelete {m : List (String × Element)} {k : String} {x : Time}
    (h : ExpiresAt m k x) (k' : String) : ExpiresAt (mapDelete m k') k x := by
  intro e he
  by_cases hk : k = k'
  · rw [hk, mapGet_mapDelete_self] at he
    cases he
  · rw [mapGet_mapDelete_ne m hk] at he
    exact h e he

theorem ExpiresAt_evictLoop (fuel : Nat) (c : InMemoryCache) {k : String} {x : Time}
    (h : ExpiresAt c.cache k x) : ExpiresAt (evictLoop fuel c).cache k x := by
  induction fuel generalizing c with
  | zero => exact h
  | succ fuel ih =>
    unfold evictLoop
    by_cases hg : evictGuard c = true
    · rw [if_pos hg]
      cases listBack c.lruList with
      | none => exact h
      | some oldest => exact ih _ (ExpiresAt_mapDelete h _)
    · rw [if_neg hg]
      exact h

theorem ExpiresAt_SaveOrder_self (c : InMemoryCache) (o : Order) (t : Time) :
    ExpiresAt (SaveOrder c o t).1.cache o.OrderUID (t + c.ttl) := by
  unfold SaveOrder evictIfNeeded
  apply ExpiresAt_evictLoop
  intro e he
  rw [mapGet_mapSet_self] at he
  cases he
  rfl

theorem ExpiresAt_SaveOrder_other (c : InMemoryCache) (o : Order) (t : Time)
    {k : String} {x : Time} (hk : k ≠ o.OrderUID) (h : ExpiresAt c.cache k x) :
    ExpiresAt (SaveOrder c o t).1.cache k x := by
  unfold SaveOrder evictIfNeeded
  apply ExpiresAt_evictLoop
  intro e he
  rw [mapGet_mapSet_ne _ _ hk] at he
  exact h e he

theorem ExpiresAt_GetOrder (c : InMemoryCache) (k' : String) (now : Time)
    {k : String} {x : Time} (h : ExpiresAt c.cache k x) :
    ExpiresAt (GetOrder c k' now).1.cache k x := by
  cases hg : mapGet c.cache k' with
  | none => rw [GetOrder_absent c k' now hg]; exact h
  | some e =>
    by_cases hx : now > e.Value.exp
    · rw [GetOrder_expired c k' now hg hx]
      exact ExpiresAt_mapDelete h _
    · rw [GetOrder_live c k' now hg hx]
      exact h

theorem ExpiresAt_cleanupKey (c : InMemoryCache) (k' : String)
    {k : String} {x : Time} (h : ExpiresAt c.cache k x) :
    ExpiresAt (cleanupKey c k').cache k x := by
  unfold cleanupKey
  cases mapGet c.cache k' with
  | none => exact h
  | some e => exact ExpiresAt_mapDelete h _

theorem ExpiresAt_foldl_cleanupKey (ks : List String) (c : InMemoryCache)
    {k : String} {x : Time} (h : ExpiresAt c.cache k x) :
    ExpiresAt (ks.foldl cleanupKey c).cache k x := by
  induction ks generalizing c with
  | nil => exact h
  | cons k' ks ih => exact ih _ (ExpiresAt_cleanupKey c k' h)

theorem ExpiresAt_step (c : InMemoryCache) (op : Op) {k : String} {x : Time}
    (hop : NoSaveOf k op = true) (h : ExpiresAt c.cache k x) :
    ExpiresAt (step c op).cache k x := by
  cases op with
  | save o now =>
    have hne : o.OrderUID ≠ k := bne_iff_ne.1 hop
    exact ExpiresAt_SaveOrder_other c o now (fun e => hne e.symm) h
  | get k' now => exact ExpiresAt_GetOrder c k' now h
  | exist k' now => exact ExpiresAt_GetOrder c k' now h
  | remove k' =>
    show ExpiresAt (RemoveOrder c k').1.cache k x
    unfold RemoveOrder
    cases mapGet c.cache k' with
    | none => exact h
    | some e => exact ExpiresAt_mapDelete h _
  | clear =>
    intro e he
    cases he
  | sweep now => exact ExpiresAt_foldl_cleanupKey _ c h
  | all now => exact h

theorem ExpiresAt_run (ops : List Op) (c : InMemoryCache) {k : String} {x : Time}
    (hops : ops.all (NoSaveOf k) = true) (h : ExpiresAt c.cache k x) :
    ExpiresAt (run c ops).cache k x := by
  induction ops generalizing c with
  | nil => exact h
  | cons op ops ih =>
    rw [List.all_cons, Bool.and_eq_true] at hops
    exact ih _ hops.2 (ExpiresAt_step c op hops.1 h)

/-- C4 (expiry on read): after `SaveOrder(o)` at `t` on a cache with ttl `d > 0`,
followed by any calls none of which saves `o.OrderUID` again (sweeps included or
not), a `GetOrder(o.OrderUID)` at any `t' > t + d` returns not found with a nil
error. -/
theorem get_after_ttl (c : InMemoryCache) (hd : 0 < c.ttl) (o : Order) (t t' : Time)
    (ops : List Op) (hops : ops.all (NoSaveOf o.OrderUID) = true)
    (hlate : t' > t + c.ttl) :
    (GetOrder (run (SaveOrder c o t).1 ops) o.OrderUID t').2 = (Order.zero, false, none) := by
  have _ := hd
  have hE := ExpiresAt_run ops _ hops (ExpiresAt_SaveOrder_self c o t)
  cases hg : mapGet (run (SaveOrder c o t).1 ops).cache o.OrderUID with
  | none => rw [GetOrder_absent _ _ _ hg]
  | some e =>
    have hx : t' > e.Value.exp := by rw [hE e hg]; exact hlate
    rw [GetOrder_expired _ _ _ hg hx]

theorem get_after_ttl_witness :
    (GetOrder
      (run (SaveOrder (NewInMemoryCache 3 10) (sampleOrder "a") 0).1
        [Op.save (sampleOrder "b") 4, Op.get "a" 5, Op.all 6]) "a" 11).2 =
      (Order.zero, false, none) :=
  get_after_ttl (NewInMemoryCache 3 10) (by decide) (sampleOrder "a") 0 11
    [Op.save (sampleOrder "b") 4, Op.get "a" 5, Op.all 6]
    (by decide)
    (by decide)

/-! ### Filling up to capacity -/

theorem run_append (c : InMemoryCache) (ops₁ ops₂ : List Op) :
    run c (ops₁ ++ ops₂) = run (run c ops₁) ops₂ := by
  simp [run, List.foldl_append]

theorem GetAllOrders_eq (c : InMemoryCache) (now : Time) :
    GetAllOrders c now =
      ((((c.lruList.map Element.Value).filter (fun x => decide (now < x.exp))).map
        entry.value), none) := by
  simp [GetAllOrders, List.filter_map, Function.comp_def]

theorem fill_entries (N : Int) (ttl : Duration) (saves : List (Order × Time))
    (hk : (saves.length : Int) ≤ N)
    (hd : (saves.map (fun p => p.1.OrderUID)).Nodup) :
    (run (NewInMemoryCache N ttl) (saveOps saves)).lruList.map Element.Value =
      (saves.map (savedEntry ttl)).reverse := by
  induction saves using List.reverseRecOn with
  | nil => rfl
  | append_singleton saves p ih =>
    rw [List.map_append, List.nodup_append] at hd
    obtain ⟨hd₁, _, hdis⟩ := hd
    rw [List.length_append, List.length_singleton] at hk
    have ih' := ih (by push_cast at hk ⊢; omega) hd₁
    have hwf := run_WF (saveOps saves) _ (WF_new N ttl)
    have hcap : (run (NewInMemoryCache N ttl) (saveOps saves)).capacity = N ∧
        (run (NewInMemoryCache N ttl) (saveOps saves)).ttl = ttl :=
      run_capacity (saveOps saves) _ (WF_new N ttl)
    have hrun : run (NewInMemoryCache N ttl) (saveOps (saves ++ [p])) =
        (SaveOrder (run (NewInMemoryCache N ttl) (saveOps saves)) p.1 p.2).1 := by
      simp [saveOps, run_append, run, step]
    have hlen : (run (NewInMemoryCache N ttl) (saveOps saves)).lruList.length =
        saves.length := by
      have := congrArg List.length ih'
      simpa using this
    have hdrop : dropKey (run (NewInMemoryCache N ttl) (saveOps saves)).lruList p.1.OrderUID =
        (run (NewInMemoryCache N ttl) (saveOps saves)).lruList := by
      apply dropKey_eq_self
      intro e he hkey
      have hv : e.Value ∈ (saves.map (savedEntry ttl)).reverse := by
        rw [← ih']
        exact List.mem_map.2 ⟨e, he, rfl⟩
      rw [List.mem_reverse] at hv
      obtain ⟨q, hq, hqe⟩ := List.mem_map.1 hv
      have hqk : q.1.OrderUID = p.1.OrderUID := by
        rw [← hkey, ← hqe]
        rfl
      have h1 : q.1.OrderUID ∈ saves.map (fun p => p.1.OrderUID) :=
        List.mem_map.2 ⟨q, hq, rfl⟩
      have h2 : q.1.OrderUID ∈ [p].map (fun p => p.1.OrderUID) := by
        rw [hqk]; simp
      exact hdis h1 h2
    rw [hrun, (SaveOrder_spec _ hwf p.1 p.2).2.1, hdrop, hcap.1, hcap.2]
    have hN : N > 0 := by push_cast at hk; omega
    rw [if_pos hN, List.take_of_length_le]
    · rw [List.map_cons, ih', List.map_append, List.reverse_append]
      rfl
    · rw [List.length_cons, hlen]
      push_cast at hk
      omega

/-- C5 (filling up to capacity): starting from the empty cache of capacity
`N ≥ 1`, after saving `k ≤ N` orders with pairwise distinct identifiers in
sequence, a `GetAllOrders` at an instant before each of them expires returns
exactly those orders, each once, most recently saved first, and a nil error. -/
theorem fill_getAllOrders (N : Int) (hN : 1 ≤ N) (ttl : Duration)
    (saves : List (Order × Time)) (hk : (saves.length : Int) ≤ N)
    (hd : (saves.map (fun p => p.1.OrderUID)).Nodup) (now : Time)
    (hlive : ∀ p ∈ saves, now < p.2 + ttl) :
    GetAllOrders (run (NewInMemoryCache N ttl) (saveOps saves)) now =
      ((saves.map Prod.fst).reverse, none) := by
  have _ := hN
  rw [GetAllOrders_eq, fill_entries N ttl saves hk hd]
  have hf : ((saves.map (savedEntry ttl)).reverse).filter (fun x => decide (now < x.exp)) =
      (saves.map (savedEntry ttl)).reverse := by
    rw [List.filter_eq_self]
    intro x hx
    rw [List.mem_reverse] at hx
    obtain ⟨q, hq, rfl⟩ := List.mem_map.1 hx
    simpa [savedEntry] using hlive q hq
  rw [hf, ← List.map_reverse, ← List.map_reverse, List.map_map]
  rfl

theorem fill_getAllOrders_witness :
    GetAllOrders
      (run (NewInMemoryCache 3 10)
        (saveOps [(sampleOrder "a", 0), (sampleOrder "b", 1), (sampleOrder "c", 2)])) 5 =
      ([sampleOrder "c", sampleOrder "b", sampleOrder "a"], none) :=
  fill_getAllOrders 3 (by decide) 10
    [(sampleOrder "a", 0), (sampleOrder "b", 1), (sampleOrder "c", 2)]
    (by decide) (by decide) 5 (by decide)

/-! ### Expiry boundary -/

/-- C6 (ttl = 0): on the cache built by `NewInMemoryCache(2, 0)`, after saving
three orders with distinct identifiers at instants 0, 1 and 2, `GetAllOrders` at
instant 3 returns no order at all instead of the two most recently saved, and
`GetOrder` of the last one reports not found: with ttl 0 an entry expires at the
instant it is saved. -/
theorem ttl_zero_entries_expire_at_once :
    GetAllOrders
      (run (NewInMemoryCache 2 0)
        (saveOps [(sampleOrder "a", 0), (sampleOrder "b", 1), (sampleOrder "c", 2)])) 3 =
      ([], none) ∧
    (run (NewInMemoryCache 2 0)
        (saveOps [(sampleOrder "a", 0), (sampleOrder "b", 1), (sampleOrder "c", 2)])).lruList.map
        (fun e => e.Value.key) = ["c", "b"] ∧
    (GetOrder
      (run (NewInMemoryCache 2 0)
        (saveOps [(sampleOrder "a", 0), (sampleOrder "b", 1), (sampleOrder "c", 2)])) "c" 3).2 =
      (Order.zero, false, none) := by
  decide

/-- C7 (agreement of `GetAllOrders` and `GetOrder`): at the instant equal to the
expiry of an entry the two disagree.  With ttl 5 and an order saved at instant 0,
at instant 5 `GetOrder` finds the order while `GetAllOrders` omits it. -/
theorem getAll_getOrder_disagree_at_expiry :
    (GetOrder (SaveOrder (NewInMemoryCache 2 5) (sampleOrder "a") 0).1 "a" 5).2 =
      (sampleOrder "a", true, none) ∧
    GetAllOrders (SaveOrder (NewInMemoryCache 2 5) (sampleOrder "a") 0).1 5 = ([], none) := by
  decide

/-! ### `OrderExists`, `RemoveOrder`, repeated `SaveOrder` -/

/-- C8 (`OrderExists` is the found flag of `GetOrder`): in every state and at every
instant, `OrderExists(id)` returns `(b, nil)` with `b` the found flag of
`GetOrder(id)` and leaves the cache in the state `GetOrder(id)` leaves it in. -/
theorem OrderExists_eq_GetOrder_found (c : InMemoryCache) (id : String) (now : Time) :
    (OrderExists c id now).2 = ((GetOrder c id now).2.2.1, none) ∧
    (OrderExists c id now).1 = (GetOrder c id now).1 :=
  ⟨rfl, rfl⟩

theorem RemoveOrder_absent (c : InMemoryCache) (id : String)
    (hg : mapGet c.cache id = none) : RemoveOrder c id = (c, none) := by
  unfold RemoveOrder
  rw [hg]

theorem RemoveOrder_present (c : InMemoryCache) (id : String) {e : Element}
    (hg : mapGet c.cache id = some e) :
    RemoveOrder c id =
      ({ c with lruList := listRemove c.lruList e, cache := mapDelete c.cache id }, none) := by
  unfold RemoveOrder
  rw [hg]

theorem RemoveOrder_mapGet_self (c : InMemoryCache) (id : String) :
    mapGet (RemoveOrder c id).1.cache id = none := by
  cases hg : mapGet c.cache id with
  | none => rw [RemoveOrder_absent c id hg]; exact hg
  | some e =>
    rw [RemoveOrder_present c id hg]
    exact mapGet_mapDelete_self _ _

/-- C9 (`RemoveOrder` is total and idempotent): in every reachable state
`RemoveOrder(id)` returns nil; when `id` is absent the state is unchanged;
afterwards `GetOrder(id)` reports not found at every instant, every other
identifier keeps its binding, the recency list is the former one without the
entry of `id`, and a second `RemoveOrder(id)` changes nothing. -/
theorem RemoveOrder_idempotent (c : InMemoryCache) (hc : Reachable c) (id : String) :
    (RemoveOrder c id).2 = none ∧
    (mapGet c.cache id = none → (RemoveOrder c id).1 = c) ∧
    (∀ now, (GetOrder (RemoveOrder c id).1 id now).2 = (Order.zero, false, none)) ∧
    (∀ k, k ≠ id → mapGet (RemoveOrder c id).1.cache k = mapGet c.cache k) ∧
    (RemoveOrder c id).1.lruList = dropKey c.lruList id ∧
    RemoveOrder (RemoveOrder c id).1 id = ((RemoveOrder c id).1, none) := by
  have hwf := hc.wf
  refine ⟨?_, ?_, ?_, ?_, ?_, ?_⟩
  · cases hg : mapGet c.cache id with
    | none => rw [RemoveOrder_absent c id hg]
    | some e => rw [RemoveOrder_present c id hg]
  · intro hg
    rw [RemoveOrder_absent c id hg]
  · intro now
    rw [GetOrder_absent _ _ _ (RemoveOrder_mapGet_self c id)]
  · intro k hk
    cases hg : mapGet c.cache id with
    | none => rw [RemoveOrder_absent c id hg]
    | some e =>
      rw [RemoveOrder_present c id hg]
      exact mapGet_mapDelete_ne _ hk
  · cases hg : mapGet c.cache id with
    | none =>
      rw [RemoveOrder_absent c id hg]
      symm
      apply dropKey_eq_self
      intro e he hk
      have := hwf.mapGet_of_mem he
      rw [hk, hg] at this
      cases this
    | some e =>
      rw [RemoveOrder_present c id hg]
      exact (WF_removeKey hwf hg).1
  · exact RemoveOrder_absent _ _ (RemoveOrder_mapGet_self c id)

theorem RemoveOrder_idempotent_witness :
    (RemoveOrder (run (NewInMemoryCache 2 5) (saveOps [(sampleOrder "a", 0),
        (sampleOrder "b", 1)])) "a").1.lruList =
      dropKey (run (NewInMemoryCache 2 5) (saveOps [(sampleOrder "a", 0),
        (sampleOrder "b", 1)])).lruList "a" :=
  (RemoveOrder_idempotent
    (run (NewInMemoryCache 2 5) (saveOps [(sampleOrder "a", 0), (sampleOrder "b", 1)]))
    ⟨2, 5, _, rfl⟩ "a").2.2.2.2.1

theorem contents_cons (c : InMemoryCache) (e : Element) (r : List Element)
    (h : c.lruList = e :: r) :
    contents c = (e.Value.key, e.Value.value) :: r.map (fun x => (x.Value.key, x.Value.value)) := by
  simp [contents, h]

theorem SaveOrder_twice_list (c : InMemoryCache) (h : WF c) (o : Order) (t₁ t₂ : Time) :
    ∃ r, (SaveOrder c o t₁).1.lruList = ⟨c.nextId, ⟨o.OrderUID, o, t₁ + c.ttl⟩⟩ :: r ∧
      (SaveOrder (SaveOrder c o t₁).1 o t₂).1.lruList =
        ⟨c.nextId + 1, ⟨o.OrderUID, o, t₂ + c.ttl⟩⟩ :: r := by
  obtain ⟨r, hr⟩ := SaveOrder_head c h o t₁
  refine ⟨r, hr, ?_⟩
  obtain ⟨hwf₁, hl₁, hcap₁, httl₁, hid₁, _⟩ := SaveOrder_spec c h o t₁
  have hdrop : dropKey (SaveOrder c o t₁).1.lruList o.OrderUID = r := by
    rw [hr]
    have hk := hwf₁.keys
    rw [hr, List.map_cons, List.nodup_cons] at hk
    have hr' : dropKey r o.OrderUID = r := by
      apply dropKey_eq_self
      intro e he hkey
      exact hk.1 (List.mem_map.2 ⟨e, he, hkey⟩)
    simp [dropKey] at hr' ⊢
    exact hr'
  rw [(SaveOrder_spec _ hwf₁ o t₂).2.1, hdrop, hcap₁, httl₁, hid₁]
  by_cases hcap : c.capacity > 0
  · rw [if_pos hcap, List.take_of_length_le]
    have hlen : (SaveOrder c o t₁).1.lruList.length ≤ c.capacity.toNat := by
      rw [hl₁, if_pos hcap]
      exact List.length_take_le _ _
    rw [hr] at hlen
    simpa using hlen
  · rw [if_neg hcap]

/-- C10 (`SaveOrder` twice with the same order): in every reachable state of a
cache of capacity `N ≥ 1`, both calls return nil and the state after
`SaveOrder(o); SaveOrder(o)` stores the same identifiers with the same orders in
the same recency order as the state after one `SaveOrder(o)`, in the list and in
the map. -/
theorem SaveOrder_twice (c : InMemoryCache) (hc : Reachable c) (hN : 1 ≤ c.capacity)
    (o : Order) (t₁ t₂ : Time) :
    (SaveOrder c o t₁).2 = none ∧ (SaveOrder (SaveOrder c o t₁).1 o t₂).2 = none ∧
    contents (SaveOrder (SaveOrder c o t₁).1 o t₂).1 = contents (SaveOrder c o t₁).1 ∧
    (∀ k, (mapGet (SaveOrder (SaveOrder c o t₁).1 o t₂).1.cache k).map (fun e => e.Value.value) =
      (mapGet (SaveOrder c o t₁).1.cache k).map (fun e => e.Value.value)) := by
  have _ := hN
  have hwf := hc.wf
  obtain ⟨r, h₁, h₂⟩ := SaveOrder_twice_list c hwf o t₁ t₂
  have hwf₁ := (SaveOrder_spec c hwf o t₁).1
  have hwf₂ := (SaveOrder_spec _ hwf₁ o t₂).1
  refine ⟨(SaveOrder_spec c hwf o t₁).2.2.2.2.2, (SaveOrder_spec _ hwf₁ o t₂).2.2.2.2.2, ?_, ?_⟩
  · rw [contents_cons _ _ _ h₁, contents_cons _ _ _ h₂]
  · intro k
    rw [hwf₁.mapGet_eq, hwf₂.mapGet_eq, h₁, h₂]
    by_cases hk : o.OrderUID = k
    · simp [List.find?_cons, hk]
    · have hb : (o.OrderUID == k) = false := by simpa using hk
      simp [List.find?_cons, hb]

theorem SaveOrder_twice_witness :
    contents (SaveOrder (SaveOrder (run (NewInMemoryCache 2 5)
        (saveOps [(sampleOrder "a", 0), (sampleOrder "b", 1)])) (sampleOrder "a") 2).1
        (sampleOrder "a") 3).1 =
      contents (SaveOrder (run (NewInMemoryCache 2 5)
        (saveOps [(sampleOrder "a", 0), (sampleOrder "b", 1)])) (sampleOrder "a") 2).1 :=
  (SaveOrder_twice
    (run (NewInMemoryCache 2 5) (saveOps [(sampleOrder "a", 0), (sampleOrder "b", 1)]))
    ⟨2, 5, _, rfl⟩ (by decide) (sampleOrder "a") 2 3).2.2.1

/-! ### LRU victim selection -/

theorem Ordered.sublist {stamp : String → Nat} {clock clock' : Nat} {l l' : List Element}
    (h : Ordered stamp clock l) (hs : l'.Sublist l) (hc : clock ≤ clock') :
    Ordered stamp clock' l' :=
  ⟨fun e he => ⟨(h.1 e (hs.subset he)).1, le_trans (h.1 e (hs.subset he)).2 hc⟩,
    h.2.sublist hs⟩

theorem Ordered.front {stamp : String → Nat} {clock : Nat} {l : List Element}
    (h : Ordered stamp clock l) (x : Element) :
    Ordered (Function.update stamp x.Value.key (clock + 1)) (clock + 1)
      (x :: dropKey l x.Value.key) := by
  have hst : ∀ e ∈ dropKey l x.Value.key,
      Function.update stamp x.Value.key (clock + 1) e.Value.key = stamp e.Value.key := by
    intro e he
    exact Function.update_noteq (mem_dropKey.1 he).2 _ _
  have hx : Function.update stamp x.Value.key (clock + 1) x.Value.key = clock + 1 :=
    Function.update_same _ _ _
  constructor
  · intro e he
    rcases List.mem_cons.1 he with rfl | he
    · rw [hx]; omega
    · rw [hst e he]
      have := h.1 e ((dropKey_sublist _ _).subset he)
      omega
  · rw [List.pairwise_cons]
    constructor
    · intro e he
      rw [hx, hst e he]
      have := h.1 e ((dropKey_sublist _ _).subset he)
      omega
    · have hp := h.2.sublist (dropKey_sublist l x.Value.key)
      apply hp.imp_of_mem
      intro a b ha hb hab
      rw [hst a ha, hst b hb]
      exact hab

theorem foldl_cleanupKey_sublist (ks : List String) (c : InMemoryCache) :
    (ks.foldl cleanupKey c).lruList.Sublist c.lruList := by
  induction ks generalizing c with
  | nil => exact List.Sublist.refl _
  | cons k ks ih =>
    apply (ih (cleanupKey c k)).trans
    unfold cleanupKey
    cases mapGet c.cache k with
    | none => exact List.Sublist.refl _
    | some e => exact List.filter_sublist _

theorem take_or_self_sublist (b : Prop) [Decidable b] (n : Nat) (l : List Element) :
    (if b then l.take n else l).Sublist l := by
  by_cases hb : b
  · rw [if_pos hb]; exact List.take_sublist _ _
  · rw [if_neg hb]

theorem stepT_ok (t : Traced) (h : TracedOk t) (op : Op) : TracedOk (stepT t op) := by
  obtain ⟨hwf, hord⟩ := h
  refine ⟨step_WF t.c hwf op, ?_⟩
  have hget : ∀ k now, Ordered
      (match (if (GetOrder t.c k now).2.2.1 = true then some k else none : Option String) with
        | some k => Function.update t.stamp k (t.clock + 1)
        | none => t.stamp) (t.clock + 1) (GetOrder t.c k now).1.lruList := by
    intro k now
    cases hg : mapGet t.c.cache k with
    | none =>
      rw [GetOrder_absent _ _ _ hg]
      exact hord.sublist (List.Sublist.refl _) (Nat.le_succ _)
    | some e =>
      by_cases hx : now > e.Value.exp
      · rw [GetOrder_expired _ _ _ hg hx]
        exact hord.sublist (List.filter_sublist _) (Nat.le_succ _)
      · rw [GetOrder_live _ _ _ hg hx]
        obtain ⟨hmem, hkey⟩ := hwf.mem_of_mapGet hg
        simp only [if_true, listMoveToFront_eq hwf.ids hwf.keys hmem]
        have := hord.front e
        rw [hkey] at this
        rw [hkey]
        exact this
  cases op with
  | save o now =>
    show Ordered (Function.update t.stamp o.OrderUID (t.clock + 1)) (t.clock + 1)
      (SaveOrder t.c o now).1.lruList
    rw [(SaveOrder_spec t.c hwf o now).2.1]
    exact (hord.front ⟨t.c.nextId, ⟨o.OrderUID, o, now + t.c.ttl⟩⟩).sublist
      (take_or_self_sublist _ _ _) (le_refl _)
  | get k now => exact hget k now
  | exist k now => exact hget k now
  | remove k =>
    show Ordered t.stamp (t.clock + 1) (RemoveOrder t.c k).1.lruList
    apply hord.sublist _ (Nat.le_succ _)
    unfold RemoveOrder
    cases mapGet t.c.cache k with
    | none => exact List.Sublist.refl _
    | some e => exact List.filter_sublist _
  | clear => exact hord.sublist (List.nil_sublist _) (Nat.le_succ _)
  | sweep now => exact hord.sublist (foldl_cleanupKey_sublist _ _) (Nat.le_succ _)
  | all now => exact hord.sublist (List.Sublist.refl _) (Nat.le_succ _)

theorem foldl_stepT_ok (ops : List Op) (t : Traced) (h : TracedOk t) :
    TracedOk (ops.foldl stepT t) := by
  induction ops generalizing t with
  | nil => exact h
  | cons op ops ih => exact ih _ (stepT_ok t h op)

theorem foldl_stepT_c (ops : List Op) (t : Traced) : (ops.foldl stepT t).c = run t.c ops := by
  induction ops generalizing t with
  | nil => rfl
  | cons op ops ih => exact ih _

theorem run_ordered (capacity : Int) (ttl : Duration) (ops : List Op) :
    Ordered (lastTouch (NewInMemoryCache capacity ttl) ops)
      (runT (NewInMemoryCache capacity ttl) ops).clock
      (run (NewInMemoryCache capacity ttl) ops).lruList := by
  have h := foldl_stepT_ok ops ⟨NewInMemoryCache capacity ttl, 0, fun _ => 0⟩
    ⟨WF_new capacity ttl, by simp [Ordered, NewInMemoryCache]⟩
  have hc := foldl_stepT_c ops ⟨NewInMemoryCache capacity ttl, 0, fun _ => 0⟩
  have := h.2
  rw [hc] at this
  exact this

/-- C1 (LRU victim): let `c` be the state after any sequence of calls on a new
cache of capacity `N ≥ 1`.  If `c` holds `N` keys and the identifier of `o` is not
among them, then `SaveOrder(o)` returns nil and removes exactly one entry, the
back element `victim` of the recency list, whose most recent touch is older than
that of every other stored key; every other entry stays bound to its element, in
the same order, and `o` is stored at the front. -/
theorem lru_victim (N : Int) (hN : 1 ≤ N) (ttl : Duration) (ops : List Op) (o : Order)
    (now : Time)
    (hfull : ((run (NewInMemoryCache N ttl) ops).cache.length : Int) = N)
    (hnew : mapGet (run (NewInMemoryCache N ttl) ops).cache o.OrderUID = none) :
    ∃ (victim : Element) (rest : List Element),
      (run (NewInMemoryCache N ttl) ops).lruList = rest ++ [victim] ∧
      (∀ e ∈ rest, lastTouch (NewInMemoryCache N ttl) ops victim.Value.key <
        lastTouch (NewInMemoryCache N ttl) ops e.Value.key) ∧
      0 < lastTouch (NewInMemoryCache N ttl) ops victim.Value.key ∧
      (SaveOrder (run (NewInMemoryCache N ttl) ops) o now).2 = none ∧
      (SaveOrder (run (NewInMemoryCache N ttl) ops) o now).1.lruList =
        ⟨(run (NewInMemoryCache N ttl) ops).nextId, ⟨o.OrderUID, o, now + ttl⟩⟩ :: rest ∧
      mapGet (SaveOrder (run (NewInMemoryCache N ttl) ops) o now).1.cache victim.Value.key =
        none ∧
      (∀ e ∈ rest,
        mapGet (SaveOrder (run (NewInMemoryCache N ttl) ops) o now).1.cache e.Value.key =
          some e) ∧
      mapGet (SaveOrder (run (NewInMemoryCache N ttl) ops) o now).1.cache o.OrderUID =
        some ⟨(run (NewInMemoryCache N ttl) ops).nextId, ⟨o.OrderUID, o, now + ttl⟩⟩ := by
  have hwf := run_WF ops _ (WF_new N ttl)
  have hcap : (run (NewInMemoryCache N ttl) ops).capacity = N ∧
      (run (NewInMemoryCache N ttl) ops).ttl = ttl := run_capacity ops _ (WF_new N ttl)
  have hord := run_ordered N ttl ops
  generalize run (NewInMemoryCache N ttl) ops = c at *
  generalize lastTouch (NewInMemoryCache N ttl) ops = stamp at *
  generalize (runT (NewInMemoryCache N ttl) ops).clock = clock at *
  rw [hwf.cache_length] at hfull
  have hne : c.lruList ≠ [] := by
    intro hnil
    rw [hnil] at hfull
    simp at hfull
    omega
  obtain ⟨hspecwf, hspecl, _, _, _, hret⟩ := SaveOrder_spec c hwf o now
  have habs : ∀ e ∈ c.lruList, e.Value.key ≠ o.OrderUID := by
    intro e he hk
    have := hwf.mapGet_of_mem he
    rw [hk, hnew] at this
    cases this
  have hlist : (SaveOrder c o now).1.lruList =
      ⟨c.nextId, ⟨o.OrderUID, o, now + ttl⟩⟩ :: c.lruList.dropLast := by
    rw [hspecl, dropKey_eq_self habs, hcap.1, hcap.2, if_pos (by omega)]
    obtain ⟨m, hm⟩ : ∃ m, c.lruList.length = m + 1 :=
      ⟨c.lruList.length - 1, by
        have := List.length_pos.2 hne
        omega⟩
    have hn : N.toNat = m + 1 := by omega
    rw [hn, List.take_succ_cons, List.dropLast_eq_take, hm]
    rfl
  refine ⟨c.lruList.getLast hne, c.lruList.dropLast,
    (List.dropLast_append_getLast hne).symm, ?_, ?_, hret, ?_, ?_, ?_, ?_⟩
  · intro e he
    have hp := hord.2
    rw [← List.dropLast_append_getLast hne, List.pairwise_append] at hp
    exact hp.2.2 e he _ (List.mem_singleton_self _)
  · exact (hord.1 _ (List.getLast_mem hne)).1
  · exact hlist
  · cases hm : mapGet (SaveOrder c o now).1.cache (c.lruList.getLast hne).Value.key with
    | none => rfl
    | some e =>
      exfalso
      obtain ⟨hmem, hkey⟩ := hspecwf.mem_of_mapGet hm
      rw [hlist] at hmem
      rcases List.mem_cons.1 hmem with rfl | hmem
      · exact habs _ (List.getLast_mem hne) hkey.symm
      · have hk := hwf.keys
        rw [← List.dropLast_append_getLast hne, List.map_append, List.nodup_append] at hk
        exact hk.2.2 (List.mem_map.2 ⟨e, hmem, rfl⟩) (by rw [hkey]; simp)
  · intro e he
    apply hspecwf.mapGet_of_mem
    rw [hlist]
    exact List.mem_cons_of_mem _ he
  · have := SaveOrder_mapGet_self c hwf o now
    rw [hcap.2] at this
    exact this

theorem lru_victim_witness :
    ∃ (victim : Element) (rest : List Element),
      (run (NewInMemoryCache 2 10)
        [Op.save (sampleOrder "a") 0, Op.save (sampleOrder "b") 1, Op.get "a" 2]).lruList =
        rest ++ [victim] ∧
      (∀ e ∈ rest,
        lastTouch (NewInMemoryCache 2 10)
          [Op.save (sampleOrder "a") 0, Op.save (sampleOrder "b") 1, Op.get "a" 2]
          victim.Value.key <
        lastTouch (NewInMemoryCache 2 10)
          [Op.save (sampleOrder "a") 0, Op.save (sampleOrder "b") 1, Op.get "a" 2]
          e.Value.key) ∧
      0 < lastTouch (NewInMemoryCache 2 10)
          [Op.save (sampleOrder "a") 0, Op.save (sampleOrder "b") 1, Op.get "a" 2]
          victim.Value.key ∧
      (SaveOrder (run (NewInMemoryCache 2 10)
        [Op.save (sampleOrder "a") 0, Op.save (sampleOrder "b") 1, Op.get "a" 2])
        (sampleOrder "c") 3).2 = none ∧
      (SaveOrder (run (NewInMemoryCache 2 10)
        [Op.save (sampleOrder "a") 0, Op.save (sampleOrder "b") 1, Op.get "a" 2])
        (sampleOrder "c") 3).1.lruList =
        ⟨(run (NewInMemoryCache 2 10)
          [Op.save (sampleOrder "a") 0, Op.save (sampleOrder "b") 1, Op.get "a" 2]).nextId,
          ⟨(sampleOrder "c").OrderUID, sampleOrder "c", 3 + 10⟩⟩ :: rest ∧
      mapGet (SaveOrder (run (NewInMemoryCache 2 10)
        [Op.save (sampleOrder "a") 0, Op.save (sampleOrder "b") 1, Op.get "a" 2])
        (sampleOrder "c") 3).1.cache victim.Value.key = none ∧
      (∀ e ∈ rest,
        mapGet (SaveOrder (run (NewInMemoryCache 2 10)
          [Op.save (sampleOrder "a") 0, Op.save (sampleOrder "b") 1, Op.get "a" 2])
          (sampleOrder "c") 3).1.cache e.Value.key = some e) ∧
      mapGet (SaveOrder (run (NewInMemoryCache 2 10)
        [Op.save (sampleOrder "a") 0, Op.save (sampleOrder "b") 1, Op.get "a" 2])
        (sampleOrder "c") 3).1.cache (sampleOrder "c").OrderUID =
        some ⟨(run (NewInMemoryCache 2 10)
          [Op.save (sampleOrder "a") 0, Op.save (sampleOrder "b") 1, Op.get "a" 2]).nextId,
          ⟨(sampleOrder "c").OrderUID, sampleOrder "c", 3 + 10⟩⟩ :=
  lru_victim 2 (by decide) 10
    [Op.save (sampleOrder "a") 0, Op.save (sampleOrder "b") 1, Op.get "a" 2]
    (sampleOrder "c") 3 (by decide) (by decide)

/-! ### `Clear`, read-triggered eviction, background sweep -/

/-- C11 (`Clear` empties the cache): in every state, `Clear()` and `Close()`
return nil and leave the same state, with no stored entry; afterwards
`GetAllOrders` returns the empty list and `GetOrder` and `OrderExists` report
not found for every identifier at every instant, and capacity and ttl are the
former ones. -/
theorem Clear_empties (c : InMemoryCache) (id : String) (now : Time) :
    (Clear c).2 = none ∧ (Close c).2 = none ∧ (Close c).1 = (Clear c).1 ∧
    (Clear c).1.lruList = [] ∧ (Clear c).1.cache = [] ∧
    GetAllOrders (Clear c).1 now = ([], none) ∧
    (GetOrder (Clear c).1 id now).2 = (Order.zero, false, none) ∧
    (OrderExists (Clear c).1 id now).2 = (false, none) ∧
    (Clear c).1.capacity = c.capacity ∧ (Clear c).1.ttl = c.ttl :=
  ⟨rfl, rfl, rfl, rfl, rfl, rfl, rfl, rfl, rfl, rfl⟩

theorem length_dropKey_of_mem {l : List Element}
    (hk : (l.map (fun e => e.Value.key)).Nodup) {e : Element} (he : e ∈ l) :
    (dropKey l e.Value.key).length + 1 = l.length := by
  rw [(perm_cons_dropKey hk he).length_eq, List.length_cons]

/-- C12 (read-triggered eviction): in every reachable state whose map binds `id`
to an entry with expiry before `now`, `GetOrder(id)` at `now` reports not found,
unbinds `id`, unlinks its element from the recency list, so that both counts drop
by one, and leaves every other binding and the order of the other elements as
they were. -/
theorem GetOrder_evicts_expired (c : InMemoryCache) (hc : Reachable c) (id : String)
    (now : Time) (e : Element) (hg : mapGet c.cache id = some e) (hx : now > e.Value.exp) :
    (GetOrder c id now).2 = (Order.zero, false, none) ∧
    mapGet (GetOrder c id now).1.cache id = none ∧
    (∀ k, k ≠ id → mapGet (GetOrder c id now).1.cache k = mapGet c.cache k) ∧
    (GetOrder c id now).1.lruList = dropKey c.lruList id ∧
    (GetOrder c id now).1.lruList.length + 1 = c.lruList.length ∧
    (GetOrder c id now).1.cache.length + 1 = c.cache.length ∧
    (GetOrder c id now).1.capacity = c.capacity ∧ (GetOrder c id now).1.ttl = c.ttl := by
  have hwf := hc.wf
  obtain ⟨hmem, hkey⟩ := hwf.mem_of_mapGet hg
  obtain ⟨hl, hwf'⟩ := WF_removeKey hwf hg
  have hlen : (dropKey c.lruList id).length + 1 = c.lruList.length := by
    rw [← hkey]
    exact length_dropKey_of_mem hwf.keys hmem
  rw [GetOrder_expired c id now hg hx]
  refine ⟨rfl, mapGet_mapDelete_self _ _, fun k hk => mapGet_mapDelete_ne _ hk, hl, ?_, ?_,
    rfl, rfl⟩
  · show (listRemove c.lruList e).length + 1 = c.lruList.length
    rw [hl]
    exact hlen
  · rw [hwf'.cache_length, hwf.cache_length]
    show (listRemove c.lruList e).length + 1 = c.lruList.length
    rw [hl]
    exact hlen

theorem GetOrder_evicts_expired_witness :
    (GetOrder (run (NewInMemoryCache 3 10)
        (saveOps [(sampleOrder "a", 0), (sampleOrder "b", 5)])) "a" 11).1.lruList =
      dropKey (run (NewInMemoryCache 3 10)
        (saveOps [(sampleOrder "a", 0), (sampleOrder "b", 5)])).lruList "a" :=
  (GetOrder_evicts_expired
    (run (NewInMemoryCache 3 10) (saveOps [(sampleOrder "a", 0), (sampleOrder "b", 5)]))
    ⟨3, 10, _, rfl⟩ "a" 11 ⟨0, ⟨"a", sampleOrder "a", 10⟩⟩ (by decide) (by decide)).2.2.2.1

theorem cleanupKey_list (c : InMemoryCache) (h : WF c) (k : String) :
    (cleanupKey c k).lruList = dropKey c.lruList k := by
  unfold cleanupKey
  cases hg : mapGet c.cache k with
  | some e => exact (WF_removeKey h hg).1
  | none =>
    symm
    apply dropKey_eq_self
    intro e he hk
    have := h.mapGet_of_mem he
    rw [hk, hg] at this
    cases this

theorem foldl_cleanupKey_list (ks : List String) (c : InMemoryCache) (h : WF c) :
    (ks.foldl cleanupKey c).lruList =
      c.lruList.filter (fun e => decide (e.Value.key ∉ ks)) := by
  induction ks generalizing c with
  | nil => simp
  | cons k ks ih =>
    rw [List.foldl_cons, ih _ (cleanupKey_WF c h k), cleanupKey_list c h k]
    unfold dropKey
    rw [List.filter_filter]
    apply List.filter_congr
    intro e _
    by_cases h1 : e.Value.key = k
    · simp [h1]
    · by_cases h2 : e.Value.key ∈ ks
      · simp [h1, h2]
      · simp [h1, h2]

theorem cleanupExpired_list (c : InMemoryCache) (h : WF c) (now : Time) :
    (cleanupExpired c now).lruList = unexpired c.lruList now := by
  unfold cleanupExpired
  simp only []
  rw [foldl_cleanupKey_list _ c h]
  unfold unexpired
  apply List.filter_congr
  intro e he
  have hb := h.mapGet_of_mem he
  by_cases hx : now > e.Value.exp
  · have hin : e.Value.key ∈
        (c.cache.filter (fun p => decide (now > p.2.Value.exp))).map Prod.fst := by
      apply List.mem_map.2
      refine ⟨(e.Value.key, e), ?_, rfl⟩
      rw [List.mem_filter]
      exact ⟨(mapGet_eq_some_of_nodup h.cache_keys _ _).1 hb, by simpa using hx⟩
    simp [hin, hx]
  · have hnin : e.Value.key ∉
        (c.cache.filter (fun p => decide (now > p.2.Value.exp))).map Prod.fst := by
      intro hin
      obtain ⟨p, hp, hpk⟩ := List.mem_map.1 hin
      rw [List.mem_filter] at hp
      have hp1 : (e.Value.key, p.2) ∈ c.cache := by
        rw [← hpk]
        exact hp.1
      have := (mapGet_eq_some_of_nodup h.cache_keys _ _).2 hp1
      rw [hb] at this
      cases this
      exact hx (by simpa using hp.2)
    simp [hnin, hx]

/-- C13 (background sweep): in every reachable state, whatever the order `m` in
which the key map is iterated, `cleanupExpired` at `now` leaves in the recency
list exactly the elements whose expiry has not passed, in their former order,
and a key map binding exactly the keys of those elements to them. -/
theorem cleanupExpired_removes_expired (c : InMemoryCache) (hc : Reachable c) (now : Time)
    (m : List (String × Element)) (hm : m.Perm c.cache) :
    (cleanupExpired { c with cache := m } now).lruList = unexpired c.lruList now ∧
    (cleanupExpired { c with cache := m } now).cache.Perm
      (indexOf (unexpired c.lruList now)) ∧
    (∀ k, mapGet (cleanupExpired { c with cache := m } now).cache k =
      (unexpired c.lruList now).find? (fun e => e.Value.key == k)) ∧
    (cleanupExpired c now).lruList = unexpired c.lruList now := by
  have hwf := hc.wf
  have hwf' : WF { c with cache := m } :=
    ⟨hwf.ids, hwf.keys, hm.trans hwf.perm, hwf.fresh⟩
  have hl := cleanupExpired_list _ hwf' now
  have hr := cleanupExpired_WF _ hwf' now
  refine ⟨hl, ?_, ?_, cleanupExpired_list c hwf now⟩
  · have := hr.perm
    rw [hl] at this
    exact this
  · intro k
    rw [hr.mapGet_eq, hl]

theorem cleanupExpired_removes_expired_witness :
    (cleanupExpired
      { run (NewInMemoryCache 3 10)
          (saveOps [(sampleOrder "a", 0), (sampleOrder "b", 5), (sampleOrder "c", 1)]) with
        cache := (run (NewInMemoryCache 3 10)
          (saveOps [(sampleOrder "a", 0), (sampleOrder "b", 5),
            (sampleOrder "c", 1)])).cache.reverse } 12).lruList =
      unexpired (run (NewInMemoryCache 3 10)
          (saveOps [(sampleOrder "a", 0), (sampleOrder "b", 5),
            (sampleOrder "c", 1)])).lruList 12 :=
  (cleanupExpired_removes_expired
    (run (NewInMemoryCache 3 10)
      (saveOps [(sampleOrder "a", 0), (sampleOrder "b", 5), (sampleOrder "c", 1)]))
    ⟨3, 10, _, rfl⟩ 12 _ (List.reverse_perm _)).1

theorem WF.consistent {c : InMemoryCache} (h : WF c) : Consistent c where
  unique := fun e₁ h₁ e₂ h₂ hk => List.inj_on_of_nodup_map h.keys h₁ h₂ hk
  once := h.keys
  keys := by
    intro k
    rw [(h.perm.map Prod.fst).mem_iff, indexOf_keys]
  bound_once := h.cache_keys
  points := by
    intro k e hm
    exact h.mem_of_mapGet ((mapGet_eq_some_of_nodup h.cache_keys k e).2 hm)
  lookup := fun e he => h.mapGet_of_mem he
  size := h.cache_length.symm

/-- C27 (map/list consistency): after every sequence of `SaveOrder`, `GetOrder`,
`OrderExists`, `RemoveOrder`, `Clear`, `cleanupExpired` and `GetAllOrders` calls
on a new cache, and also after a further `evictIfNeeded`, the key map and the
recency list describe the same entries: every identifier is in at most one list
element, the map keys are the identifiers of the list, the map sends each
identifier to the list element carrying it, and the list length is the map
size. -/
theorem map_list_consistent (capacity : Int) (ttl : Duration) (ops : List Op) :
    Consistent (run (NewInMemoryCache capacity ttl) ops) ∧
    Consistent (evictIfNeeded (run (NewInMemoryCache capacity ttl) ops)) :=
  ⟨(run_WF ops _ (WF_new capacity ttl)).consistent,
    (evictIfNeeded_spec _ (run_WF ops _ (WF_new capacity ttl))).1.consistent⟩

/-- Capacity eviction of a live entry while an expired one stays.  Capacity 2,
ttl 10: `a` saved at 0, `b` saved at 8, `a` read at 9 (found, moved to the front,
expiry still 10).  At instant 12 `a` is expired and `b` is live, and
`SaveOrder(c)` at 12 evicts `b` and keeps `a`. -/
theorem eviction_drops_live_keeps_expired :
    (run (NewInMemoryCache 2 10)
      [Op.save (sampleOrder "a") 0, Op.save (sampleOrder "b") 8, Op.get "a" 9]).lruList.map
        (fun e => (e.Value.key, e.Value.exp)) = [("a", 10), ("b", 18)] ∧
    (GetOrder (run (NewInMemoryCache 2 10)
      [Op.save (sampleOrder "a") 0, Op.save (sampleOrder "b") 8, Op.get "a" 9]) "b" 12).2 =
        (sampleOrder "b", true, none) ∧
    (GetOrder (run (NewInMemoryCache 2 10)
      [Op.save (sampleOrder "a") 0, Op.save (sampleOrder "b") 8, Op.get "a" 9]) "a" 12).2 =
        (Order.zero, false, none) ∧
    (SaveOrder (run (NewInMemoryCache 2 10)
      [Op.save (sampleOrder "a") 0, Op.save (sampleOrder "b") 8, Op.get "a" 9])
      (sampleOrder "c") 12).1.lruList.map (fun e => e.Value.key) = ["c", "a"] := by
  decide

/-- C30 (capacity eviction is by recency alone): on a cache of capacity `N ≥ 1`
and ttl `> 0`, in the state after any sequence of calls, `SaveOrder(o)` at `now`
puts `o` at the front, keeps the first `N - 1` of the other elements in their
order and evicts the rest: every evicted entry was touched less recently than
every entry kept and is unbound from the map, whatever the expiry instants of
the entries and whatever `now`. -/
theorem eviction_by_recency (N : Int) (hN : 1 ≤ N) (ttl : Duration) (httl : 0 < ttl)
    (ops : List Op) (o : Order) (now : Time) :
    ∃ kept evicted : List Element,
      dropKey (run (NewInMemoryCache N ttl) ops).lruList o.OrderUID = kept ++ evicted ∧
      kept.length = min (N.toNat - 1)
        (dropKey (run (NewInMemoryCache N ttl) ops).lruList o.OrderUID).length ∧
      (SaveOrder (run (NewInMemoryCache N ttl) ops) o now).1.lruList =
        ⟨(run (NewInMemoryCache N ttl) ops).nextId, ⟨o.OrderUID, o, now + ttl⟩⟩ :: kept ∧
      (∀ a ∈ kept, ∀ b ∈ evicted,
        lastTouch (NewInMemoryCache N ttl) ops b.Value.key <
          lastTouch (NewInMemoryCache N ttl) ops a.Value.key) ∧
      (∀ b ∈ evicted,
        mapGet (SaveOrder (run (NewInMemoryCache N ttl) ops) o now).1.cache b.Value.key =
          none) := by
  have _ := httl
  have hwf := run_WF ops _ (WF_new N ttl)
  have hcap : (run (NewInMemoryCache N ttl) ops).capacity = N ∧
      (run (NewInMemoryCache N ttl) ops).ttl = ttl := run_capacity ops _ (WF_new N ttl)
  have hord := run_ordered N ttl ops
  generalize run (NewInMemoryCache N ttl) ops = c at *
  generalize lastTouch (NewInMemoryCache N ttl) ops = stamp at *
  generalize (runT (NewInMemoryCache N ttl) ops).clock = clock at *
  obtain ⟨hspecwf, hspecl, _, _, _, _⟩ := SaveOrder_spec c hwf o now
  obtain ⟨m, hm⟩ : ∃ m, N.toNat = m + 1 := ⟨N.toNat - 1, by omega⟩
  have hlist : (SaveOrder c o now).1.lruList =
      ⟨c.nextId, ⟨o.OrderUID, o, now + ttl⟩⟩ :: (dropKey c.lruList o.OrderUID).take m := by
    rw [hspecl, hcap.1, hcap.2, if_pos (by omega), hm, List.take_succ_cons]
  have hsub : (dropKey c.lruList o.OrderUID).Sublist c.lruList := dropKey_sublist _ _
  refine ⟨(dropKey c.lruList o.OrderUID).take m, (dropKey c.lruList o.OrderUID).drop m,
    (List.take_append_drop _ _).symm, ?_, ?_, ?_, ?_⟩
  · rw [List.length_take, hm]
    simp
  · exact hlist
  · intro a ha b hb
    have hp := hord.2.sublist hsub
    rw [← List.take_append_drop m (dropKey c.lruList o.OrderUID), List.pairwise_append] at hp
    exact hp.2.2 a ha b hb
  · intro b hb
    cases hg : mapGet (SaveOrder c o now).1.cache b.Value.key with
    | none => rfl
    | some e =>
      exfalso
      obtain ⟨hmem, hkey⟩ := hspecwf.mem_of_mapGet hg
      rw [hlist] at hmem
      have hbl : b ∈ dropKey c.lruList o.OrderUID := List.mem_of_mem_drop hb
      rcases List.mem_cons.1 hmem with rfl | hmem
      · exact (mem_dropKey.1 hbl).2 hkey.symm
      · have hk := (hsub.map (fun e => e.Value.key)).nodup hwf.keys
        rw [← List.take_append_drop m (dropKey c.lruList o.OrderUID), List.map_append,
          List.nodup_append] at hk
        exact hk.2.2 (List.mem_map.2 ⟨e, hmem, rfl⟩) (List.mem_map.2 ⟨b, hb, hkey.symm⟩)

theorem eviction_by_recency_witness :
    ∃ kept evicted : List Element,
      dropKey (run (NewInMemoryCache 2 10)
        [Op.save (sampleOrder "a") 0, Op.save (sampleOrder "b") 8, Op.get "a" 9]).lruList
        (sampleOrder "c").OrderUID = kept ++ evicted ∧
      kept.length = min ((2 : Int).toNat - 1)
        (dropKey (run (NewInMemoryCache 2 10)
          [Op.save (sampleOrder "a") 0, Op.save (sampleOrder "b") 8, Op.get "a" 9]).lruList
          (sampleOrder "c").OrderUID).length ∧
      (SaveOrder (run (NewInMemoryCache 2 10)
        [Op.save (sampleOrder "a") 0, Op.save (sampleOrder "b") 8, Op.get "a" 9])
        (sampleOrder "c") 12).1.lruList =
        ⟨(run (NewInMemoryCache 2 10)
          [Op.save (sampleOrder "a") 0, Op.save (sampleOrder "b") 8, Op.get "a" 9]).nextId,
          ⟨(sampleOrder "c").OrderUID, sampleOrder "c", 12 + 10⟩⟩ :: kept ∧
      (∀ a ∈ kept, ∀ b ∈ evicted,
        lastTouch (NewInMemoryCache 2 10)
          [Op.save (sampleOrder "a") 0, Op.save (sampleOrder "b") 8, Op.get "a" 9]
          b.Value.key <
        lastTouch (NewInMemoryCache 2 10)
          [Op.save (sampleOrder "a") 0, Op.save (sampleOrder "b") 8, Op.get "a" 9]
          a.Value.key) ∧
      (∀ b ∈ evicted,
        mapGet (SaveOrder (run (NewInMemoryCache 2 10)
          [Op.save (sampleOrder "a") 0, Op.save (sampleOrder "b") 8, Op.get "a" 9])
          (sampleOrder "c") 12).1.cache b.Value.key = none) :=
  eviction_by_recency 2 (by decide) 10 (by decide)
    [Op.save (sampleOrder "a") 0, Op.save (sampleOrder "b") 8, Op.get "a" 9]
    (sampleOrder "c") 12

theorem tdiv_two_pos (d : Int) (h : 2 ≤ d) : 0 < d ∧ 0 < Int.tdiv d 2 := by
  have hdiv : Int.tdiv d 2 = d / 2 := Int.tdiv_eq_ediv (by omega) (by decide)
  rw [hdiv]
  omega

theorem goStartCleanup_of_two_le (capacity : Int) (ttl : Duration) (h : 2 ≤ ttl) :
    goStartCleanup capacity ttl = Background.sweepEvery (Int.tdiv ttl 2) ∧
    0 < Int.tdiv ttl 2 := by
  have hpos : ttl > 0 := (tdiv_two_pos ttl h).1
  have hq : 0 < Int.tdiv ttl 2 := (tdiv_two_pos ttl h).2
  refine ⟨?_, hq⟩
  unfold goStartCleanup startCleanup NewTicker
  rw [if_pos hpos]
  show (match (if Int.tdiv ttl 2 ≤ 0 then none else some (Int.tdiv ttl 2)) with
    | none => Background.panicked
    | some period => Background.sweepEvery period) = _
  rw [if_neg (not_le.2 hq)]

theorem find?_filter_of_find? {α : Type} (p q : α → Bool) (l : List α) (e : α)
    (h : l.find? q = some e) (hp : p e = true) : (l.filter p).find? q = some e := by
  induction l with
  | nil => simp at h
  | cons a l ih =>
    rw [List.find?_cons] at h
    cases hq : q a with
    | true =>
      rw [hq] at h
      cases h
      rw [List.filter_cons_of_pos hp, List.find?_cons, hq]
    | false =>
      rw [hq] at h
      cases hpa : p a with
      | true => rw [List.filter_cons_of_pos hpa, List.find?_cons, hq]; exact ih h
      | false => rw [List.filter_cons_of_neg (by simp [hpa])]; exact ih h

theorem cleanupExpired_keeps_live (c : InMemoryCache) (h : WF c) (k : String) (e : Element)
    (hg : mapGet c.cache k = some e) (s : Time) (hs : s ≤ e.Value.exp) :
    mapGet (cleanupExpired c s).cache k = some e := by
  rw [(cleanupExpired_WF c h s).mapGet_eq, cleanupExpired_list c h s]
  rw [h.mapGet_eq] at hg
  apply find?_filter_of_find? _ _ _ _ hg
  have : ¬ s > e.Value.exp := not_lt.2 hs
  simp [this]

theorem sweeps_keep_live (sweeps : List Time) (c : InMemoryCache) (h : WF c) (k : String)
    (e : Element) (hg : mapGet c.cache k = some e) (hs : ∀ s ∈ sweeps, s ≤ e.Value.exp) :
    mapGet (run c (sweeps.map Op.sweep)).cache k = some e := by
  induction sweeps generalizing c with
  | nil => exact hg
  | cons s sweeps ih =>
    rw [List.map_cons]
    show mapGet (run (cleanupExpired c s) (sweeps.map Op.sweep)).cache k = some e
    exact ih _ (cleanupExpired_WF c h s)
      (cleanupExpired_keeps_live c h k e hg s (hs s (List.mem_cons_self _ _)))
      (fun x hx => hs x (List.mem_cons_of_mem _ hx))

end cache

namespace service

open models regexp

/-! ### Order validation -/

theorem ge_zero_iff (x : Float64) : Float64.ge x (Float64.ofInt 0) = true ↔ IsNonneg x := by
  cases x with
  | finite q => simp [Float64.ge, Float64.le, Float64.ofInt, IsNonneg]
  | posInf => simp [Float64.ge, Float64.le, Float64.ofInt, IsNonneg]
  | negInf => simp [Float64.ge, Float64.le, Float64.ofInt, IsNonneg]
  | nan => simp [Float64.ge, Float64.le, Float64.ofInt, IsNonneg]

theorem validateItemsLoop_iff (items : List OrderItem) :
    validateItemsLoop items = true ↔ ∀ item ∈ items, validateItem item = true := by
  induction items with
  | nil => simp [validateItemsLoop]
  | cons item rest ih =>
    unfold validateItemsLoop
    by_cases h : validateItem item = true
    · simp [h, ih]
    · simp [h]

theorem validateItems_iff (items : List OrderItem) :
    validateItems items = true ↔ items ≠ [] ∧ ∀ item ∈ items, validateItem item = true := by
  unfold validateItems
  by_cases h : items.length = 0
  · have : items = [] := List.length_eq_zero.1 h
    simp [this]
  · have : items ≠ [] := fun e => h (by rw [e]; rfl)
    rw [if_neg h, validateItemsLoop_iff]
    simp [this]

/-- C14 (`ValidateOrder` is the conjunction of the field checks): `ValidateOrder`
returns true exactly when the eight required order strings are non-empty, the six
delivery strings are non-empty and the e-mail passes `isValidEmail`, the four
payment strings are non-empty and the four amounts are `>= 0`, there is at least
one item and every item passes `validateItem`, and `DateCreated` is not the zero
time; so breaking any one of these makes it return false. -/
theorem ValidateOrder_iff (order : Order) :
    ValidateOrder order = true ↔
      (order.OrderUID ≠ "" ∧ order.TrackNumber ≠ "" ∧ order.EntryPoint ≠ "" ∧
        order.LocaleCode ≠ "" ∧ order.CustomerId ≠ "" ∧ order.DeliveryService ≠ "" ∧
        order.ShardKey ≠ "" ∧ order.OOFShard ≠ "") ∧
      (order.Delivery.Name ≠ "" ∧ order.Delivery.Phone ≠ "" ∧ order.Delivery.Zip ≠ "" ∧
        order.Delivery.City ≠ "" ∧ order.Delivery.Address ≠ "" ∧
        order.Delivery.Region ≠ "" ∧ isValidEmail order.Delivery.Email = true) ∧
      (order.Payment.TransactionUID ≠ "" ∧ order.Payment.CurrencyCode ≠ "" ∧
        order.Payment.PaymentProvider ≠ "" ∧ order.Payment.BankCode ≠ "" ∧
        IsNonneg order.Payment.AmountTotal ∧ IsNonneg order.Payment.DeliveryCost ∧
        IsNonneg order.Payment.GoodsTotal ∧ IsNonneg order.Payment.CustomFee) ∧
      (order.Items ≠ [] ∧ ∀ item ∈ order.Items, validateItem item = true) ∧
      order.DateCreated ≠ 0 := by
  unfold ValidateOrder validateRequiredFields validateDelivery validatePayment validateDate
  simp only [Bool.and_eq_true, bne_iff_ne, ne_eq, validateItems_iff, ge_zero_iff,
    Bool.not_eq_true', beq_eq_false_iff_ne]
  tauto

/-- C15 (positive catalog and product ids): an order whose only item has
`ChartID = -1` and `ProductID = -5`, valid in every other respect, passes
`ValidateOrder`, although `ValidateChartID` and `ValidateProductID` reject these
ids: `validateItem` tests `!= 0` where they test `> 0`. -/
theorem negative_ids_pass_ValidateOrder :
    ValidateOrder
      { validOrder "b563feb7" with
        Items := [{ sampleItem with ChartID := -1, ProductID := -5 }] } = true ∧
    ValidateChartID (-1) = false ∧ ValidateProductID (-5) = false := by
  decide

/-- C16 (e-mail check): the address whose local part is the Kelvin sign U+212A, a
rune outside ASCII, passes `isValidEmail`, and an order valid in every other
respect with that address passes `ValidateOrder`: `strings.ToLower` turns the
Kelvin sign into `k` before the pattern is applied. -/
theorem kelvin_sign_passes_isValidEmail :
    isValidEmail "\u212A@example.com" = true ∧
    "\u212A@example.com".data = Char.ofNat 0x212A :: "@example.com".data ∧
    127 < (Char.ofNat 0x212A).toNat ∧
    ValidateOrder
      { validOrder "b563feb7" with
        Delivery := { (validOrder "b563feb7").Delivery with Email := "\u212A@example.com" } } =
      true := by
  decide

/-- C28 (public validators against `validateItem`): three items on which they
disagree.  With `ChartID = -1` and `ProductID = -5` `validateItem` accepts while
`ValidateChartID` and `ValidateProductID` reject; with `SalePercent = 150`
`validateItem` rejects while all ten public validators accept; and
`ValidateSalePercent` accepts 150, which is not in [0, 100]. -/
theorem public_validators_disagree :
    validateItem { sampleItem with ChartID := -1, ProductID := -5 } = true ∧
    publicItemChecks { sampleItem with ChartID := -1, ProductID := -5 } = false ∧
    validateItem { sampleItem with SalePercent := Float64.finite 150 } = false ∧
    publicItemChecks { sampleItem with SalePercent := Float64.finite 150 } = true ∧
    ValidateSalePercent (Float64.finite 150) = true ∧
    isValidSalePercent (Float64.finite 150) = false := by
  decide

/-- C25 (input checks of `Send`): `Send` returns "producer is not initialized"
when the producer is nil; otherwise "message is empty" when the message is empty;
otherwise "topic is required" when the topic is empty; in these cases
`SendMessage` is not called.  Otherwise it calls `SendMessage` once, with the
configured topic and the message bytes, and returns nil exactly when
`SendMessage` does, else the error "failed to send message: " followed by the
text of that error. -/
theorem Send_checks {π : Type} (op : OrderProducer π) (p : π) (data : List UInt8) :
    (op.producer = none → Send op p data = (p, [], some "producer is not initialized")) ∧
    (op.producer ≠ none → data = [] → Send op p data = (p, [], some "message is empty")) ∧
    (op.producer ≠ none → data ≠ [] → op.topic = "" →
      Send op p data = (p, [], some "topic is required")) ∧
    (∀ producer, op.producer = some producer → data ≠ [] → op.topic ≠ "" →
      (Send op p data).2.1 = [{ Topic := op.topic, Key := none, Value := data, Headers := [] }] ∧
      (Send op p data).1 =
        (producer.SendMessage p
          { Topic := op.topic, Key := none, Value := data, Headers := [] }).1 ∧
      ((Send op p data).2.2 = none ↔
        (producer.SendMessage p
          { Topic := op.topic, Key := none, Value := data, Headers := [] }).2.2.2 = none) ∧
      (∀ err, (producer.SendMessage p
          { Topic := op.topic, Key := none, Value := data, Headers := [] }).2.2.2 = some err →
        (Send op p data).2.2 = some ("failed to send message: " ++ err))) := by
  refine ⟨?_, ?_, ?_, ?_⟩
  · intro h
    simp [Send, PushToQueue, h, ErrProducerNotInitialized]
  · intro h hd
    cases hp : op.producer with
    | none => exact absurd hp h
    | some producer => simp [Send, PushToQueue, hp, hd, ErrEmptyMessage]
  · intro h hd ht
    cases hp : op.producer with
    | none => exact absurd hp h
    | some producer =>
      have h0 : ¬ data.length = 0 := fun e => hd (List.length_eq_zero.1 e)
      simp [Send, PushToQueue, hp, h0, ht, ErrTopicRequired]
  · intro producer hp hd ht
    have h0 : ¬ data.length = 0 := fun e => hd (List.length_eq_zero.1 e)
    unfold Send PushToQueue
    rw [hp]
    simp only [h0, if_false, ht]
    cases hs : (producer.SendMessage p
        { Topic := op.topic, Key := none, Value := data, Headers := [] }).2.2.2 with
    | none => simp
    | some err => simp [ErrSendMessage]

end service

namespace consumer

open models cache service sarama repository

/-! ### Message handling -/

theorem handleMessage_empty {σ δ : Type} (env : Env σ δ) (msg : ConsumerMessage)
    (dlqTopic : String) (s : σ) (d : δ) (h : msg.Value = []) :
    handleMessage env msg dlqTopic s d =
      ⟨s, d, [Event.sendToDLQ dlqTopic msg "empty message"]⟩ := by
  unfold handleMessage
  simp [h]

theorem handleMessage_undecodable {σ δ : Type} (env : Env σ δ) (msg : ConsumerMessage)
    (dlqTopic : String) (s : σ) (d : δ) (h : msg.Value ≠ []) {err : error}
    (hu : env.unmarshal msg.Value = Except.error err) :
    handleMessage env msg dlqTopic s d =
      ⟨s, d, [Event.sendToDLQ dlqTopic msg ("unmarshal error: " ++ err)]⟩ := by
  unfold handleMessage
  have h0 : ¬ msg.Value.length = 0 := fun e => h (List.length_eq_zero.1 e)
  rw [if_neg h0, hu]

theorem handleMessage_emptyUID {σ δ : Type} (env : Env σ δ) (msg : ConsumerMessage)
    (dlqTopic : String) (s : σ) (d : δ) (h : msg.Value ≠ []) {order : Order}
    (hu : env.unmarshal msg.Value = Except.ok order) (hid : order.OrderUID = "") :
    handleMessage env msg dlqTopic s d =
      ⟨s, d, [Event.sendToDLQ dlqTopic msg "empty OrderUID"]⟩ := by
  unfold handleMessage
  have h0 : ¬ msg.Value.length = 0 := fun e => h (List.length_eq_zero.1 e)
  rw [if_neg h0, hu]
  simp only [hid, if_true]

theorem handleMessage_invalid {σ δ : Type} (env : Env σ δ) (msg : ConsumerMessage)
    (dlqTopic : String) (s : σ) (d : δ) (h : msg.Value ≠ []) {order : Order}
    (hu : env.unmarshal msg.Value = Except.ok order) (hid : order.OrderUID ≠ "")
    (hval : ValidateOrder order = false) :
    handleMessage env msg dlqTopic s d =
      ⟨s, d, [Event.sendToDLQ dlqTopic msg "invalid order data"]⟩ := by
  unfold handleMessage
  have h0 : ¬ msg.Value.length = 0 := fun e => h (List.length_eq_zero.1 e)
  rw [if_neg h0, hu]
  simp only [hid, if_false, hval, Bool.not_false, if_true]

theorem handleMessage_duplicate {σ δ : Type} (env : Env σ δ) (msg : ConsumerMessage)
    (dlqTopic : String) (s : σ) (d : δ) (h : msg.Value ≠ []) {order : Order}
    (hu : env.unmarshal msg.Value = Except.ok order) (hid : order.OrderUID ≠ "")
    (hval : ValidateOrder order = true)
    (hex : (env.appCache.OrderExists s order.OrderUID).2 = (true, none)) :
    handleMessage env msg dlqTopic s d =
      ⟨(env.appCache.OrderExists s order.OrderUID).1, d,
        [Event.OrderExists order.OrderUID (true, none)]⟩ := by
  unfold handleMessage
  have h0 : ¬ msg.Value.length = 0 := fun e => h (List.length_eq_zero.1 e)
  rw [if_neg h0, hu]
  simp only [hid, if_false, hval, Bool.not_true, Bool.false_eq_true, hex, and_self, if_true]

theorem handleMessage_addFailed {σ δ : Type} (env : Env σ δ) (msg : ConsumerMessage)
    (dlqTopic : String) (s : σ) (d : δ) (h : msg.Value ≠ []) {order : Order}
    (hu : env.unmarshal msg.Value = Except.ok order) (hid : order.OrderUID ≠ "")
    (hval : ValidateOrder order = true)
    (hex : (env.appCache.OrderExists s order.OrderUID).2 ≠ (true, none)) {err : error}
    (hadd : (env.db.AddOrder d order).2 = some err) :
    handleMessage env msg dlqTopic s d =
      ⟨(env.appCache.OrderExists s order.OrderUID).1, (env.db.AddOrder d order).1,
        [Event.OrderExists order.OrderUID (env.appCache.OrderExists s order.OrderUID).2,
          Event.AddOrder order (some err)]⟩ := by
  unfold handleMessage
  have h0 : ¬ msg.Value.length = 0 := fun e => h (List.length_eq_zero.1 e)
  have hdup : ¬ ((env.appCache.OrderExists s order.OrderUID).2.2 = none ∧
      (env.appCache.OrderExists s order.OrderUID).2.1 = true) := by
    intro hh
    apply hex
    exact Prod.ext hh.2 hh.1
  rw [if_neg h0, hu]
  simp only [hid, if_false, hval, Bool.not_true, Bool.false_eq_true, hdup, hadd]

theorem handleMessage_added {σ δ : Type} (env : Env σ δ) (msg : ConsumerMessage)
    (dlqTopic : String) (s : σ) (d : δ) (h : msg.Value ≠ []) {order : Order}
    (hu : env.unmarshal msg.Value = Except.ok order) (hid : order.OrderUID ≠ "")
    (hval : ValidateOrder order = true)
    (hex : (env.appCache.OrderExists s order.OrderUID).2 ≠ (true, none))
    (hadd : (env.db.AddOrder d order).2 = none) :
    handleMessage env msg dlqTopic s d =
      ⟨(env.appCache.SaveOrder (env.appCache.OrderExists s order.OrderUID).1 order).1,
        (env.db.AddOrder d order).1,
        [Event.OrderExists order.OrderUID (env.appCache.OrderExists s order.OrderUID).2,
          Event.AddOrder order none,
          Event.SaveOrder order
            (env.appCache.SaveOrder (env.appCache.OrderExists s order.OrderUID).1 order).2]⟩ := by
  unfold handleMessage
  have h0 : ¬ msg.Value.length = 0 := fun e => h (List.length_eq_zero.1 e)
  have hdup : ¬ ((env.appCache.OrderExists s order.OrderUID).2.2 = none ∧
      (env.appCache.OrderExists s order.OrderUID).2.1 = true) := by
    intro hh
    apply hex
    exact Prod.ext hh.2 hh.1
  rw [if_neg h0, hu]
  simp only [hid, if_false, hval, Bool.not_true, Bool.false_eq_true, hdup, hadd]

theorem contains_empty_message : Contains "empty message" "empty" :=
  ⟨[], " message".data, by decide⟩

theorem contains_empty_OrderUID : Contains "empty OrderUID" "empty" :=
  ⟨[], " OrderUID".data, by decide⟩

/-- Every run of `handleMessage` has one of four shapes. -/
theorem handleMessage_classify {σ δ : Type} (env : Env σ δ) (msg : ConsumerMessage)
    (dlqTopic : String) (s : σ) (d : δ) :
    (Rejected env msg ∧ ∃ reason,
      handleMessage env msg dlqTopic s d = ⟨s, d, [Event.sendToDLQ dlqTopic msg reason]⟩ ∧
      (∀ order, env.unmarshal msg.Value = Except.ok order → order.OrderUID = "" →
        Contains reason "empty")) ∨
    (¬ Rejected env msg ∧ ∃ (order : Order) (cs : σ),
      handleMessage env msg dlqTopic s d =
        ⟨cs, d, [Event.OrderExists order.OrderUID (true, none)]⟩) ∨
    (¬ Rejected env msg ∧ ∃ (order : Order) (cs : σ) (ds : δ) (res : Bool × Option error) (err : error),
      handleMessage env msg dlqTopic s d =
        ⟨cs, ds, [Event.OrderExists order.OrderUID res, Event.AddOrder order (some err)]⟩) ∨
    (¬ Rejected env msg ∧ ∃ (order : Order) (cs : σ) (ds : δ) (res : Bool × Option error)
      (serr : Option error),
      handleMessage env msg dlqTopic s d =
        ⟨cs, ds, [Event.OrderExists order.OrderUID res, Event.AddOrder order none,
          Event.SaveOrder order serr]⟩) := by
  by_cases h : msg.Value = []
  · exact Or.inl ⟨Or.inl h, _, handleMessage_empty env msg dlqTopic s d h,
      fun _ _ _ => contains_empty_message⟩
  cases hu : env.unmarshal msg.Value with
  | error err =>
    refine Or.inl ⟨Or.inr (Or.inl ⟨err, hu⟩), _,
      handleMessage_undecodable env msg dlqTopic s d h hu, ?_⟩
    intro order ho
    cases ho
  | ok order =>
    by_cases hid : order.OrderUID = ""
    · exact Or.inl ⟨Or.inr (Or.inr ⟨order, hu, Or.inl hid⟩), _,
        handleMessage_emptyUID env msg dlqTopic s d h hu hid,
        fun _ _ _ => contains_empty_OrderUID⟩
    cases hval : ValidateOrder order with
    | false =>
      refine Or.inl ⟨Or.inr (Or.inr ⟨order, hu, Or.inr hval⟩), _,
        handleMessage_invalid env msg dlqTopic s d h hu hid hval, ?_⟩
      intro order' ho hid'
      cases ho
      exact absurd hid' hid
    | true =>
      have hnr : ¬ Rejected env msg := by
        rintro (h1 | ⟨err, h2⟩ | ⟨o, h3, h4⟩)
        · exact h h1
        · rw [hu] at h2; cases h2
        · rw [hu] at h3
          cases h3
          rcases h4 with h4 | h4
          · exact hid h4
          · rw [hval] at h4; cases h4
      by_cases hex : (env.appCache.OrderExists s order.OrderUID).2 = (true, none)
      · exact Or.inr (Or.inl ⟨hnr, order, _,
          handleMessage_duplicate env msg dlqTopic s d h hu hid hval hex⟩)
      cases hadd : (env.db.AddOrder d order).2 with
      | some err =>
        exact Or.inr (Or.inr (Or.inl ⟨hnr, order, _, _, _, err,
          handleMessage_addFailed env msg dlqTopic s d h hu hid hval hex hadd⟩))
      | none =>
        exact Or.inr (Or.inr (Or.inr ⟨hnr, order, _, _, _, _,
          handleMessage_added env msg dlqTopic s d h hu hid hval hex hadd⟩))

/-- C17 (dead-letter transitions): for every non-nil message and all collaborators,
`handleMessage` makes a dead-letter send exactly when the payload is empty, or it
does not deserialize, or the decoded `OrderUID` is empty, or `ValidateOrder`
rejects the order; in that case the send is its only call, so `AddOrder` and the
cache `SaveOrder` are not called and both states are left as they were, and when
the decoded `OrderUID` is empty the reason contains "empty". -/
theorem deadLetter_iff_rejected {σ δ : Type} (env : Env σ δ) (msg : ConsumerMessage)
    (dlqTopic : String) (s : σ) (d : δ) :
    ((handleMessage env msg dlqTopic s d).events.any Event.isDLQ = true ↔ Rejected env msg) ∧
    (Rejected env msg → ∃ reason,
      (handleMessage env msg dlqTopic s d).events = [Event.sendToDLQ dlqTopic msg reason] ∧
      (handleMessage env msg dlqTopic s d).events.any Event.isWrite = false ∧
      (handleMessage env msg dlqTopic s d).cache = s ∧
      (handleMessage env msg dlqTopic s d).db = d ∧
      (∀ order, env.unmarshal msg.Value = Except.ok order → order.OrderUID = "" →
        Contains reason "empty")) := by
  rcases handleMessage_classify env msg dlqTopic s d with
    ⟨hr, reason, he, hc⟩ | ⟨hr, order, cs, he⟩ | ⟨hr, order, cs, ds, res, err, he⟩ |
    ⟨hr, order, cs, ds, res, serr, he⟩
  · rw [he]
    exact ⟨⟨fun _ => hr, fun _ => rfl⟩, fun _ => ⟨reason, rfl, rfl, rfl, rfl, hc⟩⟩
  · rw [he]
    exact ⟨⟨fun h => by simp [Event.isDLQ] at h, fun h => absurd h hr⟩, fun h => absurd h hr⟩
  · rw [he]
    exact ⟨⟨fun h => by simp [Event.isDLQ] at h, fun h => absurd h hr⟩, fun h => absurd h hr⟩
  · rw [he]
    exact ⟨⟨fun h => by simp [Event.isDLQ] at h, fun h => absurd h hr⟩, fun h => absurd h hr⟩

/-- C18 (duplicates are dropped silently): when the payload deserializes to an
order with a non-empty `OrderUID` that passes `ValidateOrder` and the cache's
`OrderExists` returns true with a nil error, the duplicate check is the only call
`handleMessage` makes: no `AddOrder`, no cache `SaveOrder`, no dead-letter send,
and the repository state is left as it was. -/
theorem duplicate_dropped {σ δ : Type} (env : Env σ δ) (msg : ConsumerMessage)
    (dlqTopic : String) (s : σ) (d : δ) (order : Order) (hv : msg.Value ≠ [])
    (hu : env.unmarshal msg.Value = Except.ok order) (hid : order.OrderUID ≠ "")
    (hval : ValidateOrder order = true)
    (hex : (env.appCache.OrderExists s order.OrderUID).2 = (true, none)) :
    (handleMessage env msg dlqTopic s d).events =
      [Event.OrderExists order.OrderUID (true, none)] ∧
    (handleMessage env msg dlqTopic s d).events.any Event.isDLQ = false ∧
    (handleMessage env msg dlqTopic s d).events.any Event.isWrite = false ∧
    (handleMessage env msg dlqTopic s d).db = d ∧
    (handleMessage env msg dlqTopic s d).cache =
      (env.appCache.OrderExists s order.OrderUID).1 := by
  rw [handleMessage_duplicate env msg dlqTopic s d hv hu hid hval hex]
  exact ⟨rfl, rfl, rfl, rfl, rfl⟩

theorem duplicate_dropped_witness :
    (handleMessage (testEnv (fun _ => 5) [123, 125] (validOrder "a")) (testMsg [123, 125])
        "orders.dlq" (run (NewInMemoryCache 3 10) [Op.save (validOrder "a") 0], 0)
        [validOrder "a"]).events =
      [Event.OrderExists (validOrder "a").OrderUID (true, none)] :=
  (duplicate_dropped (testEnv (fun _ => 5) [123, 125] (validOrder "a")) (testMsg [123, 125])
    "orders.dlq" (run (NewInMemoryCache 3 10) [Op.save (validOrder "a") 0], 0)
    [validOrder "a"] (validOrder "a") (by decide) rfl (by decide) (by decide)
    (by decide)).1

/-- Read-triggered eviction during the duplicate check.  The in-process cache
holds the order `a`, saved at instant 0 with ttl 10; the store holds it too.  A
valid message for `a` handled at instant 20 is not a duplicate (the entry has
expired), `AddOrder` fails because the identifier is stored, nothing is
dead-lettered and `SaveOrder` is not called, yet the cache state has changed: the
expired entry is gone. -/
theorem persistence_failure_changes_cache :
    ValidateOrder (validOrder "a") = true ∧
    (handleMessage (testEnv (fun _ => 20) [123, 125] (validOrder "a")) (testMsg [123, 125])
        "orders.dlq" (run (NewInMemoryCache 3 10) [Op.save (validOrder "a") 0], 0)
        [validOrder "a"]).events =
      [Event.OrderExists "a" (false, none),
        Event.AddOrder (validOrder "a") (some "order with order_uid a already exists")] ∧
    (handleMessage (testEnv (fun _ => 20) [123, 125] (validOrder "a")) (testMsg [123, 125])
        "orders.dlq" (run (NewInMemoryCache 3 10) [Op.save (validOrder "a") 0], 0)
        [validOrder "a"]).cache.1 ≠
      run (NewInMemoryCache 3 10) [Op.save (validOrder "a") 0] ∧
    (run (NewInMemoryCache 3 10) [Op.save (validOrder "a") 0]).lruList.length = 1 ∧
    (handleMessage (testEnv (fun _ => 20) [123, 125] (validOrder "a")) (testMsg [123, 125])
        "orders.dlq" (run (NewInMemoryCache 3 10) [Op.save (validOrder "a") 0], 0)
        [validOrder "a"]).cache.1.lruList.length = 0 := by
  decide

theorem inMemory_OrderExists_not_found (clock : Nat → Time) (c : InMemoryCache) (n : Nat)
    (k : String) (h : ((inMemory clock).OrderExists (c, n) k).2 ≠ (true, none)) :
    ((inMemory clock).OrderExists (c, n) k).1.1 = c ∨
    ∃ e, mapGet c.cache k = some e ∧ clock n > e.Value.exp ∧
      ((inMemory clock).OrderExists (c, n) k).1.1 =
        { c with lruList := listRemove c.lruList e, cache := mapDelete c.cache k } := by
  have h1 : ((inMemory clock).OrderExists (c, n) k).1.1 = (GetOrder c k (clock n)).1 := rfl
  have h2 : ((inMemory clock).OrderExists (c, n) k).2 =
      ((GetOrder c k (clock n)).2.2.1, none) := rfl
  rw [h1]
  rw [h2] at h
  cases hg : mapGet c.cache k with
  | none =>
    left
    rw [GetOrder_absent c k _ hg]
  | some e =>
    by_cases hx : clock n > e.Value.exp
    · right
      exact ⟨e, rfl, hx, by rw [GetOrder_expired c k _ hg hx]⟩
    · rw [GetOrder_live c k _ hg hx] at h
      exact absurd rfl h

/-- C19 (persistence failure isolates the cache): for a message that
deserializes to an order with a non-empty `OrderUID` passing `ValidateOrder` and
that the duplicate check does not report as stored, if `AddOrder` returns an
error then `handleMessage` makes no dead-letter send and no cache `SaveOrder`
call: its calls are the duplicate check and the failed `AddOrder`, and the cache
is left in the state the duplicate check `OrderExists` leaves.  On the in-process
cache a duplicate check that does not find the identifier leaves the state as it
was, or unbinds and unlinks the expired entry of that identifier. -/
theorem persistence_failure_isolated {σ δ : Type} (env : Env σ δ) (msg : ConsumerMessage)
    (dlqTopic : String) (s : σ) (d : δ) (order : Order) (err : error) (hv : msg.Value ≠ [])
    (hu : env.unmarshal msg.Value = Except.ok order) (hid : order.OrderUID ≠ "")
    (hval : ValidateOrder order = true)
    (hnd : (env.appCache.OrderExists s order.OrderUID).2 ≠ (true, none))
    (hadd : (env.db.AddOrder d order).2 = some err) :
    (handleMessage env msg dlqTopic s d).events =
      [Event.OrderExists order.OrderUID (env.appCache.OrderExists s order.OrderUID).2,
        Event.AddOrder order (some err)] ∧
    (handleMessage env msg dlqTopic s d).events.any Event.isDLQ = false ∧
    (handleMessage env msg dlqTopic s d).events.any Event.isSaveOrder = false ∧
    (handleMessage env msg dlqTopic s d).cache =
      (env.appCache.OrderExists s order.OrderUID).1 ∧
    (handleMessage env msg dlqTopic s d).db = (env.db.AddOrder d order).1 ∧
    (∀ (clock : Nat → Time) (c : InMemoryCache) (n : Nat) (k : String),
      ((inMemory clock).OrderExists (c, n) k).2 ≠ (true, none) →
      ((inMemory clock).OrderExists (c, n) k).1.1 = c ∨
      ∃ e, mapGet c.cache k = some e ∧ clock n > e.Value.exp ∧
        ((inMemory clock).OrderExists (c, n) k).1.1 =
          { c with lruList := listRemove c.lruList e, cache := mapDelete c.cache k }) := by
  rw [handleMessage_addFailed env msg dlqTopic s d hv hu hid hval hnd hadd]
  exact ⟨rfl, rfl, rfl, rfl, rfl, inMemory_OrderExists_not_found⟩

theorem persistence_failure_isolated_witness :
    (handleMessage (testEnv (fun _ => 20) [123, 125] (validOrder "a")) (testMsg [123, 125])
        "orders.dlq" (NewInMemoryCache 3 10, 0) [validOrder "a"]).events.any
      Event.isSaveOrder = false :=
  (persistence_failure_isolated (testEnv (fun _ => 20) [123, 125] (validOrder "a"))
    (testMsg [123, 125]) "orders.dlq" (NewInMemoryCache 3 10, 0) [validOrder "a"]
    (validOrder "a") "order with order_uid a already exists" (by decide) rfl (by decide)
    (by decide) (by decide) (by decide)).2.2.1

/-- Two runs that end in neither of the outcomes "written and cached" and "not
written, not cached, dead-lettered".  A duplicate (the in-process cache holds the
live order `a`) is not written, not cached and not dead-lettered; and with a
cache whose `SaveOrder` fails, the order is written to the store but not
cached. -/
theorem neither_admitted_nor_deadLettered :
    ((handleMessage (testEnv (fun _ => 5) [123, 125] (validOrder "a")) (testMsg [123, 125])
        "orders.dlq" (run (NewInMemoryCache 3 10) [Op.save (validOrder "a") 0], 0)
        [validOrder "a"]).events.any Event.isPersisted = false ∧
      (handleMessage (testEnv (fun _ => 5) [123, 125] (validOrder "a")) (testMsg [123, 125])
        "orders.dlq" (run (NewInMemoryCache 3 10) [Op.save (validOrder "a") 0], 0)
        [validOrder "a"]).events.any Event.isCached = false ∧
      (handleMessage (testEnv (fun _ => 5) [123, 125] (validOrder "a")) (testMsg [123, 125])
        "orders.dlq" (run (NewInMemoryCache 3 10) [Op.save (validOrder "a") 0], 0)
        [validOrder "a"]).events.any Event.isDLQ = false) ∧
    ((handleMessage
        { unmarshal := decodeOnly [123, 125] (validOrder "a"), appCache := downCache,
          db := listRepo }
        (testMsg [123, 125]) "orders.dlq" () []).events.any Event.isPersisted = true ∧
      (handleMessage
        { unmarshal := decodeOnly [123, 125] (validOrder "a"), appCache := downCache,
          db := listRepo }
        (testMsg [123, 125]) "orders.dlq" () []).events.any Event.isCached = false) := by
  decide

/-- C20 (outcomes of `handleMessage`): for every non-nil message and all
collaborators, a run ends in exactly one of four outcomes.  Dead-lettered, exactly
when the message is rejected: one dead-letter send, no `AddOrder` and no cache
`SaveOrder` call, both states as before.  Duplicate: neither send nor write, the
repository state as before.  Persistence failed: no send, `AddOrder` returned an
error, `SaveOrder` not called.  Admitted: no send, `AddOrder` returned nil, and
`SaveOrder` called once. -/
theorem handleMessage_outcome {σ δ : Type} (env : Env σ δ) (msg : ConsumerMessage)
    (dlqTopic : String) (s : σ) (d : δ) :
    ∃ o, outcomeOf (handleMessage env msg dlqTopic s d).events = some o ∧
      (o = Outcome.deadLettered ↔ Rejected env msg) ∧
      (o = Outcome.deadLettered →
        (handleMessage env msg dlqTopic s d).events.countP Event.isDLQ = 1 ∧
        (handleMessage env msg dlqTopic s d).events.any Event.isWrite = false ∧
        (handleMessage env msg dlqTopic s d).cache = s ∧
        (handleMessage env msg dlqTopic s d).db = d) ∧
      (o = Outcome.duplicate →
        (handleMessage env msg dlqTopic s d).events.any Event.isDLQ = false ∧
        (handleMessage env msg dlqTopic s d).events.any Event.isWrite = false ∧
        (handleMessage env msg dlqTopic s d).db = d) ∧
      (o = Outcome.persistFailed →
        (handleMessage env msg dlqTopic s d).events.any Event.isDLQ = false ∧
        (handleMessage env msg dlqTopic s d).events.any Event.isPersisted = false ∧
        (handleMessage env msg dlqTopic s d).events.any Event.isSaveOrder = false) ∧
      (o = Outcome.admitted →
        (handleMessage env msg dlqTopic s d).events.any Event.isDLQ = false ∧
        (handleMessage env msg dlqTopic s d).events.any Event.isPersisted = true ∧
        (handleMessage env msg dlqTopic s d).events.countP Event.isSaveOrder = 1) := by
  rcases handleMessage_classify env msg dlqTopic s d with
    ⟨hr, reason, he, _⟩ | ⟨hr, order, cs, he⟩ | ⟨hr, order, cs, ds, res, err, he⟩ |
    ⟨hr, order, cs, ds, res, serr, he⟩
  · rw [he]
    exact ⟨Outcome.deadLettered, rfl, ⟨fun _ => hr, fun _ => rfl⟩,
      fun _ => ⟨rfl, rfl, rfl, rfl⟩, (fun h => by cases h), (fun h => by cases h),
      (fun h => by cases h)⟩
  · rw [he]
    exact ⟨Outcome.duplicate, rfl, ⟨(fun h => by cases h), fun h => absurd h hr⟩,
      (fun h => by cases h), fun _ => ⟨rfl, rfl, rfl⟩, (fun h => by cases h),
      (fun h => by cases h)⟩
  · rw [he]
    exact ⟨Outcome.persistFailed, rfl, ⟨(fun h => by cases h), fun h => absurd h hr⟩,
      (fun h => by cases h), (fun h => by cases h), fun _ => ⟨rfl, rfl, rfl⟩,
      (fun h => by cases h)⟩
  · rw [he]
    exact ⟨Outcome.admitted, rfl, ⟨(fun h => by cases h), fun h => absurd h hr⟩,
      (fun h => by cases h), (fun h => by cases h), (fun h => by cases h),
      fun _ => ⟨rfl, rfl, rfl⟩⟩

theorem copyHeaders_eq (hs : List (Option RecordHeader)) :
    copyHeaders hs = hs.filterMap id := by
  induction hs with
  | nil => rfl
  | cons h rest ih =>
    cases h with
    | none => simp [copyHeaders, ih]
    | some h => simp [copyHeaders, ih]

/-- C21 (dead-letter message content): for every non-nil message `msg`, topic
`dlqTopic` and reason `r`, the message `sendToDLQ` builds has topic `dlqTopic`,
the value `msg.Value`, the key `msg.Key` when it is non-nil and no key otherwise,
and as headers the non-nil headers of `msg` in their order, followed by one header
with key "dlq_reason" and value `r`. -/
theorem sendToDLQ_content (dlqTopic : String) (msg : ConsumerMessage) (r : String) :
    (sendToDLQ dlqTopic msg r).Topic = dlqTopic ∧
    (sendToDLQ dlqTopic msg r).Value = msg.Value ∧
    (sendToDLQ dlqTopic msg r).Key = msg.Key ∧
    (sendToDLQ dlqTopic msg r).Headers =
      msg.Headers.filterMap id ++ [{ Key := bytesOf "dlq_reason", Value := bytesOf r }] ∧
    (∀ h, h ∈ msg.Headers.filterMap id ↔ some h ∈ msg.Headers) ∧
    bytesOf "dlq_reason" = [100, 108, 113, 95, 114, 101, 97, 115, 111, 110] := by
  refine ⟨rfl, rfl, ?_, ?_, ?_, by decide⟩
  · unfold sendToDLQ
    cases msg.Key <;> rfl
  · show copyHeaders msg.Headers ++ _ = _
    rw [copyHeaders_eq]
  · intro h
    simp [List.mem_filterMap]

theorem restoreLoop_eq_foldl {σ : Type} (appCache : Cache σ) (L : List Order) (s : σ) :
    restoreLoop appCache L s = L.foldl (fun s order => (appCache.SaveOrder s order).1) s := by
  induction L generalizing s with
  | nil => rfl
  | cons o rest ih => exact ih _

theorem find?_dropKey_ne (l : List Element) {k uid : String} (h : uid ≠ k) :
    (dropKey l uid).find? (fun e => e.Value.key == k) =
      l.find? (fun e => e.Value.key == k) := by
  induction l with
  | nil => rfl
  | cons a l ih =>
    unfold dropKey at ih ⊢
    by_cases ha : a.Value.key = uid
    · have hk : (a.Value.key == k) = false := by
        rw [ha]; simpa using h
      rw [List.filter_cons_of_neg (by simpa using ha)]
      simp only [List.find?_cons, hk]
      exact ih
    · rw [List.filter_cons_of_pos (by simpa using ha)]
      cases hk : (a.Value.key == k) with
      | true => simp only [List.find?_cons, hk]
      | false =>
        simp only [List.find?_cons, hk]
        exact ih

theorem nodup_length_le_dedup {l₁ l₂ : List String} (hn : l₁.Nodup) (hs : l₁ ⊆ l₂) :
    l₁.length ≤ l₂.dedup.length := by
  apply (List.subperm_of_subset hn _).length_le
  intro x hx
  exact List.mem_dedup.2 (hs hx)

/-- Restoring into the in-process cache: invariant of the loop. -/
theorem restore_inMemory (clock : Nat → Time) (c : InMemoryCache) (n : Nat) (L : List Order)
    (hcap : ((L.map (fun o => o.OrderUID)).dedup.length : Int) ≤ c.capacity) :
    WF (clearThenSave (inMemory clock) L (c, n)).1 ∧
    (clearThenSave (inMemory clock) L (c, n)).1.capacity = c.capacity ∧
    (∀ k, ((clearThenSave (inMemory clock) L (c, n)).1.lruList.find?
        (fun e => e.Value.key == k)).map (fun e => e.Value.value) = lastWithUID L k) := by
  induction L using List.reverseRecOn with
  | nil =>
    refine ⟨Clear_WF c, rfl, ?_⟩
    intro k
    rfl
  | append_singleton P o ih =>
    have hsubset : P.map (fun o => o.OrderUID) ⊆ (P ++ [o]).map (fun o => o.OrderUID) := by
      intro x hx
      rw [List.map_append]
      exact List.mem_append_left _ hx
    have hP : (((P.map (fun o => o.OrderUID)).dedup.length : Nat) : Int) ≤ c.capacity := by
      have := nodup_length_le_dedup (List.nodup_dedup (P.map (fun o => o.OrderUID)))
        (fun x hx => hsubset (List.mem_dedup.1 hx))
      omega
    obtain ⟨hwf, hc, hfind⟩ := ih hP
    have hstep : clearThenSave (inMemory clock) (P ++ [o]) (c, n) =
        ((SaveOrder (clearThenSave (inMemory clock) P (c, n)).1 o
            (clock (clearThenSave (inMemory clock) P (c, n)).2)).1,
          (clearThenSave (inMemory clock) P (c, n)).2 + 1) := by
      simp [clearThenSave, List.foldl_append, inMemory]
    rw [hstep]
    generalize clearThenSave (inMemory clock) P (c, n) = st at *
    obtain ⟨hwf', hl', hc', _, _, _⟩ := SaveOrder_spec st.1 hwf o (clock st.2)
    have hkeys : ∀ e ∈ st.1.lruList, e.Value.key ∈ P.map (fun o => o.OrderUID) := by
      intro e he
      have h1 := hfind e.Value.key
      have h2 : st.1.lruList.find? (fun x => x.Value.key == e.Value.key) = some e := by
        rw [← hwf.mapGet_eq]
        exact hwf.mapGet_of_mem he
      rw [h2] at h1
      simp only [Option.map_some'] at h1
      have h3 := List.find?_some h1.symm
      have h4 := List.mem_of_find?_eq_some h1.symm
      rw [List.mem_reverse] at h4
      exact List.mem_map.2 ⟨_, h4, by simpa using h3⟩
    have hlen : (⟨st.1.nextId, ⟨o.OrderUID, o, clock st.2 + st.1.ttl⟩⟩ ::
        dropKey st.1.lruList o.OrderUID : List Element).length ≤
        ((P ++ [o]).map (fun o => o.OrderUID)).dedup.length := by
      have hnd : ((⟨st.1.nextId, ⟨o.OrderUID, o, clock st.2 + st.1.ttl⟩⟩ ::
          dropKey st.1.lruList o.OrderUID : List Element).map
            (fun e => e.Value.key)).Nodup := by
        rw [List.map_cons, List.nodup_cons]
        refine ⟨?_, ((dropKey_sublist _ _).map _).nodup hwf.keys⟩
        intro hm
        obtain ⟨e, he, hk⟩ := List.mem_map.1 hm
        exact (mem_dropKey.1 he).2 hk
      have := @nodup_length_le_dedup _ ((P ++ [o]).map (fun o => o.OrderUID)) hnd (by
        intro x hx
        rw [List.map_cons, List.mem_cons] at hx
        rcases hx with rfl | hx
        · simp
        · obtain ⟨e, he, rfl⟩ := List.mem_map.1 hx
          exact hsubset (hkeys e ((dropKey_sublist _ _).subset he)))
      simpa using this
    have hlist : (SaveOrder st.1 o (clock st.2)).1.lruList =
        ⟨st.1.nextId, ⟨o.OrderUID, o, clock st.2 + st.1.ttl⟩⟩ ::
          dropKey st.1.lruList o.OrderUID := by
      rw [hl']
      by_cases hpos : st.1.capacity > 0
      · rw [if_pos hpos, List.take_of_length_le]
        rw [hc] at hpos ⊢
        omega
      · rw [if_neg hpos]
    refine ⟨hwf', hc'.trans hc, ?_⟩
    intro k
    show ((SaveOrder st.1 o (clock st.2)).1.lruList.find? _).map _ = _
    rw [hlist]
    unfold lastWithUID
    rw [List.reverse_append, List.reverse_singleton, List.singleton_append]
    by_cases hk : o.OrderUID = k
    · simp [List.find?_cons, hk]
    · have hb : (o.OrderUID == k) = false := by simpa using hk
      simp only [List.find?_cons, hb]
      rw [find?_dropKey_ne _ hk]
      exact hfind k

/-- C22 (cache restore on startup): if `GetOrders` returns the list `L` without
error, `restoreCacheFromDB` returns nil and leaves the cache in the state reached
by `Clear()` followed by `SaveOrder` of each order of `L` in order, failed saves
not stopping the loop; it returns an error exactly when `GetOrders` does, and then
leaves the cache as it was.  For the in-process cache with capacity at least the
number of distinct identifiers of `L`, whatever it held before, that state binds
exactly the identifiers of `L`, each to the last order of `L` carrying it, stores
as many entries as `L` has distinct identifiers, and at an instant at which no
entry has expired `GetOrder` finds exactly these orders. -/
theorem restoreCacheFromDB_spec {σ δ : Type} (env : Env σ δ) (s : σ) (d : δ) :
    (∀ L, (env.db.GetOrders d).2 = (L, none) →
      (restoreCacheFromDB env s d).2.2 = none ∧
      (restoreCacheFromDB env s d).1 = clearThenSave env.appCache L s) ∧
    ((restoreCacheFromDB env s d).2.2 ≠ none ↔ (env.db.GetOrders d).2.2 ≠ none) ∧
    ((env.db.GetOrders d).2.2 ≠ none → (restoreCacheFromDB env s d).1 = s) ∧
    (∀ (clock : Nat → Time) (c : InMemoryCache) (n : Nat) (L : List Order),
      ((L.map (fun o => o.OrderUID)).dedup.length : Int) ≤ c.capacity →
      (∀ k, (mapGet (clearThenSave (inMemory clock) L (c, n)).1.cache k).map
          (fun e => e.Value.value) = lastWithUID L k) ∧
      (clearThenSave (inMemory clock) L (c, n)).1.lruList.length =
        (L.map (fun o => o.OrderUID)).dedup.length ∧
      (∀ now, (∀ e ∈ (clearThenSave (inMemory clock) L (c, n)).1.lruList,
          ¬ now > e.Value.exp) →
        ∀ k, (GetOrder (clearThenSave (inMemory clock) L (c, n)).1 k now).2 =
          match lastWithUID L k with
          | some o => (o, true, none)
          | none => (Order.zero, false, none))) := by
  refine ⟨?_, ?_, ?_, ?_⟩
  · intro L hL
    have h1 : (env.db.GetOrders d).2.2 = none := by rw [hL]
    have h2 : (env.db.GetOrders d).2.1 = L := by rw [hL]
    unfold restoreCacheFromDB
    rw [h1]
    simp only [h2, restoreLoop_eq_foldl, clearThenSave, and_self]
  · unfold restoreCacheFromDB
    cases h : (env.db.GetOrders d).2.2 with
    | none => simp
    | some err => simp
  · intro h
    unfold restoreCacheFromDB
    cases h' : (env.db.GetOrders d).2.2 with
    | none => exact absurd h' h
    | some err => rfl
  · intro clock c n L hcap
    obtain ⟨hwf, _, hfind⟩ := restore_inMemory clock c n L hcap
    generalize clearThenSave (inMemory clock) L (c, n) = st at *
    have hmap : ∀ k, (mapGet st.1.cache k).map (fun e => e.Value.value) = lastWithUID L k := by
      intro k
      rw [hwf.mapGet_eq]
      exact hfind k
    refine ⟨hmap, ?_, ?_⟩
    · have hmem : ∀ k, k ∈ st.1.lruList.map (fun e => e.Value.key) ↔
          k ∈ (L.map (fun o => o.OrderUID)).dedup := by
        intro k
        rw [List.mem_dedup]
        constructor
        · intro hk
          obtain ⟨e, he, rfl⟩ := List.mem_map.1 hk
          have h1 := hmap e.Value.key
          rw [hwf.mapGet_of_mem he] at h1
          simp only [Option.map_some'] at h1
          unfold lastWithUID at h1
          have h3 := List.find?_some h1.symm
          have h4 := List.mem_of_find?_eq_some h1.symm
          rw [List.mem_reverse] at h4
          exact List.mem_map.2 ⟨_, h4, by simpa using h3⟩
        · intro hk
          obtain ⟨o, ho, rfl⟩ := List.mem_map.1 hk
          have h1 := hfind o.OrderUID
          cases hf : st.1.lruList.find? (fun e => e.Value.key == o.OrderUID) with
          | some e =>
            have h3 := List.find?_some hf
            have h4 := List.mem_of_find?_eq_some hf
            exact List.mem_map.2 ⟨e, h4, by simpa using h3⟩
          | none =>
            rw [hf] at h1
            simp only [Option.map_none'] at h1
            unfold lastWithUID at h1
            have := List.find?_eq_none.1 h1.symm o (List.mem_reverse.2 ho)
            simp at this
      have hperm := (List.perm_ext_iff_of_nodup hwf.keys
        (List.nodup_dedup (L.map (fun o => o.OrderUID)))).2 hmem
      have := hperm.length_eq
      simpa using this
    · intro now hlive k
      have hk := hmap k
      cases hg : mapGet st.1.cache k with
      | none =>
        rw [hg] at hk
        simp only [Option.map_none'] at hk
        rw [← hk, GetOrder_absent _ _ _ hg]
      | some e =>
        rw [hg] at hk
        simp only [Option.map_some'] at hk
        have hx := hlive e (hwf.mem_of_mapGet hg).1
        rw [← hk, GetOrder_live _ _ _ hg hx]

end consumer

namespace config

open models cache

theorem ToCacheConfig_cases (ParseDuration : String → Except error Duration)
    (c : CacheConfig) :
    (∃ err, c.TTL ≠ "" ∧ ParseDuration c.TTL = Except.error err ∧
      ToCacheConfig ParseDuration c = (Config.zero, some ("invalid cache.ttl format: " ++ err))) ∨
    (∃ ttl, (c.TTL ≠ "" ∧ ParseDuration c.TTL = Except.ok ttl ∨ c.TTL = "" ∧ ttl = 30 * Minute) ∧
      ToCacheConfig ParseDuration c =
        ({ Type' := c.Type'
           Redis := { Addr := GetCacheAddress c, Password := c.Password, DB := c.DB }
           Capacity := c.Capacity
           TTL := ttl }, none)) := by
  unfold ToCacheConfig
  by_cases h : c.TTL = ""
  · right
    refine ⟨30 * Minute, Or.inr ⟨h, rfl⟩, ?_⟩
    simp [h]
  · cases hp : ParseDuration c.TTL with
    | error err =>
      left
      refine ⟨err, h, rfl, ?_⟩
      simp [h, hp]
    | ok ttl =>
      right
      refine ⟨ttl, Or.inl ⟨h, rfl⟩, ?_⟩
      simp [h, hp]

theorem New_zero {ρ : Type} (NewRedisCache : String → String → Int → Option ρ × Option error)
    (err : Option error) :
    New NewRedisCache Config.zero err = (none, some "unknown cache type: ") := by
  unfold New
  rw [if_neg (by decide), if_neg (by decide)]
  rfl

/-- C23 (configuration errors are fatal at construction): for every `CacheConfig`
`c`, if `c.Type` is neither "redis" nor "inmemory", or it is "inmemory" with
`c.Capacity <= 0`, or `c.TTL` is non-empty and `time.ParseDuration` rejects it,
then `cache.New(c.ToCacheConfig())` returns no cache and a non-nil error. -/
theorem config_errors_fatal {ρ : Type}
    (NewRedisCache : String → String → Int → Option ρ × Option error)
    (ParseDuration : String → Except error Duration) (c : CacheConfig)
    (h : (c.Type' ≠ "redis" ∧ c.Type' ≠ "inmemory") ∨
      (c.Type' = "inmemory" ∧ c.Capacity ≤ 0) ∨
      (c.TTL ≠ "" ∧ ∃ err, ParseDuration c.TTL = Except.error err)) :
    (New NewRedisCache (ToCacheConfig ParseDuration c).1 (ToCacheConfig ParseDuration c).2).1 =
      none ∧
    (New NewRedisCache (ToCacheConfig ParseDuration c).1 (ToCacheConfig ParseDuration c).2).2 ≠
      none := by
  rcases ToCacheConfig_cases ParseDuration c with ⟨err, _, _, he⟩ | ⟨ttl, hp, he⟩
  · rw [he]
    rw [New_zero]
    exact ⟨rfl, by simp⟩
  · rw [he]
    rcases h with ⟨h1, h2⟩ | ⟨h1, h2⟩ | ⟨h1, err, h2⟩
    · simp [New, CacheTypeRedis, CacheTypeInMemory, h1, h2]
    · simp [New, CacheTypeRedis, CacheTypeInMemory, h1, h2]
    · rcases hp with ⟨_, hp⟩ | ⟨hp, _⟩
      · rw [h2] at hp
        cases hp
      · exact absurd hp h1

theorem config_errors_fatal_witness :
    (New noRedis
      (ToCacheConfig sampleParseDuration
        { Type' := "inmemory", Host := "", Port := "", Password := "", DB := 0,
          Capacity := 100, TTL := "soon" }).1
      (ToCacheConfig sampleParseDuration
        { Type' := "inmemory", Host := "", Port := "", Password := "", DB := 0,
          Capacity := 100, TTL := "soon" }).2).1 = none ∧
    (New noRedis
      (ToCacheConfig sampleParseDuration
        { Type' := "inmemory", Host := "", Port := "", Password := "", DB := 0,
          Capacity := 100, TTL := "soon" }).1
      (ToCacheConfig sampleParseDuration
        { Type' := "inmemory", Host := "", Port := "", Password := "", DB := 0,
          Capacity := 100, TTL := "soon" }).2).2 ≠ none :=
  config_errors_fatal noRedis sampleParseDuration
    { Type' := "inmemory", Host := "", Port := "", Password := "", DB := 0,
      Capacity := 100, TTL := "soon" }
    (Or.inr (Or.inr ⟨by decide, "time: invalid duration soon", rfl⟩))

/-- Validated in-memory configurations whose cache is not usable.  With TTL "-5m"
the configuration of capacity 10 passes `Validate` and `cache.New(c.ToCacheConfig())`
returns a cache whose ttl is minus five minutes: an order saved at an instant is
not found at that same instant.  With TTL "1ns" it passes `Validate` as well and
`New` returns a cache of ttl 1, whose goroutine calls `time.NewTicker(0)` and
panics. -/
theorem validated_ttl_not_usable :
    Validate sampleParseDuration
      { Type' := "inmemory", Host := "", Port := "", Password := "", DB := 0,
        Capacity := 10, TTL := "-5m" } = none ∧
    New noRedis
      (ToCacheConfig sampleParseDuration
        { Type' := "inmemory", Host := "", Port := "", Password := "", DB := 0,
          Capacity := 10, TTL := "-5m" }).1
      (ToCacheConfig sampleParseDuration
        { Type' := "inmemory", Host := "", Port := "", Password := "", DB := 0,
          Capacity := 10, TTL := "-5m" }).2 =
      (some (Built.inMemory (NewInMemoryCache 10 (-300000000000))), none) ∧
    (NewInMemoryCache 10 (-300000000000)).ttl < 0 ∧
    (GetOrder (SaveOrder (NewInMemoryCache 10 (-300000000000)) (sampleOrder "a") 1000).1
      "a" 1000).2 = (Order.zero, false, none) ∧
    Validate sampleParseDuration
      { Type' := "inmemory", Host := "", Port := "", Password := "", DB := 0,
        Capacity := 10, TTL := "1ns" } = none ∧
    New noRedis
      (ToCacheConfig sampleParseDuration
        { Type' := "inmemory", Host := "", Port := "", Password := "", DB := 0,
          Capacity := 10, TTL := "1ns" }).1
      (ToCacheConfig sampleParseDuration
        { Type' := "inmemory", Host := "", Port := "", Password := "", DB := 0,
          Capacity := 10, TTL := "1ns" }).2 =
      (some (Built.inMemory (NewInMemoryCache 10 1)), none) ∧
    goStartCleanup 10 1 = Background.panicked := by
  decide

/-- C29 (validated configuration and ttl): for every `CacheConfig` of type
"inmemory" that passes `Validate` and whose TTL, when set, parses to zero or to
a duration of at least 2 nanoseconds, `cache.New(c.ToCacheConfig())` returns an
in-process cache of the configured capacity with a strictly positive ttl (30
minutes when the TTL is unset, one hour when it parses to zero, the parsed
duration otherwise); the goroutine the constructor starts creates its ticker
with the positive period `ttl / 2` and does not panic; and in every state of
that cache an order saved at `t` is found by `GetOrder` at every instant of
`[t, t + ttl]`, also when the background sweep has run in between. -/
theorem validated_config_ttl {ρ : Type}
    (NewRedisCache : String → String → Int → Option ρ × Option error)
    (ParseDuration : String → Except error Duration) (c : CacheConfig)
    (ht : c.Type' = "inmemory") (hv : Validate ParseDuration c = none)
    (hnn : ∀ d, c.TTL ≠ "" → ParseDuration c.TTL = Except.ok d → d = 0 ∨ 2 ≤ d) :
    ∃ ttl : Duration, 0 < ttl ∧
      New NewRedisCache (ToCacheConfig ParseDuration c).1 (ToCacheConfig ParseDuration c).2 =
        (some (Built.inMemory (NewInMemoryCache c.Capacity ttl)), none) ∧
      (c.TTL = "" → ttl = 30 * Minute) ∧
      (∀ d, c.TTL ≠ "" → ParseDuration c.TTL = Except.ok d →
        ttl = if d = 0 then 1 * Hour else d) ∧
      goStartCleanup c.Capacity ttl = Background.sweepEvery (Int.tdiv ttl 2) ∧
      0 < Int.tdiv ttl 2 ∧
      (∀ (ops : List Op) (o : Order) (t t' : Time) (sweeps : List Time), t ≤ t' →
        t' ≤ t + ttl → (∀ s ∈ sweeps, s ≤ t + ttl) →
        (GetOrder
          (run (SaveOrder (run (NewInMemoryCache c.Capacity ttl) ops) o t).1
            (sweeps.map Op.sweep))
          o.OrderUID t').2 = (o, true, none)) := by
  have hcap : ¬ c.Capacity ≤ 0 := by
    intro hc
    simp [Validate, ht, CacheTypeRedis, CacheTypeInMemory, hc] at hv
  have hround : ∀ (ttl : Duration) (ops : List Op) (o : Order) (t t' : Time)
      (sweeps : List Time), t ≤ t' → t' ≤ t + ttl → (∀ s ∈ sweeps, s ≤ t + ttl) →
      (GetOrder
        (run (SaveOrder (run (NewInMemoryCache c.Capacity ttl) ops) o t).1
          (sweeps.map Op.sweep))
        o.OrderUID t').2 = (o, true, none) := by
    intro ttl ops o t t' sweeps _ h₂ hs
    have hwf := run_WF ops _ (WF_new c.Capacity ttl)
    have httl : (run (NewInMemoryCache c.Capacity ttl) ops).ttl = ttl :=
      (run_capacity ops _ (WF_new c.Capacity ttl)).2
    have hg := SaveOrder_mapGet_self _ hwf o t
    rw [httl] at hg
    have hg' := sweeps_keep_live sweeps _ (SaveOrder_spec _ hwf o t).1 _ _ hg hs
    have hx : ¬ t' > (⟨(run (NewInMemoryCache c.Capacity ttl) ops).nextId,
        ⟨o.OrderUID, o, t + ttl⟩⟩ : Element).Value.exp := not_lt.2 h₂
    rw [GetOrder_live _ _ _ hg' hx]
  rcases ToCacheConfig_cases ParseDuration c with ⟨err, hne, hp, _⟩ | ⟨d, hp, he⟩
  · exfalso
    simp [Validate, ht, CacheTypeRedis, CacheTypeInMemory, hcap, hne, hp] at hv
  · have hd : d = 0 ∨ 2 ≤ d := by
      rcases hp with ⟨hne, hp⟩ | ⟨_, hp⟩
      · exact hnn d hne hp
      · rw [hp]; exact Or.inr (by decide)
    have hnew : New NewRedisCache (ToCacheConfig ParseDuration c).1
        (ToCacheConfig ParseDuration c).2 =
        (some (Built.inMemory (NewInMemoryCache c.Capacity (if d = 0 then 1 * Hour else d))),
          none) := by
      rw [he]
      simp [New, ht, CacheTypeRedis, CacheTypeInMemory, hcap]
    have h2 : 2 ≤ (if d = 0 then 1 * Hour else d) := by
      by_cases h0 : d = 0
      · rw [if_pos h0]; decide
      · rw [if_neg h0]
        exact hd.resolve_left h0
    refine ⟨if d = 0 then 1 * Hour else d, (tdiv_two_pos _ h2).1, hnew, ?_, ?_,
      (goStartCleanup_of_two_le c.Capacity _ h2).1, (tdiv_two_pos _ h2).2, hround _⟩
    · intro hempty
      rcases hp with ⟨hne, _⟩ | ⟨_, hp⟩
      · exact absurd hempty hne
      · rw [hp]; decide
    · intro d' hne hp'
      rcases hp with ⟨_, hp⟩ | ⟨hempty, _⟩
      · rw [hp] at hp'
        cases hp'
        rfl
      · exact absurd hempty hne

theorem validated_config_ttl_witness :
    ∃ ttl : Duration, 0 < ttl ∧
      New noRedis
        (ToCacheConfig sampleParseDuration
          { Type' := "inmemory", Host := "", Port := "", Password := "", DB := 0,
            Capacity := 10, TTL := "0s" }).1
        (ToCacheConfig sampleParseDuration
          { Type' := "inmemory", Host := "", Port := "", Password := "", DB := 0,
            Capacity := 10, TTL := "0s" }).2 =
        (some (Built.inMemory (NewInMemoryCache 10 ttl)), none) ∧
      goStartCleanup 10 ttl = Background.sweepEvery (Int.tdiv ttl 2) :=
  (validated_config_ttl noRedis sampleParseDuration
    { Type' := "inmemory", Host := "", Port := "", Password := "", DB := 0,
      Capacity := 10, TTL := "0s" } rfl (by decide)
    (by
      intro d _ hd
      have : d = 0 := by
        have h : sampleParseDuration "0s" = Except.ok 0 := rfl
        rw [h] at hd
        cases hd
        rfl
      exact Or.inl this)).imp (fun _ h => ⟨h.1, h.2.1, h.2.2.2.2.1⟩)

end config

namespace migrations

open cache

/-- Runes `0` to `9`. -/
theorem digit_ne_sign {c : Char} (h : '0' ≤ c ∧ c ≤ '9') : ¬ (c = '-' ∨ c = '+') := by
  rintro (rfl | rfl)
  · exact absurd h.1 (by decide)
  · exact absurd h.1 (by decide)

theorem digit_ne_underscore {c : Char} (h : '0' ≤ c ∧ c ≤ '9') : c ≠ '_' := by
  rintro rfl
  exact absurd h.2 (by decide)

theorem digitsValue_eq (ds : List Char) (acc : Nat) (hd : ∀ c ∈ ds, '0' ≤ c ∧ c ≤ '9') :
    strconv.digitsValue ds acc =
      some (ds.foldl (fun acc c => acc * 10 + (c.toNat - '0'.toNat)) acc) := by
  induction ds generalizing acc with
  | nil => rfl
  | cons c cs ih =>
    have hc := hd c (List.mem_cons_self _ _)
    unfold strconv.digitsValue
    rw [if_pos hc, ih _ (fun x hx => hd x (List.mem_cons_of_mem _ hx))]
    rfl

theorem Atoi_digits (ds : List Char) (hne : ds ≠ []) (hd : ∀ c ∈ ds, '0' ≤ c ∧ c ≤ '9')
    (hfit : (decimalValue ds : Int) ≤ 9223372036854775807) :
    strconv.Atoi ds = Except.ok (decimalValue ds : Int) := by
  cases ds with
  | nil => exact absurd rfl hne
  | cons c rest =>
    have hc := hd c (List.mem_cons_self _ _)
    have hs := digit_ne_sign hc
    have hm : c ≠ '-' := fun e => hs (Or.inl e)
    unfold strconv.Atoi
    simp only [if_neg hs, digitsValue_eq (c :: rest) 0 hd, if_neg hm]
    have hv : (List.foldl (fun acc c => acc * 10 + (c.toNat - '0'.toNat)) 0 (c :: rest)) =
        decimalValue (c :: rest) := rfl
    rw [hv]
    have h0 : (0 : Int) ≤ (decimalValue (c :: rest) : Int) := Int.natCast_nonneg _
    rw [if_neg (by omega)]

theorem decimalValue_zero_cons (ds : List Char) :
    decimalValue ('0' :: ds) = decimalValue ds := by
  unfold decimalValue
  rw [List.foldl_cons]
  have h : 0 * 10 + ('0'.toNat - '0'.toNat) = 0 := by decide
  rw [h]

theorem trimLeftZeros_spec (ds : List Char) (hne : ds ≠ []) :
    trimLeftZeros ds ≠ [] ∧ (∀ c ∈ trimLeftZeros ds, c ∈ ds) ∧
    decimalValue (trimLeftZeros ds) = decimalValue ds := by
  induction ds with
  | nil => exact absurd rfl hne
  | cons c rest ih =>
    cases rest with
    | nil => exact ⟨by simp [trimLeftZeros], by simp [trimLeftZeros], rfl⟩
    | cons d rest =>
      unfold trimLeftZeros
      by_cases hc : c = '0'
      · rw [if_pos hc]
        obtain ⟨h1, h2, h3⟩ := ih (by simp)
        refine ⟨h1, fun x hx => List.mem_cons_of_mem _ (h2 x hx), ?_⟩
        rw [h3, hc, decimalValue_zero_cons]
      · rw [if_neg hc]
        exact ⟨by simp, fun x hx => hx, rfl⟩

theorem splitLoop_cons (c : Char) (rest : List Char) (parts : List (List Char))
    (cur : List Char) :
    splitLoop (c :: rest) parts cur =
      if c = '_' then
        if cur ≠ [] then splitLoop rest (parts ++ [cur]) [] else splitLoop rest parts cur
      else splitLoop rest parts (cur ++ [c]) := by
  conv_lhs => unfold splitLoop

theorem splitLoop_run (ds rest : List Char) (parts : List (List Char)) (cur : List Char)
    (hd : ∀ c ∈ ds, c ≠ '_') :
    splitLoop (ds ++ rest) parts cur = splitLoop rest parts (cur ++ ds) := by
  induction ds generalizing cur with
  | nil => simp
  | cons c cs ih =>
    have hc := hd c (List.mem_cons_self _ _)
    rw [List.cons_append, splitLoop_cons, if_neg hc,
      ih _ (fun x hx => hd x (List.mem_cons_of_mem _ hx))]
    simp

theorem splitLoop_head (rest : List Char) (parts : List (List Char)) (cur p : List Char)
    (hp : parts.head? = some p) : (splitLoop rest parts cur).1.head? = some p := by
  induction rest generalizing parts cur with
  | nil => exact hp
  | cons c cs ih =>
    rw [splitLoop_cons]
    by_cases hc : c = '_'
    · rw [if_pos hc]
      by_cases hcur : cur ≠ []
      · rw [if_pos hcur]
        apply ih
        cases parts with
        | nil => cases hp
        | cons q qs => exact hp
      · rw [if_neg hcur]
        exact ih _ _ hp
    · rw [if_neg hc]
      exact ih _ _ hp

theorem nameParts_head (digits name : List Char) (hne : digits ≠ [])
    (hd : ∀ c ∈ digits, '0' ≤ c ∧ c ≤ '9') :
    ∃ tl, nameParts (digits ++ '_' :: name) = digits :: tl := by
  have h1 : splitLoop (digits ++ '_' :: name) [] [] = splitLoop name [digits] [] := by
    rw [splitLoop_run digits _ [] [] (fun c hc => digit_ne_underscore (hd c hc))]
    rw [List.nil_append, splitLoop_cons, if_pos rfl, if_pos hne]
    rfl
  have h2 := splitLoop_head name [digits] [] digits rfl
  unfold nameParts
  rw [h1]
  cases hs : (splitLoop name [digits] []).1 with
  | nil => rw [hs] at h2; cases h2
  | cons q qs =>
    rw [hs] at h2
    simp only [List.head?_cons, Option.some.injEq] at h2
    rw [h2]
    by_cases hc : (splitLoop name [digits] []).2 ≠ []
    · rw [if_pos hc]; exact ⟨_, rfl⟩
    · rw [if_neg hc]; exact ⟨_, rfl⟩

theorem get_at (l : List Char) (c : Char) (r : List Char) :
    (String.mk (l ++ c :: r)).get ⟨String.utf8Len l⟩ = c := by
  rw [String.get_of_valid]
  rfl

theorem findDot_hit (filename : String) (n : Nat) (h : filename.get ⟨n⟩ = '.') :
    findDot filename n = n := by
  cases n with
  | zero =>
    unfold findDot
    rw [if_pos h]
    rfl
  | succ m =>
    unfold findDot
    rw [if_pos h]

theorem findDot_miss (filename : String) (n : Nat) (h : filename.get ⟨n + 1⟩ ≠ '.') :
    findDot filename (n + 1) = findDot filename n := by
  conv_lhs => unfold findDot
  rw [if_neg h]

theorem namePart_of_dotPos (pre suffix : List Char) (hpre : pre ≠ [])
    (h : dotPos (String.mk (pre ++ suffix)) = String.utf8Len pre) :
    namePart (String.mk (pre ++ suffix)) = String.mk pre := by
  have hpos : 0 < String.utf8Len pre := by
    rcases Nat.eq_zero_or_pos (String.utf8Len pre) with h0 | h0
    · exact absurd (String.utf8Len_eq_zero.1 h0) hpre
    · exact h0
  unfold namePart
  rw [h, if_pos (by exact_mod_cast hpos)]
  have := String.extract_of_valid [] pre suffix
  simpa using this

theorem namePart_up (pre : List Char) (hpre : pre ≠ []) :
    namePart (String.mk (pre ++ ".up.sql".data)) = String.mk pre := by
  apply namePart_of_dotPos pre _ hpre
  have hsize : (String.mk (pre ++ ".up.sql".data)).utf8ByteSize = String.utf8Len pre + 7 := by
    rw [String.utf8ByteSize_mk, String.utf8Len_append]
    rfl
  unfold dotPos
  rw [hsize, if_neg (by omega)]
  have e : String.utf8Len pre + 7 - 5 = String.utf8Len pre + 1 + 1 := by omega
  rw [e]
  have g2 : (String.mk (pre ++ ".up.sql".data)).get ⟨String.utf8Len pre + 1 + 1⟩ = 'p' := by
    have := get_at (pre ++ ['.', 'u']) 'p' ['.', 's', 'q', 'l']
    rw [String.utf8Len_append] at this
    simpa using this
  have g1 : (String.mk (pre ++ ".up.sql".data)).get ⟨String.utf8Len pre + 1⟩ = 'u' := by
    have := get_at (pre ++ ['.']) 'u' ['p', '.', 's', 'q', 'l']
    rw [String.utf8Len_append] at this
    simpa using this
  have g0 : (String.mk (pre ++ ".up.sql".data)).get ⟨String.utf8Len pre⟩ = '.' :=
    get_at pre '.' ['u', 'p', '.', 's', 'q', 'l']
  rw [findDot_miss _ _ (by rw [g2]; decide), findDot_miss _ _ (by rw [g1]; decide),
    findDot_hit _ _ g0]

theorem namePart_down (pre : List Char) (hpre : pre ≠ []) :
    namePart (String.mk (pre ++ ".down.sql".data)) = String.mk pre := by
  apply namePart_of_dotPos pre _ hpre
  have hsize : (String.mk (pre ++ ".down.sql".data)).utf8ByteSize =
      String.utf8Len pre + 9 := by
    rw [String.utf8ByteSize_mk, String.utf8Len_append]
    rfl
  unfold dotPos
  rw [hsize, if_neg (by omega)]
  have e : String.utf8Len pre + 9 - 5 = String.utf8Len pre + 1 + 1 + 1 + 1 := by omega
  rw [e]
  have g4 : (String.mk (pre ++ ".down.sql".data)).get
      ⟨String.utf8Len pre + 1 + 1 + 1 + 1⟩ = 'n' := by
    have := get_at (pre ++ ['.', 'd', 'o', 'w']) 'n' ['.', 's', 'q', 'l']
    rw [String.utf8Len_append] at this
    simpa using this
  have g3 : (String.mk (pre ++ ".down.sql".data)).get ⟨String.utf8Len pre + 1 + 1 + 1⟩ =
      'w' := by
    have := get_at (pre ++ ['.', 'd', 'o']) 'w' ['n', '.', 's', 'q', 'l']
    rw [String.utf8Len_append] at this
    simpa using this
  have g2 : (String.mk (pre ++ ".down.sql".data)).get ⟨String.utf8Len pre + 1 + 1⟩ = 'o' := by
    have := get_at (pre ++ ['.', 'd']) 'o' ['w', 'n', '.', 's', 'q', 'l']
    rw [String.utf8Len_append] at this
    simpa using this
  have g1 : (String.mk (pre ++ ".down.sql".data)).get ⟨String.utf8Len pre + 1⟩ = 'd' := by
    have := get_at (pre ++ ['.']) 'd' ['o', 'w', 'n', '.', 's', 'q', 'l']
    rw [String.utf8Len_append] at this
    simpa using this
  have g0 : (String.mk (pre ++ ".down.sql".data)).get ⟨String.utf8Len pre⟩ = '.' :=
    get_at pre '.' ['d', 'o', 'w', 'n', '.', 's', 'q', 'l']
  rw [findDot_miss _ _ (by rw [g4]; decide), findDot_miss _ _ (by rw [g3]; decide),
    findDot_miss _ _ (by rw [g2]; decide), findDot_miss _ _ (by rw [g1]; decide),
    findDot_hit _ _ g0]

theorem parseVersion_of_namePart (filename : String) (digits name : List Char)
    (hne : digits ≠ []) (hd : ∀ c ∈ digits, '0' ≤ c ∧ c ≤ '9')
    (hfit : (decimalValue digits : Int) ≤ 9223372036854775807)
    (hn : namePart filename = String.mk (digits ++ '_' :: name)) :
    parseVersionFromFilename filename = (decimalValue digits : Int) := by
  obtain ⟨tl, htl⟩ := nameParts_head digits name hne hd
  obtain ⟨t1, t2, t3⟩ := trimLeftZeros_spec digits hne
  unfold parseVersionFromFilename
  rw [hn]
  simp only [htl, if_neg t1]
  rw [Atoi_digits _ t1 (fun c hc => hd c (t2 c hc)) (by rw [t3]; exact hfit), t3]

theorem Split_ne_nil (s : List Char) (sep : Char) : strings.Split s sep ≠ [] := by
  induction s with
  | nil => simp [strings.Split]
  | cons c cs ih =>
    unfold strings.Split
    by_cases hc : c = sep
    · simp [hc]
    · rw [if_neg hc]
      cases h : strings.Split cs sep with
      | nil => simp
      | cons p ps => simp

theorem Split_run (ds rest : List Char) (sep : Char) (hd : ∀ c ∈ ds, c ≠ sep) :
    strings.Split (ds ++ sep :: rest) sep = ds :: strings.Split rest sep := by
  induction ds with
  | nil =>
    rw [List.nil_append]
    conv_lhs => unfold strings.Split
    rw [if_pos rfl]
  | cons c cs ih =>
    have hc := hd c (List.mem_cons_self _ _)
    rw [List.cons_append]
    conv_lhs => unfold strings.Split
    rw [if_neg hc, ih (fun x hx => hd x (List.mem_cons_of_mem _ hx))]

theorem TrimLeft_zero_spec (ds : List Char) :
    (∀ c ∈ strings.TrimLeft ds ['0'], c ∈ ds) ∧
    decimalValue (strings.TrimLeft ds ['0']) = decimalValue ds := by
  induction ds with
  | nil => exact ⟨by simp [strings.TrimLeft], rfl⟩
  | cons c cs ih =>
    unfold strings.TrimLeft at ih ⊢
    by_cases hc : c = '0'
    · have hb : (['0'].contains c) = true := by rw [hc]; decide
      rw [List.dropWhile_cons_of_pos hb]
      refine ⟨fun x hx => List.mem_cons_of_mem _ (ih.1 x hx), ?_⟩
      rw [ih.2, hc, decimalValue_zero_cons]
    · have hb : ¬ (['0'].contains c) = true := by simpa using hc
      rw [List.dropWhile_cons_of_neg hb]
      exact ⟨fun x hx => hx, rfl⟩

theorem entryVersion_of_form (migrationType : String) (suffix digits name : List Char)
    (hs : ("." ++ migrationType ++ ".sql").data = suffix)
    (hd : ∀ c ∈ digits, '0' ≤ c ∧ c ≤ '9')
    (hfit : (decimalValue digits : Int) ≤ 9223372036854775807) :
    entryVersion migrationType (String.mk (digits ++ '_' :: name ++ suffix)) =
      some (decimalValue digits : Int) := by
  have hsplit : strings.Split (digits ++ '_' :: name ++ suffix) '_' =
      digits :: strings.Split (name ++ suffix) '_' := by
    have := Split_run digits (name ++ suffix) '_' (fun c hc => digit_ne_underscore (hd c hc))
    simpa using this
  have hlen : ¬ (digits :: strings.Split (name ++ suffix) '_').length < 2 := by
    cases h : strings.Split (name ++ suffix) '_' with
    | nil => exact absurd h (Split_ne_nil _ _)
    | cons p ps => simp
  have hsuf : strings.HasSuffix (digits ++ '_' :: name ++ suffix) suffix = true := by
    unfold strings.HasSuffix
    rw [List.isSuffixOf_iff_suffix]
    exact List.suffix_append _ _
  obtain ⟨t2, t3⟩ := TrimLeft_zero_spec digits
  have hz : strconv.Atoi ['0'] = Except.ok 0 := rfl
  unfold entryVersion
  simp only [hs, hsuf, Bool.not_true, Bool.false_eq_true, if_false, hsplit,
    List.headD_cons]
  rw [if_neg hlen]
  by_cases he : strings.TrimLeft digits ['0'] = []
  · rw [if_pos he, hz]
    have h0 : decimalValue digits = 0 := by rw [← t3, he]; rfl
    rw [h0]
    rfl
  · rw [if_neg he, Atoi_digits _ he (fun c hc => hd c (t2 c hc)) (by rw [t3]; exact hfit), t3]

/-- C26 (migration version parsing): for digits `d` (a non-empty run of `0`..`9`
whose value fits in a 64-bit `int`) and a name `n` without a dot,
`parseVersionFromFilename` returns the decimal value of `d` on `d_n.up.sql` and on
`d_n.down.sql`, and `getMigrationFiles` assigns that same version to the file,
for the migration type of its suffix. -/
theorem parseVersion_spec (digits name : List Char) (hne : digits ≠ [])
    (hd : ∀ c ∈ digits, '0' ≤ c ∧ c ≤ '9')
    (hfit : (decimalValue digits : Int) ≤ 9223372036854775807) (hname : '.' ∉ name) :
    parseVersionFromFilename (String.mk (digits ++ '_' :: name ++ ".up.sql".data)) =
      (decimalValue digits : Int) ∧
    parseVersionFromFilename (String.mk (digits ++ '_' :: name ++ ".down.sql".data)) =
      (decimalValue digits : Int) ∧
    entryVersion "up" (String.mk (digits ++ '_' :: name ++ ".up.sql".data)) =
      some (parseVersionFromFilename
        (String.mk (digits ++ '_' :: name ++ ".up.sql".data))) ∧
    entryVersion "down" (String.mk (digits ++ '_' :: name ++ ".down.sql".data)) =
      some (parseVersionFromFilename
        (String.mk (digits ++ '_' :: name ++ ".down.sql".data))) := by
  have _ := hname
  have hpre : digits ++ '_' :: name ≠ [] := by simp
  have hup : parseVersionFromFilename
      (String.mk (digits ++ '_' :: name ++ ".up.sql".data)) = (decimalValue digits : Int) := by
    apply parseVersion_of_namePart _ digits name hne hd hfit
    have := namePart_up (digits ++ '_' :: name) hpre
    simpa using this
  have hdown : parseVersionFromFilename
      (String.mk (digits ++ '_' :: name ++ ".down.sql".data)) =
      (decimalValue digits : Int) := by
    apply parseVersion_of_namePart _ digits name hne hd hfit
    have := namePart_down (digits ++ '_' :: name) hpre
    simpa using this
  refine ⟨hup, hdown, ?_, ?_⟩
  · rw [hup]
    exact entryVersion_of_form "up" _ digits name rfl hd hfit
  · rw [hdown]
    exact entryVersion_of_form "down" _ digits name rfl hd hfit

theorem parseVersion_spec_witness :
    parseVersionFromFilename
      (String.mk ("001".data ++ '_' :: "create_orders".data ++ ".up.sql".data)) =
      (decimalValue "001".data : Int) ∧
    decimalValue "001".data = 1 ∧ decimalValue "000".data = 0 ∧
    String.mk ("001".data ++ '_' :: "create_orders".data ++ ".up.sql".data) =
      "001_create_orders.up.sql" :=
  ⟨(parseVersion_spec "001".data "create_orders".data (by decide) (by decide) (by decide)
    (by decide)).1, by decide, by decide, by decide⟩

end migrations
